import Mathlib

/-!
# LinnectFlow: template rendering and usage-limit accounting

A shallow embedding of `src/lib/template-engine.js`, `src/lib/storage-manager.js`
and `src/lib/linkedin-limits.js`, followed by the properties proved about it.

Modelling conventions.

* A JavaScript string is a Lean `String`; the scanning functions work on its list of
  characters.  `length` and `<` on strings are taken over UTF-16 code units, as in
  JavaScript (`utf16Units`).
* A thrown `TypeError` is the `Except.error` outcome.
* Profile values range over the kinds of value the data model of the profile record
  allows: strings, `null`, sequences of strings, and `undefined` for an absent key.
  Properties inherited from `Object.prototype` are not part of the model.
* Counters are integers; arithmetic on them is exact (values stay in the range where
  double-precision arithmetic on integers is exact).  Percentages are exact rationals,
  with the JavaScript results of a division by zero kept apart (`JSNumber`).
* The clock is a parameter: the civil date (UTC) that `new Date()` reads during the call.
-/

namespace LinnectFlow

/-! ## JavaScript strings -/

/-- UTF-16 code units of a character sequence: what JavaScript indexes, counts and compares. -/
def utf16Units : List Char → List Nat
  | [] => []
  | c :: cs =>
    if c.toNat < 0x10000 then c.toNat :: utf16Units cs
    else (0xD800 + (c.toNat - 0x10000) / 0x400) ::
         (0xDC00 + (c.toNat - 0x10000) % 0x400) :: utf16Units cs

/-- JavaScript `s.length`. -/
def jsLength (s : String) : Nat := (utf16Units s.data).length

/-- Lexicographic order on code-unit sequences. -/
def unitsLt : List Nat → List Nat → Bool
  | _, [] => false
  | [], _ :: _ => true
  | a :: as, b :: bs => a < b || (a == b && unitsLt as bs)

/-- JavaScript `a < b` on two strings. -/
def jsStrLt (a b : String) : Bool := unitsLt (utf16Units a.data) (utf16Units b.data)

/-- The regular-expression class `\w` (no `u` flag): ASCII letters, digits, underscore. -/
def isWordChar (c : Char) : Bool := c.isAlphanum || c == '_'

/-- The regular-expression class `\s`, which is also what `String.prototype.trim` strips. -/
def isJSSpace (c : Char) : Bool :=
  let n := c.toNat
  n == 9 || n == 10 || n == 11 || n == 12 || n == 13 || n == 32 || n == 0xA0 ||
  n == 0x1680 || (0x2000 ≤ n && n ≤ 0x200A) || n == 0x2028 || n == 0x2029 ||
  n == 0x202F || n == 0x205F || n == 0x3000 || n == 0xFEFF

/-- JavaScript `s.split(sep)` for a one-character separator: at least one segment. -/
def splitOnChar (sep : Char) : List Char → List (List Char)
  | [] => [[]]
  | c :: cs =>
    if c = sep then [] :: splitOnChar sep cs
    else
      match splitOnChar sep cs with
      | [] => [[c]]
      | seg :: segs => (c :: seg) :: segs

/-- JavaScript `s.trim()` on a character sequence. -/
def trimChars (s : List Char) : List Char :=
  ((s.dropWhile isJSSpace).reverse.dropWhile isJSSpace).reverse

/-- JavaScript `xs.join(sep)` on a sequence of strings. -/
def joinWith (sep : String) : List String → String
  | [] => ""
  | [x] => x
  | x :: y :: rest => x ++ sep ++ joinWith sep (y :: rest)

/-! ## JavaScript values and profile records -/

/-- The only exception the modelled code can raise: calling a method a value lacks. -/
inductive JSError
  | typeError
  deriving DecidableEq, Repr

deriving instance DecidableEq for Except

/-- Values a property of a profile record reads as: what the record holds, and what it
inherits from `Object.prototype`.  `fn name` is the built-in function of that name, `obj` a
plain object without own properties. -/
inductive JSValue
  | undefined
  | null
  | str (s : String)
  | arr (items : List String)
  | fn (name : String)
  | obj
  deriving DecidableEq, Repr

namespace JSValue

/-- JavaScript truthiness: `if (v)`, `!v`, `v || w`. -/
def truthy : JSValue → Bool
  | undefined => false
  | null => false
  | str s => decide (s ≠ "")
  | arr _ => true
  | fn _ => true
  | obj => true

/-- Test `v !== null && v !== undefined`. -/
def isPresent : JSValue → Bool
  | undefined => false
  | null => false
  | _ => true

/-- String conversion applied to what a replace callback returns: an array prints its
items separated by a comma, a built-in function prints as native code. -/
def toJSString : JSValue → String
  | undefined => "undefined"
  | null => "null"
  | str s => s
  | arr items => joinWith "," items
  | fn name => "function " ++ name ++ "() \x7b [native code] \x7d"
  | obj => "[object Object]"

/-- JavaScript `a || b`. -/
def orElse (a b : JSValue) : JSValue := if a.truthy then a else b

end JSValue

/-- A profile-data record: a plain object, given by its own fields. -/
structure Profile where
  fields : List (String × JSValue)
  deriving DecidableEq, Repr

/-- Own-property lookup on an association list. -/
def lookupOwn (key : String) : List (String × JSValue) → Option JSValue
  | [] => none
  | (k, v) :: rest => if k = key then some v else lookupOwn key rest

/-- The properties a plain object inherits from `Object.prototype`: the constructor
`Object`, the built-in methods, and the accessor `__proto__`, which reads as the prototype
object itself. -/
def objectPrototype : List (String × JSValue) :=
  [ ("constructor", .fn "Object"),
    ("__defineGetter__", .fn "__defineGetter__"),
    ("__defineSetter__", .fn "__defineSetter__"),
    ("hasOwnProperty", .fn "hasOwnProperty"),
    ("__lookupGetter__", .fn "__lookupGetter__"),
    ("__lookupSetter__", .fn "__lookupSetter__"),
    ("isPrototypeOf", .fn "isPrototypeOf"),
    ("propertyIsEnumerable", .fn "propertyIsEnumerable"),
    ("toString", .fn "toString"),
    ("valueOf", .fn "valueOf"),
    ("__proto__", .obj),
    ("toLocaleString", .fn "toLocaleString") ]

/-- JavaScript `profileData[key]`: the own field when the record has one, else the
property inherited from `Object.prototype`, else `undefined`. -/
def Profile.get (P : Profile) (key : String) : JSValue :=
  match lookupOwn key P.fields with
  | some v => v
  | none =>
    match lookupOwn key objectPrototype with
    | some v => v
    | none => .undefined

/-! ## TemplateEngine -/

/-- One attempt of `/\{\{(\w+)\}\}/` anchored at the head of `s`: the captured name and
the text after the match.  `\w+` is greedy and no shorter run can be followed by `}}`. -/
def matchVariable : List Char → Option (List Char × List Char)
  | '{' :: '{' :: t =>
    match t.takeWhile isWordChar, t.dropWhile isWordChar with
    | _ :: _, '}' :: '}' :: rest => some (t.takeWhile isWordChar, rest)
    | _, _ => none
  | _ => none

/-- What a global scan of `variableRegex` sees: characters outside any match, and matches
with their captured name. -/
inductive Piece
  | text (c : Char)
  | hit (name : List Char)
  deriving DecidableEq, Repr

/-- Left-to-right scan with the global `variableRegex`: at each position either a match
is taken and the scan resumes after it, or one character is passed over.  `fuel` bounds
the number of steps; the length of the input always suffices. -/
def scanAux : Nat → List Char → List Piece
  | 0, _ => []
  | _ + 1, [] => []
  | fuel + 1, c :: cs =>
    match matchVariable (c :: cs) with
    | some (name, rest) => Piece.hit name :: scanAux fuel rest
    | none => Piece.text c :: scanAux fuel cs

/-- The successive matches of `variableRegex` in `s`, with the text between them. -/
def scanVariables (s : List Char) : List Piece := scanAux s.length s

/-- The text a piece stands for in the template: `match` for a hit. -/
def Piece.source : Piece → List Char
  | .text c => [c]
  | .hit name => '{' :: '{' :: (name ++ ['}', '}'])

/-- The captured names of the matches among the pieces, in order. -/
def hitNames : List Piece → List String
  | [] => []
  | .text _ :: ps => hitNames ps
  | .hit name :: ps => ⟨name⟩ :: hitNames ps

/-- JavaScript `set.add(x)` on a `Set` listed in insertion order. -/
def setAdd (set : List String) (x : String) : List String :=
  if x ∈ set then set else set ++ [x]

/-- Method `getVariables`: the captured names, each once, in order of first appearance. -/
def getVariables (template : String) : List String :=
  (hitNames (scanVariables template.data)).foldl setAdd []

/-- Method `extractFirstName`. -/
def extractFirstName (fullName : JSValue) : Except JSError JSValue :=
  if !fullName.truthy then .ok (.str "")
  else
    match fullName with
    | .str s => .ok (.str ⟨(splitOnChar ' ' s.data).headD []⟩)
    | _ => .error .typeError

/-- Method `extractLastName`. -/
def extractLastName (fullName : JSValue) : Except JSError JSValue :=
  if !fullName.truthy then .ok (.str "")
  else
    match fullName with
    | .str s =>
      let parts := splitOnChar ' ' s.data
      .ok (.str (if parts.length > 1 then ⟨parts.getLastD []⟩ else ""))
    | _ => .error .typeError

/-- The capture group of `/\bat\s+([^|,]+)/i` for an attempt anchored at the head of `s`,
where `prevWord` tells whether the character before is a word character.  `\s+` takes
the whole run of white space; when nothing capturable follows it gives one character
back, which the group then takes. -/
def matchAtCompany (prevWord : Bool) : List Char → Option (List Char)
  | a :: t :: rest =>
    if !prevWord && (a == 'a' || a == 'A') && (t == 't' || t == 'T') then
      let ws := rest.takeWhile isJSSpace
      let after := rest.dropWhile isJSSpace
      let cap := after.takeWhile (fun c => c != '|' && c != ',')
      match ws, cap with
      | [], _ => none
      | _ :: _, _ :: _ => some cap
      | [_], [] => none
      | w :: w2 :: more, [] => some [(w :: w2 :: more).getLastD w]
    else none
  | _ => none

/-- First match of `/\bat\s+([^|,]+)/i` in `s`, scanning from the left. -/
def findAtCompany (prevWord : Bool) : List Char → Option (List Char)
  | [] => none
  | c :: cs =>
    match matchAtCompany prevWord (c :: cs) with
    | some cap => some cap
    | none => findAtCompany (isWordChar c) cs

/-- Method `extractCompanyFromHeadline`. -/
def extractCompanyFromHeadline (headline : JSValue) : Except JSError JSValue :=
  if !headline.truthy then .ok (.str "")
  else
    match headline with
    | .str s =>
      match findAtCompany false s.data with
      | some cap => .ok (.str ⟨trimChars cap⟩)
      | none =>
        match splitOnChar '|' s.data with
        | _ :: second :: _ => .ok (.str ⟨trimChars second⟩)
        | _ => .ok (.str "")
    | _ => .error .typeError

/-- Expression `profileData.headline?.split('|')[0]?.trim()`. -/
def headlineRole (headline : JSValue) : Except JSError JSValue :=
  match headline with
  | .undefined => .ok .undefined
  | .null => .ok .undefined
  | .str s => .ok (.str ⟨trimChars ((splitOnChar '|' s.data).headD [])⟩)
  | _ => .error .typeError

/-- Method `getProfileValue`: the direct mapping, then the switch on the variable name. -/
def getProfileValue (varName : String) (P : Profile) : Except JSError JSValue :=
  if (P.get varName).truthy then .ok (P.get varName)
  else if varName = "firstName" then extractFirstName (P.get "name")
  else if varName = "lastName" then extractLastName (P.get "name")
  else if varName = "fullName" ∨ varName = "name" then .ok (P.get "name")
  else if varName = "company" ∨ varName = "currentCompany" then
    if (P.get "company").truthy then .ok (P.get "company")
    else extractCompanyFromHeadline (P.get "headline")
  else if varName = "role" ∨ varName = "title" ∨ varName = "position" then
    if (P.get "primaryRole").truthy then .ok (P.get "primaryRole")
    else headlineRole (P.get "headline")
  else if varName = "headline" then .ok (P.get "headline")
  else if varName = "location" then .ok (P.get "location")
  else if varName = "industry" then .ok (P.get "industry")
  else if varName = "school" ∨ varName = "education" then .ok (P.get "school")
  else if varName = "mutualConnections" ∨ varName = "mutuals" then
    .ok ((P.get "mutualConnections").orElse (.str "0"))
  else if varName = "skills" then
    if (P.get "skills").truthy then
      match P.get "skills" with
      | .arr items => .ok (.str (joinWith ", " items))
      | _ => .error .typeError
    else .ok (.str "")
  else if varName = "recentActivity" then .ok (P.get "recentActivity")
  else .ok .null

/-- The names the switch of `getProfileValue` has a case for. -/
def aliasNames : List String :=
  ["firstName", "lastName", "fullName", "name", "company", "currentCompany", "role",
   "title", "position", "headline", "location", "industry", "school", "education",
   "mutualConnections", "mutuals", "skills", "recentActivity"]

/-- The replace callback of `render`: the resolved value as text, or the match itself
when the value is `null` or `undefined`. -/
def replacement (name : List Char) (P : Profile) : Except JSError (List Char) :=
  match getProfileValue ⟨name⟩ P with
  | .ok value =>
    if value.isPresent then .ok value.toJSString.data else .ok (Piece.source (.hit name))
  | .error e => .error e

/-- The text `replace` builds from the scanned pieces. -/
def renderPieces (P : Profile) : List Piece → Except JSError (List Char)
  | [] => .ok []
  | .text c :: ps =>
    match renderPieces P ps with
    | .ok out => .ok (c :: out)
    | .error e => .error e
  | .hit name :: ps =>
    match replacement name P, renderPieces P ps with
    | .ok r, .ok out => .ok (r ++ out)
    | .error e, _ => .error e
    | _, .error e => .error e

/-- Method `render`.  An absent (`null`/`undefined`) argument is `none`. -/
def render (template : Option String) (profileData : Option Profile) :
    Except JSError (Option String) :=
  match template, profileData with
  | some t, some P =>
    if t = "" then .ok template
    else
      match renderPieces P (scanVariables t.data) with
      | .ok out => .ok (some ⟨out⟩)
      | .error e => .error e
  | _, _ => .ok template

/-- Number of matches of a global regular expression for the doubled character `c`
(`/\{\{/g` or `/\}\}/g`): matches do not overlap. -/
def countPairs (c : Char) : List Char → Nat
  | a :: b :: rest =>
    if a = c ∧ b = c then countPairs c rest + 1 else countPairs c (b :: rest)
  | _ => 0

/-- One attempt of `/\{\{\s*\}\}/` anchored at the head of `s`. -/
def emptyVariableAt : List Char → Bool
  | '{' :: '{' :: t =>
    match t.dropWhile isJSSpace with
    | '}' :: '}' :: _ => true
    | _ => false
  | _ => false

/-- Whether `/\{\{\s*\}\}/` matches somewhere in `s`. -/
def hasEmptyVariable : List Char → Bool
  | [] => false
  | c :: cs => emptyVariableAt (c :: cs) || hasEmptyVariable cs

/-- What `validate` returns. -/
structure Validation where
  valid : Bool
  errors : List String
  deriving DecidableEq, Repr

/-- The length error of `validate`, with the length in decimal. -/
def lengthError (n : Nat) : String :=
  "Template is " ++ toString n ++ " characters (max 300 for connection requests)"

/-- Method `validate`. -/
def validate (template : String) : Validation :=
  let openBraces := countPairs '{' template.data
  let closeBraces := countPairs '}' template.data
  let errors1 : List String :=
    if openBraces ≠ closeBraces then ["Unclosed variable brackets detected"] else []
  let errors2 : List String :=
    if hasEmptyVariable template.data then errors1 ++ ["Empty variable brackets detected"]
    else errors1
  let errors3 : List String :=
    if jsLength template > 300 then errors2 ++ [lengthError (jsLength template)]
    else errors2
  { valid := errors3.length == 0, errors := errors3 }

/-! ## LinkedInLimitsManager -/

/-- A JavaScript number as the limit arithmetic produces it: an exact rational, or one of
the results of a division by zero. -/
inductive JSNumber
  | nan
  | negInf
  | posInf
  | fin (q : ℚ)
  deriving DecidableEq

namespace JSNumber

/-- JavaScript `a / b` on integers. -/
def div (a b : Int) : JSNumber :=
  if b = 0 then (if a = 0 then nan else if 0 < a then posInf else negInf)
  else fin ((a : ℚ) / (b : ℚ))

/-- JavaScript `x * 100`. -/
def times100 : JSNumber → JSNumber
  | fin q => fin (q * 100)
  | x => x

/-- JavaScript `x >= t` for a finite `t`. -/
def ge (x : JSNumber) (t : ℚ) : Bool :=
  match x with
  | nan => false
  | negInf => false
  | posInf => true
  | fin q => decide (t ≤ q)

/-- JavaScript `Math.round(x)`: the nearest integer, halves going up. -/
def round : JSNumber → JSNumber
  | fin q => fin (⌊q + 1 / 2⌋ : Int)
  | x => x

end JSNumber

/-- The integer nearest to the quotient `a / b`, a tie going to the even one: the rounding
of IEEE 754 arithmetic. -/
def roundHalfEven (a b : Nat) : Nat :=
  if 2 * (a % b) < b then a / b
  else if b < 2 * (a % b) then a / b + 1
  else if (a / b) % 2 = 0 then a / b else a / b + 1

/-- A finite double-precision number, written as a fraction with a power of two below. -/
structure Fraction where
  num : Int
  den : Nat
  deriving DecidableEq, Repr

/-- Search for the position of the leading bit; `fuel` bounds the number of halvings. -/
def log2Aux : Nat → Nat → Nat
  | 0, _ => 0
  | fuel + 1, n => if n < 2 then 0 else log2Aux fuel (n / 2) + 1

/-- The position of the leading bit of `n`: the largest `k` with `2 ^ k ≤ n`. -/
def floorLog2 (n : Nat) : Nat := log2Aux n n

/-- The double nearest to the quotient `num / den` (53 significant bits, ties to even): what
an IEEE 754 division or multiplication returns for that exact result.  The exponent range
is not modelled: results between 2^-1022 and 2^1024 in size are exact. -/
def nearestDouble (num : Int) (den : Nat) : Fraction :=
  if num = 0 ∨ den = 0 then ⟨0, 1⟩
  else
    let a := num.natAbs
    let la := floorLog2 a
    let lb := floorLog2 den
    let shift := if den * 2 ^ la ≤ a * 2 ^ lb then 52 + lb else 53 + lb
    let m := roundHalfEven (a * 2 ^ shift) (den * 2 ^ la)
    ⟨Int.sign num * ((m * 2 ^ la : Nat) : Int), 2 ^ shift⟩

/-- JavaScript `Math.round(x)` on a finite double: the integer nearest to `x`, a half going
up. -/
def mathRound (x : Fraction) : Int := (2 * x.num + (x.den : Int)) / (2 * (x.den : Int))

/-- The double `(current / limit) * 100` of `createLimitStatus`, for `limit ≠ 0`: the
quotient is rounded to a double, and so is its product with 100. -/
def doublePercentage (current limit : Int) : Fraction :=
  let quotient := nearestDouble (current * limit.sign) limit.natAbs
  nearestDouble (quotient.num * 100) quotient.den

/-- Table `LINKEDIN_LIMITS.safe_limits`. -/
def connection_requests_per_week : Int := 80

/-- Table `LINKEDIN_LIMITS.safe_limits`. -/
def connection_requests_per_day : Int := 15

/-- Table `LINKEDIN_LIMITS.safe_limits`. -/
def messages_per_day : Int := 40

/-- Constant `LINKEDIN_LIMITS.warning_threshold`. -/
def warning_threshold : ℚ := 0.8

/-- Constant `LINKEDIN_LIMITS.critical_threshold`. -/
def critical_threshold : ℚ := 0.95

/-- What `createLimitStatus` returns. -/
structure LimitStatus where
  type : String
  current : Int
  limit : Int
  remaining : Int
  percentage : JSNumber
  status : String
  level : String
  canProceed : Bool
  message : String
  deriving DecidableEq

/-- Method `getStatusMessage`. -/
def getStatusMessage (type status : String) (current limit remaining : Int) : String :=
  if status = "critical" then
    "⛔ " ++ toString current ++ "/" ++ toString limit ++ " " ++ type ++
      " sent. You\x27re at your limit!"
  else if status = "warning" then
    "⚠️ " ++ toString current ++ "/" ++ toString limit ++ " " ++ type ++
      " sent. Slow down to avoid restrictions."
  else
    "✅ " ++ toString current ++ "/" ++ toString limit ++ " " ++ type ++
      " sent today. " ++ toString remaining ++ " remaining."

/-- The `status` that `createLimitStatus` assigns to a percentage. -/
def statusOf (percentage : JSNumber) : String :=
  if percentage.ge (critical_threshold * 100) then "critical"
  else if percentage.ge (warning_threshold * 100) then "warning"
  else "safe"

/-- The `level` that `createLimitStatus` assigns to a percentage. -/
def levelOf (percentage : JSNumber) : String :=
  if percentage.ge (critical_threshold * 100) then "danger"
  else if percentage.ge (warning_threshold * 100) then "warning"
  else "success"

/-- Method `createLimitStatus`.  The threshold tests are made on the exact value of
`(current / limit) * 100`, which gives the status and the level of the double the code
compares for every count up to `10 ^ 13` and every limit from 1 to `10 ^ 13`
(`createLimitStatus_status_of_double`); the `percentage` property is `Math.round` of the
double the code computes for it (`NaN` or an infinity when `limit` is 0, which `Math.round`
leaves as it is). -/
def createLimitStatus (type : String) (current limit : Int) : LimitStatus :=
  let percentage := (JSNumber.div current limit).times100
  let remaining := max 0 (limit - current)
  let status := statusOf percentage
  { type := type
    current := current
    limit := limit
    remaining := remaining
    percentage :=
      if limit = 0 then percentage.round
      else JSNumber.fin (mathRound (doublePercentage current limit) : Int)
    status := status
    level := levelOf percentage
    canProceed := decide (current < limit)
    message := getStatusMessage type status current limit remaining }

/-! ## Calendar -/

/-- A civil date of the proleptic Gregorian calendar, as `Date` keeps it in UTC. -/
structure CivilDate where
  year : Int
  month : Nat
  day : Nat
  deriving DecidableEq, Repr

/-- Leap years of the Gregorian calendar. -/
def isLeapYear (y : Int) : Bool := (y % 4 == 0 && y % 100 != 0) || y % 400 == 0

/-- Number of days of month `m` in year `y`. -/
def daysInMonth (y : Int) (m : Nat) : Nat :=
  if m = 2 then (if isLeapYear y then 29 else 28)
  else if m = 4 ∨ m = 6 ∨ m = 9 ∨ m = 11 then 30
  else 31

/-- A date that exists in the calendar. -/
def CivilDate.Valid (d : CivilDate) : Prop :=
  1 ≤ d.month ∧ d.month ≤ 12 ∧ 1 ≤ d.day ∧ d.day ≤ daysInMonth d.year d.month

instance (d : CivilDate) : Decidable d.Valid := by
  unfold CivilDate.Valid; infer_instance

/-- The day before `d`. -/
def prevDay (d : CivilDate) : CivilDate :=
  if 1 < d.day then { d with day := d.day - 1 }
  else if 1 < d.month then
    { d with month := d.month - 1, day := daysInMonth d.year (d.month - 1) }
  else { year := d.year - 1, month := 12, day := 31 }

/-- The day after `d`. -/
def nextDay (d : CivilDate) : CivilDate :=
  if d.day < daysInMonth d.year d.month then { d with day := d.day + 1 }
  else if d.month < 12 then { d with month := d.month + 1, day := 1 }
  else { year := d.year + 1, month := 1, day := 1 }

/-- The date `n` days before `d`: what `setDate(getDate() - n)` moves the date to, in the
calendar `getDate` reads it in. -/
def daysBefore : Nat → CivilDate → CivilDate
  | 0, d => d
  | n + 1, d => daysBefore n (prevDay d)

/-- The date `n` days after `d`. -/
def daysAfter : Nat → CivilDate → CivilDate
  | 0, d => d
  | n + 1, d => daysAfter n (nextDay d)

/-- The date and the minute of the day that lie `k` minutes after the minute `m` of the
date `d` (before it when `k` is negative). -/
def shiftMinutes (d : CivilDate) (m : Nat) (k : Int) : CivilDate × Nat :=
  let total : Int := (m : Int) + k
  let days : Int := total / 1440
  (if 0 ≤ days then daysAfter days.toNat d else daysBefore (-days).toNat d,
    (total % 1440).toNat)

/-- What the platform knows of the local time zone, in minutes east of UTC: `offsetAt` is
the offset in force at an instant, given by its UTC date and minute of the day;
`offsetOfLocal` is the offset by which a local date and minute of the day is turned back
into an instant. -/
structure TimeZone where
  offsetAt : CivilDate → Nat → Int
  offsetOfLocal : CivilDate → Nat → Int

/-- One reading `new Date()` of the clock: the UTC date and the UTC minute of the day, on a
machine in the time zone `zone`. -/
structure Clock where
  date : CivilDate
  minute : Nat
  zone : TimeZone

/-- The date `toISOString` prints for `new Date()` after `setDate(getDate() - n)`: the
local date and time of day of the reading, `n` days back in the local calendar at the same
time of day, turned back into an instant and read in UTC. -/
def Clock.localDaysAgo (now : Clock) (n : Nat) : CivilDate :=
  let localNow := shiftMinutes now.date now.minute (now.zone.offsetAt now.date now.minute)
  let localDay := daysBefore n localNow.1
  (shiftMinutes localDay localNow.2 (-now.zone.offsetOfLocal localDay localNow.2)).1

/-- Chronological order on civil dates. -/
def CivilDate.before (a b : CivilDate) : Prop :=
  a.year < b.year ∨ (a.year = b.year ∧ (a.month < b.month ∨ (a.month = b.month ∧ a.day < b.day)))

instance (a b : CivilDate) : Decidable (a.before b) := by
  unfold CivilDate.before; infer_instance

/-- The decimal digit `n % 10` as a character. -/
def digitChar (n : Nat) : Char := Char.ofNat (48 + n % 10)

/-- The last `width` decimal digits of `n`, most significant first. -/
def padDigits : Nat → Nat → List Char
  | 0, _ => []
  | width + 1, n => padDigits width (n / 10) ++ [digitChar n]

/-- The year as `toISOString` prints it: four digits from 0 to 9999, otherwise a sign
and six digits. -/
def isoYear (y : Int) : List Char :=
  if 0 ≤ y ∧ y ≤ 9999 then padDigits 4 y.toNat
  else (if y < 0 then '-' else '+') :: padDigits 6 y.natAbs

/-- Expression `date.toISOString().split('T')[0]`: the form `YYYY-MM-DD`. -/
def isoDate (d : CivilDate) : String :=
  ⟨isoYear d.year ++ '-' :: padDigits 2 d.month ++ '-' :: padDigits 2 d.day⟩

/-! ## StorageManager: daily activity -/

/-- A number held by a counter property: an integer, or `NaN`. -/
inductive Count
  | nan
  | int (n : Int)
  deriving DecidableEq, Repr

/-- A day-record of the activity map.  The two counters every record is created with
are integers; `profileViews` may be absent (`none`). -/
structure DayRecord where
  date : String
  messagesSent : Int
  connectionsSent : Int
  profileViews : Option Count
  deriving DecidableEq, Repr

/-- The counter names a caller passes as `type`. -/
inductive CounterName
  | messagesSent
  | connectionsSent
  | profileViews
  deriving DecidableEq, Repr

/-- The stored `dailyActivity` object: date keys in insertion order.  An absent object
reads as the empty one (`result.dailyActivity || {}`). -/
abbrev ActivityMap := List (String × DayRecord)

/-- JavaScript `activity[key]`. -/
def lookupDay (key : String) : ActivityMap → Option DayRecord
  | [] => none
  | (k, r) :: rest => if k = key then some r else lookupDay key rest

/-- JavaScript `activity[key] = r`: an existing key keeps its place, a new one goes last. -/
def setDay (key : String) (r : DayRecord) : ActivityMap → ActivityMap
  | [] => [(key, r)]
  | (k, old) :: rest => if k = key then (k, r) :: rest else (k, old) :: setDay key r rest

/-- JavaScript `x++` on a counter property: an absent property converts to `NaN`. -/
def incrementCount : Option Count → Option Count
  | none => some .nan
  | some .nan => some .nan
  | some (.int n) => some (.int (n + 1))

/-- Statement `record[type]++`. -/
def incrementCounter (type : CounterName) (r : DayRecord) : DayRecord :=
  match type with
  | .messagesSent => { r with messagesSent := r.messagesSent + 1 }
  | .connectionsSent => { r with connectionsSent := r.connectionsSent + 1 }
  | .profileViews => { r with profileViews := incrementCount r.profileViews }

/-- The record `incrementDailyActivity` creates for a day that has none. -/
def freshRecord (today : String) : DayRecord :=
  { date := today, messagesSent := 0, connectionsSent := 0, profileViews := none }

/-- The clean-up loop of `incrementDailyActivity`: every key below the cutoff is deleted. -/
def pruneBefore (cutoffDate : String) (activity : ActivityMap) : ActivityMap :=
  activity.filter (fun entry => !jsStrLt entry.1 cutoffDate)

/-- Method `incrementDailyActivity`, with the clock reading `now`: the map written back
to the store and the returned `activity[today]`.  `today` is the UTC date; the cutoff is
taken 90 days back in local time and printed in UTC. -/
def incrementDailyActivity (now : Clock) (type : CounterName) (stored : ActivityMap) :
    ActivityMap × Option DayRecord :=
  let today := isoDate now.date
  let activity1 :=
    match lookupDay today stored with
    | some _ => stored
    | none => setDay today (freshRecord today) stored
  let activity2 :=
    match lookupDay today activity1 with
    | some r => setDay today (incrementCounter type r) activity1
    | none => activity1
  let cutoffDate := isoDate (now.localDaysAgo 90)
  let activity3 := pruneBefore cutoffDate activity2
  (activity3, lookupDay today activity3)

/-! ## LinkedInLimitsManager: queries on the activity map -/

/-- One round of the loop of `getWeekActivity`: the stored record under the date printed
after `setDate(getDate() - i)`, or a zero record carrying that date. -/
def weekRecord (now : Clock) (stored : ActivityMap) (i : Nat) : DayRecord :=
  (lookupDay (isoDate (now.localDaysAgo i)) stored).getD
    (freshRecord (isoDate (now.localDaysAgo i)))

/-- Method `getWeekActivity`, with the clock reading `now`: rounds `i = 0, ..., 6`. -/
def getWeekActivity (now : Clock) (stored : ActivityMap) : List DayRecord :=
  (List.range 7).map (weekRecord now stored)

/-- Method `checkDailyMessageLimit`. -/
def checkDailyMessageLimit (now : CivilDate) (stored : ActivityMap) : LimitStatus :=
  let current :=
    match lookupDay (isoDate now) stored with
    | some todayActivity => todayActivity.messagesSent
    | none => 0
  createLimitStatus "messages" current messages_per_day

/-- Method `checkWeeklyConnectionLimit`. -/
def checkWeeklyConnectionLimit (now : Clock) (stored : ActivityMap) : LimitStatus :=
  let totalConnections :=
    (getWeekActivity now stored).foldl (fun sum day => sum + day.connectionsSent) 0
  createLimitStatus "connections" totalConnections connection_requests_per_week

/-- Method `checkDailyConnectionLimit`. -/
def checkDailyConnectionLimit (now : CivilDate) (stored : ActivityMap) : LimitStatus :=
  let current :=
    match lookupDay (isoDate now) stored with
    | some todayActivity => todayActivity.connectionsSent
    | none => 0
  createLimitStatus "daily_connections" current connection_requests_per_day

/-- The object `LINKEDIN_LIMITS.safe_limits`. -/
structure SafeLimits where
  connection_requests_per_week : Int
  connection_requests_per_day : Int
  messages_per_day : Int
  deriving DecidableEq, Repr

/-- What `getDashboardData` returns. -/
structure DashboardData where
  limits : SafeLimits
  messageLimit : LimitStatus
  connectionLimitDaily : LimitStatus
  connectionLimitWeekly : LimitStatus
  weekActivity : List DayRecord
  safeModeRecommended : Bool
  deriving DecidableEq

/-- Method `getDashboardData`. -/
def getDashboardData (now : Clock) (stored : ActivityMap) : DashboardData :=
  let messageLimit := checkDailyMessageLimit now.date stored
  let connectionLimitDaily := checkDailyConnectionLimit now.date stored
  let connectionLimitWeekly := checkWeeklyConnectionLimit now stored
  { limits := ⟨connection_requests_per_week, connection_requests_per_day, messages_per_day⟩
    messageLimit := messageLimit
    connectionLimitDaily := connectionLimitDaily
    connectionLimitWeekly := connectionLimitWeekly
    weekActivity := getWeekActivity now stored
    safeModeRecommended :=
      decide (messageLimit.status ≠ "safe") || decide (connectionLimitWeekly.status ≠ "safe") }

/-! ## TemplateEngine: length estimate -/

/-- JavaScript `s.replace(/pattern/g, replacement)` for a pattern that is a literal,
non-empty text: left to right, an occurrence found at the current position is replaced and
the search resumes after it, otherwise one character is passed over.  `fuel` bounds the
number of steps; the length of the input always suffices. -/
def replaceAllAux (pattern replacement : List Char) : Nat → List Char → List Char
  | 0, _ => []
  | _ + 1, [] => []
  | fuel + 1, c :: cs =>
    if pattern.isPrefixOf (c :: cs) then
      replacement ++ replaceAllAux pattern replacement fuel ((c :: cs).drop pattern.length)
    else c :: replaceAllAux pattern replacement fuel cs

/-- JavaScript `s.replace(/pattern/g, replacement)` for a literal, non-empty pattern. -/
def replaceAll (pattern replacement : String) (s : List Char) : List Char :=
  replaceAllAux pattern.data replacement.data s.length s

/-- Method `estimateLength`.  An absent (`null`) `profileData` is `none`. -/
def estimateLength (template : String) (profileData : Option Profile) : Except JSError Nat :=
  match profileData with
  | some P =>
    match render (some template) (some P) with
    | .ok (some rendered) => .ok (jsLength rendered)
    | .ok none => .error .typeError
    | .error e => .error e
  | none =>
    let estimated := template.data
    let estimated := replaceAll "{{firstName}}" "John" estimated
    let estimated := replaceAll "{{lastName}}" "Smith" estimated
    let estimated := replaceAll "{{name}}" "John Smith" estimated
    let estimated := replaceAll "{{company}}" "TechCorp" estimated
    let estimated := replaceAll "{{role}}" "Product Manager" estimated
    .ok (jsLength ⟨estimated⟩)

/-! ## StorageManager: templates and message history -/

/-- A stored template, or the object a caller passes to `saveTemplate`.  A property the
object does not have (or has as `null`) is `none`. -/
structure Template where
  id : Option String
  name : Option String
  content : Option String
  createdAt : Option Nat
  updatedAt : Option Nat
  usageCount : Option Int
  replyCount : Option Int
  lastUsed : Option Nat
  deriving DecidableEq, Repr

/-- A message of the history, or the object a caller passes to `saveMessage`.  A property
the object does not have is `none`; an object that carries a property with the value
`null` is not among the messages described here (the caller of the service worker in
`activity-tracker.js` passes an object without an `id`). -/
structure Message where
  id : Option String
  sentAt : Option Nat
  replied : Option Bool
  repliedAt : Option Nat
  templateId : Option String
  recipientName : Option String
  messageContent : Option String
  deriving DecidableEq, Repr

/-- Truthiness of an `id` property: a non-empty string. -/
def idTruthy : Option String → Bool
  | some s => s != ""
  | none => false

/-- JavaScript `list.findIndex(p)`; `none` stands for `-1`. -/
def findIndex {α : Type} (p : α → Bool) : List α → Option Nat
  | [] => none
  | x :: xs => if p x then some 0 else (findIndex p xs).map (· + 1)

/-- In-place change `f` of the object that `list.find(p)` returns: the first element that
satisfies `p`. -/
def updateFound {α : Type} (p : α → Bool) (f : α → α) : List α → List α
  | [] => []
  | x :: xs => if p x then f x :: xs else x :: updateFound p f xs

/-- Method `saveTemplate`, with the clock reading `now` and `generateId()` giving `newId`:
the list written back to the store and the returned object. -/
def saveTemplate (now : Nat) (newId : String) (template : Template)
    (templates : List Template) : List Template × Template :=
  if idTruthy template.id then
    match findIndex (fun t => decide (t.id = template.id)) templates with
    | some index => (templates.set index { template with updatedAt := some now }, template)
    | none => (templates, template)
  else
    let created : Template :=
      { template with
        id := some newId
        createdAt := some now
        updatedAt := some now
        usageCount := some 0
        replyCount := some 0 }
    (templates ++ [created], created)

/-- The cap of both `saveMessage` functions: `if (messages.length > 1000)
messages.splice(1000)`. -/
def capMessages (messages : List Message) : List Message :=
  if messages.length > 1000 then messages.take 1000 else messages

/-- Method `saveMessage` of the storage manager, with the clock reading `now` and
`generateId()` giving `newId`: the list written back to the store and the returned
object. -/
def saveMessage (now : Nat) (newId : String) (message : Message) (messages : List Message) :
    List Message × Message :=
  let message := { message with id := some newId, sentAt := some now, replied := some false }
  (capMessages (message :: messages), message)

/-- Function `saveMessage` of the service worker: the list written back to the store and
the returned `messageId`.  The spread of `messageData` comes after the generated `id`, so
an `id` property of the data wins, and the generated one stays when the data has no `id`
property. -/
def ServiceWorker.saveMessage (now : Nat) (newId : String) (messageData : Message)
    (messages : List Message) : List Message × Option String :=
  let message : Message :=
    { messageData with
      id := match messageData.id with
        | some own => some own
        | none => some newId
      sentAt := some now
      replied := some false }
  (capMessages (message :: messages), message.id)

/-- Method `updateMessageReply`, with the clock reading `now`: the message list and the
template list the store holds afterwards. -/
def updateMessageReply (now : Nat) (messageId : String) (replied : Bool)
    (messages : List Message) (templates : List Template) :
    List Message × List Template :=
  match messages.find? (fun m => decide (m.id = some messageId)) with
  | none => (messages, templates)
  | some message =>
    let messages2 :=
      updateFound (fun m => decide (m.id = some messageId))
        (fun m => { m with
          replied := some replied
          repliedAt := if replied then some now else none })
        messages
    if idTruthy message.templateId then
      match templates.find? (fun t => decide (t.id = message.templateId)) with
      | some _ =>
        (messages2,
          updateFound (fun t => decide (t.id = message.templateId))
            (fun t => { t with
              replyCount := some (t.replyCount.getD 0 + (if replied then 1 else -1)) })
            templates)
      | none => (messages2, templates)
    else (messages2, templates)

/-! ## Service worker: daily activity -/

/-- The record `recordActivity` creates for a day that has none. -/
def ServiceWorker.freshRecord (today : String) : DayRecord :=
  { date := today, messagesSent := 0, connectionsSent := 0, profileViews := some (.int 0) }

/-- Function `recordActivity` of the service worker, with the clock reading `now`: the map
written back to the store. -/
def ServiceWorker.recordActivity (now : CivilDate) (type : String) (stored : ActivityMap) :
    ActivityMap :=
  let today := isoDate now
  let activity :=
    match lookupDay today stored with
    | some _ => stored
    | none => setDay today (ServiceWorker.freshRecord today) stored
  match lookupDay today activity with
  | some r =>
    if type = "message" then
      setDay today { r with messagesSent := r.messagesSent + 1 } activity
    else if type = "connection" then
      setDay today { r with connectionsSent := r.connectionsSent + 1 } activity
    else if type = "profile_view" then
      setDay today { r with profileViews := incrementCount r.profileViews } activity
    else activity
  | none => activity

/-! ## Notions used to state the properties -/

/-- The template text a sequence of pieces stands for. -/
def sourceOf : List Piece → List Char
  | [] => []
  | p :: ps => p.source ++ sourceOf ps

/-- A word-character identifier: one or more characters of the class `\w`. -/
def IsIdentifier (v : List Char) : Prop := v ≠ [] ∧ ∀ c ∈ v, isWordChar c = true

instance (v : List Char) : Decidable (IsIdentifier v) := by
  unfold IsIdentifier; infer_instance

/-- A text without brace characters. -/
def NoBraces (s : List Char) : Prop := ∀ c ∈ s, c ≠ '{' ∧ c ≠ '}'

instance (s : List Char) : Decidable (NoBraces s) := by
  unfold NoBraces; infer_instance

/-- The placeholder text `{{v}}`. -/
def placeholder (v : String) : String := "\x7b\x7b" ++ v ++ "\x7d\x7d"

/-- JavaScript `s.includes(t)`: `t` occurs in `s` as a contiguous substring. -/
def includes (s t : String) : Prop := t.data <:+: s.data

instance (s t : String) : Decidable (includes s t) := by
  unfold includes; infer_instance

/-- A value that is a string whenever it is more than `null` or `undefined`. -/
def JSValue.isStringOrAbsent : JSValue → Bool
  | .undefined => true
  | .null => true
  | .str _ => true
  | _ => false

/-- A profile record whose `name` and `headline` have the type the data model gives them
(a string, or no value): the two fields on which `getProfileValue` calls string methods. -/
def Profile.WellTyped (P : Profile) : Prop :=
  (P.get "name").isStringOrAbsent = true ∧ (P.get "headline").isStringOrAbsent = true

instance (P : Profile) : Decidable P.WellTyped := by
  unfold Profile.WellTyped; infer_instance

/-- A piece that is a placeholder, or a character other than a brace. -/
def Piece.isPlain : Piece → Bool
  | .text c => c != '{' && c != '}'
  | .hit _ => true

/-- A template with no nested or escaped braces: every brace character of it belongs to a
placeholder `{{identifier}}`. -/
def SimpleTemplate (T : String) : Prop := ∀ p ∈ scanVariables T.data, p.isPlain = true

instance (T : String) : Decidable (SimpleTemplate T) := by
  unfold SimpleTemplate; infer_instance

/-- The text `s` contains `{{`, then optional white space, then `}}`. -/
def HasEmptyPlaceholder (s : List Char) : Prop :=
  ∃ pre ws post, s = pre ++ '{' :: '{' :: (ws ++ '}' :: '}' :: post) ∧
    ∀ c ∈ ws, isJSSpace c = true

/-- The time zone UTC. -/
def utcZone : TimeZone := { offsetAt := fun _ _ => 0, offsetOfLocal := fun _ _ => 0 }

/-- The reading of the clock at the start of the UTC date `d`, on a machine set to UTC. -/
def utcClock (d : CivilDate) : Clock := { date := d, minute := 0, zone := utcZone }

/-- New Zealand time (zone `Pacific/Auckland`) around the end of daylight saving on 7 April
2024: UTC+13 up to 2024-04-06T14:00Z, which is 03:00 daylight time of 7 April, and UTC+12
from then on.  A local time of the hour that occurs twice counts as daylight time. -/
def aucklandZone : TimeZone :=
  { offsetAt := fun d m =>
      if d.before ⟨2024, 4, 6⟩ ∨ (d = ⟨2024, 4, 6⟩ ∧ m < 840) then 780 else 720
    offsetOfLocal := fun d m =>
      if d.before ⟨2024, 4, 7⟩ ∨ (d = ⟨2024, 4, 7⟩ ∧ m < 180) then 780 else 720 }

/-- One call `incrementDailyActivity(type)` on each of `n` consecutive days, the first of
them `start`, on a machine set to UTC: the map the store holds afterwards. -/
def incrementOnConsecutiveDays (type : CounterName) : Nat → CivilDate → ActivityMap → ActivityMap
  | 0, _, stored => stored
  | n + 1, day, stored =>
    incrementOnConsecutiveDays type n (nextDay day)
      (incrementDailyActivity (utcClock day) type stored).1

/-- The date keys of an activity map. -/
def dateKeys (activity : ActivityMap) : List String := activity.map Prod.fst

/-- The `connectionsSent` a date key contributes to a sum: that of its stored record, and
0 when the map has no record for the key. -/
def connectionsOn (stored : ActivityMap) (key : String) : Int :=
  match lookupDay key stored with
  | some r => r.connectionsSent
  | none => 0

/-- The `messagesSent` of a date key: that of its stored record, and 0 when the map has no
record for the key. -/
def messagesOn (stored : ActivityMap) (key : String) : Int :=
  match lookupDay key stored with
  | some r => r.messagesSent
  | none => 0

/-- The sum of `connectionsSent` over the seven dates `getWeekActivity` reads at the clock
reading `now`. -/
def weekConnections (now : Clock) (stored : ActivityMap) : Int :=
  ((List.range 7).map (fun i => connectionsOn stored (isoDate (now.localDaysAgo i)))).sum

/-- The sum of `connectionsSent` over the seven calendar days that end with `today`: today
and the six days before it. -/
def calendarWeekConnections (today : CivilDate) (stored : ActivityMap) : Int :=
  ((List.range 7).map (fun i => connectionsOn stored (isoDate (daysBefore i today)))).sum

/-- The white-space-delimited tokens of a text: its maximal runs of characters that are not
white space, in order. -/
def whitespaceTokens : List Char → List (List Char)
  | [] => []
  | c :: cs =>
    if isJSSpace c then whitespaceTokens cs
    else
      match cs with
      | [] => [[c]]
      | d :: _ =>
        if isJSSpace d then [c] :: whitespaceTokens cs
        else
          match whitespaceTokens cs with
          | tok :: toks => (c :: tok) :: toks
          | [] => [[c]]

/-- The letters `at`, in either case. -/
def isAtPair (a t : Char) : Bool := (a == 'a' || a == 'A') && (t == 't' || t == 'T')

/-- A character other than `|` and `,`. -/
def isCompanyChar (c : Char) : Bool := c != '|' && c != ','

/-- An occurrence in `s` of `at` (in either case), then white space `ws`, then one or more
characters `cap` other than `|` and `,` that run up to the next `|` or `,` or to the end
of `s`; `pre` is the text before the occurrence and `rest` the text after it. -/
def AtOccurrence (s pre ws cap rest : List Char) : Prop :=
  ∃ a t, isAtPair a t = true ∧ s = pre ++ a :: t :: (ws ++ (cap ++ rest)) ∧
    ws ≠ [] ∧ (∀ c ∈ ws, isJSSpace c = true) ∧
    cap ≠ [] ∧ (∀ c ∈ cap, isCompanyChar c = true) ∧
    (∀ r ∈ rest.head?, isCompanyChar r = false)

/-- An occurrence whose `at` starts a word: no word character stands right before it. -/
def WordAtOccurrence (s pre ws cap rest : List Char) : Prop :=
  AtOccurrence s pre ws cap rest ∧ ∀ p ∈ pre.getLast?, isWordChar p = false

/-- Whether an occurrence may start after the text `pre`, when `prevWord` tells whether a
word character stands before `pre`. -/
def AtBoundary (prevWord : Bool) (pre : List Char) : Prop :=
  match pre.getLast? with
  | none => prevWord = false
  | some p => isWordChar p = false

/-- Whether the two characters of `s` at offset `n` are the letters `at`, in either case. -/
def atPairAt (s : List Char) (n : Nat) : Bool :=
  match s.drop n with
  | a :: t :: _ => isAtPair a t
  | _ => false

/-- The number of characters of `s` that stand before the first occurrence of `t` in `s`
(the position `s.indexOf(t)` points at); the length of `s` when `t` does not occur. -/
def firstIndex (t : List Char) : List Char → Nat
  | [] => 0
  | c :: cs => if t.isPrefixOf (c :: cs) then 0 else firstIndex t cs + 1

/-- A sequence of names with every repetition of an earlier name removed. -/
def keepFirst : List String → List String
  | [] => []
  | x :: xs => x :: (keepFirst xs).filter (fun y => decide (y ≠ x))

/-- The number of template characters that stand before the first match named `v` among the
pieces; the length of the whole template text when there is none. -/
def hitOffset (v : List Char) : List Piece → Nat
  | [] => 0
  | p :: ps => if p = Piece.hit v then 0 else p.source.length + hitOffset v ps

/-- Whether the text `s` begins with the first component of the table entry `e`. -/
def beginsWith (s : List Char) (e : List Char × List Char) : Bool := e.1.isPrefixOf s

/-- A text in which every occurrence of a text listed in `table` stands replaced by the
value listed with it, all in one reading from left to right: where a listed text begins,
its value is put and reading resumes after the occurrence; any other character is kept as
written.  `fuel` bounds the number of steps; the length of the input always suffices. -/
def replaceEachAux (table : List (List Char × List Char)) : Nat → List Char → List Char
  | 0, _ => []
  | _ + 1, [] => []
  | fuel + 1, c :: cs =>
    match table.find? (beginsWith (c :: cs)) with
    | some e => e.2 ++ replaceEachAux table fuel ((c :: cs).drop e.1.length)
    | none => c :: replaceEachAux table fuel cs

/-- The text `s` with every occurrence of a text listed in `table` replaced by its value. -/
def replaceEach (table : List (List Char × List Char)) (s : List Char) : List Char :=
  replaceEachAux table s.length s

/-- The sample values of the length estimate: each placeholder with the text counted for
it. -/
def sampleValues : List (List Char × List Char) :=
  [ ("{{firstName}}".data, "John".data),
    ("{{lastName}}".data, "Smith".data),
    ("{{name}}".data, "John Smith".data),
    ("{{company}}".data, "TechCorp".data),
    ("{{role}}".data, "Product Manager".data) ]

/-- A table whose listed texts all begin with `{{`. -/
def BraceTable (tbl : List (List Char × List Char)) : Prop :=
  ∀ e ∈ tbl, ∃ t, e.1 = '{' :: '{' :: t

/-- Successive calls `updateMessageReply(messageId, flag)`, one for each flag of the list
in order: the message list and the template list the store holds afterwards. -/
def updateMessageReplies (now : Nat) (messageId : String) :
    List Bool → List Message × List Template → List Message × List Template
  | [], store => store
  | flag :: flags, store =>
    updateMessageReplies now messageId flags
      (updateMessageReply now messageId flag store.1 store.2)

/-- The balance of a sequence of reply flags: one up for each `true`, one down for each
`false`. -/
def replyBalance : List Bool → Int
  | [] => 0
  | flag :: flags => (if flag then 1 else -1) + replyBalance flags

/-- A table that lists placeholders `{{w}}`, `w` an identifier, each of them once. -/
def PlaceholderTable (tbl : List (List Char × List Char)) : Prop :=
  (∀ e ∈ tbl, ∃ w, IsIdentifier w ∧ e.1 = '{' :: '{' :: (w ++ ['}', '}'])) ∧
    ∀ e1 ∈ tbl, ∀ e2 ∈ tbl, e1.1 = e2.1 → e1 = e2

/-- The rational number a fraction stands for. -/
def Fraction.value (x : Fraction) : ℚ := (x.num : ℚ) / (x.den : ℚ)

/-! ## Scanning lemmas -/

theorem isWordChar_open : isWordChar '{' = false := by decide

theorem isWordChar_close : isWordChar '}' = false := by decide

theorem matchVariable_of_ne_open (c : Char) (cs : List Char) (h : c ≠ '{') :
    matchVariable (c :: cs) = none := by
  unfold matchVariable
  split
  · rename_i heq
    simp at heq
    exact absurd heq.1 h
  · rfl

theorem matchVariable_some {s w rest : List Char} (h : matchVariable s = some (w, rest)) :
    s = '{' :: '{' :: (w ++ '}' :: '}' :: rest) ∧ w ≠ [] ∧ ∀ c ∈ w, isWordChar c = true := by
  unfold matchVariable at h
  split at h
  · rename_i t
    split at h
    · rename_i x xs rest2 h1 h2
      simp only [Option.some.injEq, Prod.mk.injEq] at h
      obtain ⟨hw, hr⟩ := h
      subst hr
      refine ⟨?_, ?_, ?_⟩
      · have := List.takeWhile_append_dropWhile isWordChar t
        rw [h2, hw] at this
        rw [this]
      · rw [← hw, h1]; simp
      · intro c hc
        rw [← hw] at hc
        exact (List.mem_takeWhile_imp hc)
    · simp at h
  · simp at h

theorem matchVariable_hit (v rest : List Char) (hne : v ≠ [])
    (hw : ∀ c ∈ v, isWordChar c = true) :
    matchVariable ('{' :: '{' :: (v ++ '}' :: '}' :: rest)) = some (v, rest) := by
  have h1 : (v ++ '}' :: '}' :: rest).takeWhile isWordChar = v := by
    rw [List.takeWhile_append_of_pos hw]
    simp [List.takeWhile, isWordChar_close]
  have h2 : (v ++ '}' :: '}' :: rest).dropWhile isWordChar = '}' :: '}' :: rest := by
    rw [List.dropWhile_append_of_pos hw]
    simp [List.dropWhile, isWordChar_close]
  unfold matchVariable
  simp only [h1, h2]
  cases v with
  | nil => exact absurd rfl hne
  | cons x xs => rfl

theorem matchVariable_length {s w rest : List Char} (h : matchVariable s = some (w, rest)) :
    rest.length < s.length := by
  obtain ⟨hs, _, _⟩ := matchVariable_some h
  subst hs
  simp
  omega

theorem scanAux_fuel (fuel1 : Nat) : ∀ (fuel2 : Nat) (s : List Char),
    s.length ≤ fuel1 → s.length ≤ fuel2 → scanAux fuel1 s = scanAux fuel2 s := by
  induction fuel1 with
  | zero =>
    intro fuel2 s h1 _
    have : s = [] := List.length_eq_zero.mp (Nat.le_zero.mp h1)
    subst this
    cases fuel2 <;> rfl
  | succ n ih =>
    intro fuel2 s h1 h2
    cases s with
    | nil => cases fuel2 <;> rfl
    | cons c cs =>
      cases fuel2 with
      | zero => simp at h2
      | succ m =>
        simp only [scanAux]
        cases hm : matchVariable (c :: cs) with
        | none =>
          simp only
          rw [ih m cs (by simpa using h1) (by simpa using h2)]
        | some p =>
          obtain ⟨w, rest⟩ := p
          have hl := matchVariable_length hm
          simp only [List.length_cons] at hl h1 h2
          simp only
          rw [ih m rest (by omega) (by omega)]

theorem scanVariables_cons_none (c : Char) (cs : List Char)
    (h : matchVariable (c :: cs) = none) :
    scanVariables (c :: cs) = Piece.text c :: scanVariables cs := by
  simp only [scanVariables, List.length_cons, scanAux, h]

theorem scanVariables_cons_some (c : Char) (cs w rest : List Char)
    (h : matchVariable (c :: cs) = some (w, rest)) :
    scanVariables (c :: cs) = Piece.hit w :: scanVariables rest := by
  have hl := matchVariable_length h
  simp only [List.length_cons] at hl
  simp only [scanVariables, List.length_cons, scanAux, h]
  rw [scanAux_fuel cs.length rest.length rest (by omega) (le_refl _)]

theorem sourceOf_append (ps qs : List Piece) :
    sourceOf (ps ++ qs) = sourceOf ps ++ sourceOf qs := by
  induction ps with
  | nil => rfl
  | cons p ps ih => simp [sourceOf, ih]

theorem sourceOf_map_text (a : List Char) : sourceOf (a.map Piece.text) = a := by
  induction a with
  | nil => rfl
  | cons c cs ih => simp [sourceOf, Piece.source, ih]

theorem scanVariables_sourceOf (ps : List Piece)
    (htext : ∀ c, Piece.text c ∈ ps → c ≠ '{')
    (hhit : ∀ v, Piece.hit v ∈ ps → IsIdentifier v) :
    scanVariables (sourceOf ps) = ps := by
  induction ps with
  | nil => rfl
  | cons p ps ih =>
    have ih2 := ih (fun c hc => htext c (List.mem_cons_of_mem _ hc))
      (fun v hv => hhit v (List.mem_cons_of_mem _ hv))
    cases p with
    | text c =>
      have hc : c ≠ '{' := htext c (List.mem_cons_self _ _)
      simp only [sourceOf, Piece.source, List.singleton_append]
      rw [scanVariables_cons_none c _ (matchVariable_of_ne_open c _ hc), ih2]
    | hit v =>
      obtain ⟨hne, hw⟩ := hhit v (List.mem_cons_self _ _)
      have hsrc : sourceOf (Piece.hit v :: ps) =
          '{' :: '{' :: (v ++ '}' :: '}' :: sourceOf ps) := by
        simp [sourceOf, Piece.source]
      rw [hsrc, scanVariables_cons_some _ _ v (sourceOf ps) (matchVariable_hit v _ hne hw), ih2]

theorem renderPieces_append (P : Profile) (ps qs : List Piece) (a b : List Char)
    (ha : renderPieces P ps = .ok a) (hb : renderPieces P qs = .ok b) :
    renderPieces P (ps ++ qs) = .ok (a ++ b) := by
  induction ps generalizing a with
  | nil =>
    simp only [renderPieces, Except.ok.injEq] at ha
    subst ha
    simpa using hb
  | cons p ps ih =>
    cases p with
    | text c =>
      rw [List.cons_append]
      simp only [renderPieces] at ha ⊢
      cases hps : renderPieces P ps with
      | error e => rw [hps] at ha; simp at ha
      | ok out =>
        rw [hps] at ha
        simp only [Except.ok.injEq] at ha
        subst ha
        rw [ih out hps]
        rfl
    | hit v =>
      rw [List.cons_append]
      simp only [renderPieces] at ha ⊢
      cases hr : replacement v P with
      | error e => rw [hr] at ha; simp at ha
      | ok r =>
        cases hps : renderPieces P ps with
        | error e => rw [hr, hps] at ha; simp at ha
        | ok out =>
          rw [hr, hps] at ha
          simp only [Except.ok.injEq] at ha
          subst ha
          rw [ih out hps]
          simp

theorem renderPieces_map_text (P : Profile) (a : List Char) :
    renderPieces P (a.map Piece.text) = .ok a := by
  induction a with
  | nil => rfl
  | cons c cs ih => simp [renderPieces, ih]

theorem renderPieces_hit (P : Profile) (v r : List Char) (h : replacement v P = .ok r) :
    renderPieces P [Piece.hit v] = .ok r := by
  simp [renderPieces, h]

theorem word_run_split (w : List Char) (hw : ∀ c ∈ w, isWordChar c = true) :
    ∀ (t tail rest : List Char), t ++ '{' :: tail = w ++ '}' :: '}' :: rest →
      ∃ t2, t = w ++ '}' :: '}' :: t2 ∧ rest = t2 ++ '{' :: tail := by
  induction w with
  | nil =>
    intro t tail rest h
    match t, h with
    | [], h => simp at h
    | [x], h => simp at h
    | x :: y :: t2, h =>
      simp only [List.cons_append, List.nil_append, List.cons.injEq] at h
      obtain ⟨hx, hy, hr⟩ := h
      exact ⟨t2, by simp [hx, hy], hr.symm⟩
  | cons a w ih =>
    intro t tail rest h
    have ha : isWordChar a = true := hw a (List.mem_cons_self _ _)
    match t, h with
    | [], h =>
      simp only [List.nil_append, List.cons_append, List.cons.injEq] at h
      rw [← h.1, isWordChar_open] at ha
      exact absurd ha (by simp)
    | x :: t2, h =>
      simp only [List.cons_append, List.cons.injEq] at h
      obtain ⟨t3, h1, h2⟩ := ih (fun c hc => hw c (List.mem_cons_of_mem _ hc)) t2 tail rest h.2
      exact ⟨t3, by simp [h.1, h1], h2⟩

theorem scanVariables_before_placeholder (v post : List Char) (hv : IsIdentifier v) :
    ∀ (n : Nat) (pre : List Char), pre.length ≤ n →
      ∃ ps, scanVariables (pre ++ '{' :: '{' :: (v ++ '}' :: '}' :: post)) =
        ps ++ Piece.hit v :: scanVariables post := by
  intro n
  induction n with
  | zero =>
    intro pre hpre
    have : pre = [] := List.length_eq_zero.mp (Nat.le_zero.mp hpre)
    subst this
    refine ⟨[], ?_⟩
    rw [List.nil_append, scanVariables_cons_some _ _ v post (matchVariable_hit v post hv.1 hv.2)]
    rfl
  | succ n ih =>
    intro pre hpre
    cases pre with
    | nil =>
      refine ⟨[], ?_⟩
      rw [List.nil_append,
        scanVariables_cons_some _ _ v post (matchVariable_hit v post hv.1 hv.2)]
      rfl
    | cons c t =>
      simp only [List.length_cons, Nat.add_le_add_iff_right] at hpre
      rw [List.cons_append]
      cases hm : matchVariable (c :: (t ++ '{' :: '{' :: (v ++ '}' :: '}' :: post))) with
      | none =>
        obtain ⟨ps, hps⟩ := ih t hpre
        exact ⟨Piece.text c :: ps, by rw [scanVariables_cons_none _ _ hm, hps]; rfl⟩
      | some p =>
        obtain ⟨w, rest⟩ := p
        obtain ⟨hs, hwne, hw⟩ := matchVariable_some hm
        rw [scanVariables_cons_some _ _ w rest hm]
        simp only [List.cons.injEq] at hs
        obtain ⟨_, hs⟩ := hs
        match t, hs, hpre with
        | [], hs, _ =>
          simp only [List.nil_append, List.cons.injEq, true_and] at hs
          cases w with
          | nil => exact absurd rfl hwne
          | cons a w2 =>
            simp only [List.cons_append, List.cons.injEq] at hs
            have ha := hw a (List.mem_cons_self _ _)
            rw [← hs.1, isWordChar_open] at ha
            exact absurd ha (by simp)
        | x :: t2, hs, hpre =>
          simp only [List.cons_append, List.cons.injEq] at hs
          obtain ⟨t3, h1, h2⟩ := word_run_split w hw t2 _ rest hs.2
          have hlen : t3.length ≤ n := by
            have := congrArg List.length h1
            simp only [List.length_cons, List.length_append] at this hpre
            omega
          obtain ⟨ps, hps⟩ := ih t3 hlen
          rw [h2, hps]
          exact ⟨Piece.hit w :: ps, rfl⟩

theorem renderPieces_append_ok (P : Profile) (ps qs : List Piece) (out : List Char)
    (h : renderPieces P (ps ++ qs) = .ok out) :
    ∃ a b, renderPieces P ps = .ok a ∧ renderPieces P qs = .ok b ∧ out = a ++ b := by
  induction ps generalizing out with
  | nil => exact ⟨[], out, rfl, by simpa using h, rfl⟩
  | cons p ps ih =>
    rw [List.cons_append] at h
    cases p with
    | text c =>
      simp only [renderPieces] at h ⊢
      cases hps : renderPieces P (ps ++ qs) with
      | error e => rw [hps] at h; simp at h
      | ok o =>
        rw [hps] at h
        simp only [Except.ok.injEq] at h
        obtain ⟨a, b, ha, hb, hab⟩ := ih o hps
        exact ⟨c :: a, b, by rw [ha], hb, by rw [← h, hab]; rfl⟩
    | hit v =>
      simp only [renderPieces] at h ⊢
      cases hr : replacement v P with
      | error e => rw [hr] at h; simp at h
      | ok r =>
        cases hps : renderPieces P (ps ++ qs) with
        | error e => rw [hr, hps] at h; simp at h
        | ok o =>
          rw [hr, hps] at h
          simp only [Except.ok.injEq] at h
          obtain ⟨a, b, ha, hb, hab⟩ := ih o hps
          exact ⟨r ++ a, b, by rw [ha], hb, by rw [← h, hab]; simp⟩

theorem getProfileValue_unknown (v : String) (P : Profile)
    (hP : (P.get v).truthy = false) (hv : v ∉ aliasNames) :
    getProfileValue v P = .ok .null := by
  simp only [aliasNames, List.mem_cons, List.mem_singleton, List.not_mem_nil, or_false,
    not_or] at hv
  simp [getProfileValue, hP, hv]

theorem extractFirstName_total (x : JSValue) (h : x.isStringOrAbsent = true) :
    ∃ val, extractFirstName x = .ok val := by
  cases x with
  | arr items => simp [JSValue.isStringOrAbsent] at h
  | fn name => simp [JSValue.isStringOrAbsent] at h
  | obj => simp [JSValue.isStringOrAbsent] at h
  | undefined => exact ⟨_, rfl⟩
  | null => exact ⟨_, rfl⟩
  | str s =>
    unfold extractFirstName
    split
    · exact ⟨_, rfl⟩
    · exact ⟨_, rfl⟩

theorem extractLastName_total (x : JSValue) (h : x.isStringOrAbsent = true) :
    ∃ val, extractLastName x = .ok val := by
  cases x with
  | arr items => simp [JSValue.isStringOrAbsent] at h
  | fn name => simp [JSValue.isStringOrAbsent] at h
  | obj => simp [JSValue.isStringOrAbsent] at h
  | undefined => exact ⟨_, rfl⟩
  | null => exact ⟨_, rfl⟩
  | str s =>
    unfold extractLastName
    split
    · exact ⟨_, rfl⟩
    · exact ⟨_, rfl⟩

theorem extractCompanyFromHeadline_total (x : JSValue) (h : x.isStringOrAbsent = true) :
    ∃ val, extractCompanyFromHeadline x = .ok val := by
  cases x with
  | arr items => simp [JSValue.isStringOrAbsent] at h
  | fn name => simp [JSValue.isStringOrAbsent] at h
  | obj => simp [JSValue.isStringOrAbsent] at h
  | undefined => exact ⟨_, rfl⟩
  | null => exact ⟨_, rfl⟩
  | str s =>
    unfold extractCompanyFromHeadline
    split
    · exact ⟨_, rfl⟩
    · simp only
      split
      · exact ⟨_, rfl⟩
      · split <;> exact ⟨_, rfl⟩

theorem headlineRole_total (x : JSValue) (h : x.isStringOrAbsent = true) :
    ∃ val, headlineRole x = .ok val := by
  cases x with
  | arr items => simp [JSValue.isStringOrAbsent] at h
  | fn name => simp [JSValue.isStringOrAbsent] at h
  | obj => simp [JSValue.isStringOrAbsent] at h
  | undefined => exact ⟨_, rfl⟩
  | null => exact ⟨_, rfl⟩
  | str s => exact ⟨_, rfl⟩

theorem getProfileValue_ne_error (P : Profile) (hP : P.WellTyped) (v : String) (e : JSError) :
    getProfileValue v P ≠ .error e := by
  obtain ⟨hname, hhead⟩ := hP
  intro h
  unfold getProfileValue at h
  by_cases h1 : (P.get v).truthy = true
  · rw [if_pos h1] at h; exact Except.noConfusion h
  rw [if_neg h1] at h
  by_cases h2 : v = "firstName"
  · rw [if_pos h2] at h
    obtain ⟨val, hval⟩ := extractFirstName_total _ hname
    rw [hval] at h; exact Except.noConfusion h
  rw [if_neg h2] at h
  by_cases h3 : v = "lastName"
  · rw [if_pos h3] at h
    obtain ⟨val, hval⟩ := extractLastName_total _ hname
    rw [hval] at h; exact Except.noConfusion h
  rw [if_neg h3] at h
  by_cases h4 : v = "fullName" ∨ v = "name"
  · rw [if_pos h4] at h; exact Except.noConfusion h
  rw [if_neg h4] at h
  by_cases h5 : v = "company" ∨ v = "currentCompany"
  · rw [if_pos h5] at h
    by_cases h5b : (P.get "company").truthy = true
    · rw [if_pos h5b] at h; exact Except.noConfusion h
    · rw [if_neg h5b] at h
      obtain ⟨val, hval⟩ := extractCompanyFromHeadline_total _ hhead
      rw [hval] at h; exact Except.noConfusion h
  rw [if_neg h5] at h
  by_cases h6 : v = "role" ∨ v = "title" ∨ v = "position"
  · rw [if_pos h6] at h
    by_cases h6b : (P.get "primaryRole").truthy = true
    · rw [if_pos h6b] at h; exact Except.noConfusion h
    · rw [if_neg h6b] at h
      obtain ⟨val, hval⟩ := headlineRole_total _ hhead
      rw [hval] at h; exact Except.noConfusion h
  rw [if_neg h6] at h
  by_cases h7 : v = "headline"
  · rw [if_pos h7] at h; exact Except.noConfusion h
  rw [if_neg h7] at h
  by_cases h8 : v = "location"
  · rw [if_pos h8] at h; exact Except.noConfusion h
  rw [if_neg h8] at h
  by_cases h9 : v = "industry"
  · rw [if_pos h9] at h; exact Except.noConfusion h
  rw [if_neg h9] at h
  by_cases h10 : v = "school" ∨ v = "education"
  · rw [if_pos h10] at h; exact Except.noConfusion h
  rw [if_neg h10] at h
  by_cases h11 : v = "mutualConnections" ∨ v = "mutuals"
  · rw [if_pos h11] at h; exact Except.noConfusion h
  rw [if_neg h11] at h
  by_cases h12 : v = "skills"
  · rw [if_pos h12] at h
    rw [h12] at h1
    rw [if_neg h1] at h
    exact Except.noConfusion h
  rw [if_neg h12] at h
  by_cases h13 : v = "recentActivity"
  · rw [if_pos h13] at h; exact Except.noConfusion h
  rw [if_neg h13] at h
  exact Except.noConfusion h

theorem getProfileValue_total (P : Profile) (hP : P.WellTyped) (v : String) :
    ∃ val, getProfileValue v P = .ok val := by
  cases h : getProfileValue v P with
  | ok val => exact ⟨val, rfl⟩
  | error e => exact absurd h (getProfileValue_ne_error P hP v e)

theorem renderPieces_total (P : Profile) (hP : P.WellTyped) (ps : List Piece) :
    ∃ out, renderPieces P ps = .ok out := by
  induction ps with
  | nil => exact ⟨[], rfl⟩
  | cons p ps ih =>
    obtain ⟨out, hout⟩ := ih
    cases p with
    | text c => exact ⟨c :: out, by simp [renderPieces, hout]⟩
    | hit v =>
      obtain ⟨val, hval⟩ := getProfileValue_total P hP ⟨v⟩
      have hr : ∃ r, replacement v P = .ok r := by
        unfold replacement
        rw [hval]
        split
        · rename_i value h
          simp only [Except.ok.injEq] at h
          split <;> exact ⟨_, rfl⟩
        · rename_i e h
          simp at h
      obtain ⟨r, hr⟩ := hr
      exact ⟨r ++ out, by simp [renderPieces, hr, hout]⟩

/-! ## Rendering -/

theorem replacement_eq (v : String) (P : Profile) (value : JSValue)
    (h : getProfileValue v P = .ok value) :
    replacement v.data P =
      .ok (if value.isPresent then value.toJSString else placeholder v).data := by
  have hv : (⟨v.data⟩ : String) = v := rfl
  unfold replacement
  rw [hv, h]
  cases hp : value.isPresent <;> simp [hp, Piece.source, placeholder, String.data_append]

/-- Claim C1 (`TemplateEngine.render`).  For texts `a`, `b`, `c` without brace characters, a
word-character identifier `v` and a profile `P` on which `getProfileValue v P` returns
`value`: rendering `a ++ "{{v}}" ++ b ++ "{{v}}" ++ c` gives `a ++ r ++ b ++ r ++ c`, where
`r` is the value (as text) when it is neither `null` nor `undefined`, and the placeholder
`{{v}}` itself otherwise. -/
theorem render_repeated_placeholder (a b c v : String) (P : Profile) (value : JSValue)
    (ha : NoBraces a.data) (hb : NoBraces b.data) (hc : NoBraces c.data)
    (hv : IsIdentifier v.data) (hvalue : getProfileValue v P = .ok value) :
    render (some (a ++ placeholder v ++ b ++ placeholder v ++ c)) (some P) =
      .ok (some (a ++ (if value.isPresent then value.toJSString else placeholder v) ++ b ++
        (if value.isPresent then value.toJSString else placeholder v) ++ c)) := by
  have hdata : (a ++ placeholder v ++ b ++ placeholder v ++ c).data =
      sourceOf (a.data.map Piece.text ++ [Piece.hit v.data] ++ b.data.map Piece.text ++
        [Piece.hit v.data] ++ c.data.map Piece.text) := by
    simp [sourceOf_append, sourceOf_map_text, sourceOf, Piece.source, placeholder,
      String.data_append]
  have hne : a ++ placeholder v ++ b ++ placeholder v ++ c ≠ "" := by
    intro h
    have h2 := congrArg String.data h
    simp [placeholder, String.data_append] at h2
  have hscan := scanVariables_sourceOf
    (a.data.map Piece.text ++ [Piece.hit v.data] ++ b.data.map Piece.text ++
        [Piece.hit v.data] ++ c.data.map Piece.text)
    (by
      intro ch hch
      simp only [List.mem_append, List.mem_map, List.mem_singleton, Piece.text.injEq,
        exists_eq_right, reduceCtorEq, or_false] at hch
      rcases hch with (h | h) | h
      · exact (ha ch h).1
      · exact (hb ch h).1
      · exact (hc ch h).1)
    (by
      intro w hw
      simp only [List.mem_append, List.mem_map, List.mem_singleton, Piece.hit.injEq,
        reduceCtorEq, and_false, exists_false, false_or, or_false, or_self] at hw
      rw [hw]; exact hv)
  have hr := replacement_eq v P value hvalue
  have hrender := renderPieces_append P _ _ _ _
    (renderPieces_append P _ _ _ _
      (renderPieces_append P _ _ _ _
        (renderPieces_append P _ _ _ _ (renderPieces_map_text P a.data)
          (renderPieces_hit P v.data _ hr))
        (renderPieces_map_text P b.data))
      (renderPieces_hit P v.data _ hr))
    (renderPieces_map_text P c.data)
  simp only [render, if_neg hne]
  rw [hdata, hscan, hrender]
  simp only [Except.ok.injEq, Option.some.injEq]
  apply String.ext
  simp [String.data_append]

/-- Witness for claim C1: `Hi {{firstName}}, dear {{firstName}}!` on a profile named Ada
Lovelace renders to `Hi Ada, dear Ada!`. -/
theorem render_repeated_placeholder_witness :
    render (some "Hi {{firstName}}, dear {{firstName}}!")
        (some ⟨[("name", .str "Ada Lovelace")]⟩) =
      .ok (some "Hi Ada, dear Ada!") :=
  render_repeated_placeholder "Hi " ", dear " "!" "firstName" ⟨[("name", .str "Ada Lovelace")]⟩
    (.str "Ada") (by decide) (by decide) (by decide) (by decide) (by decide)

theorem renderPieces_hit_cons_ok (P : Profile) (v : List Char) (qs : List Piece)
    (b : List Char) (h : renderPieces P (Piece.hit v :: qs) = .ok b) :
    ∃ r b2, replacement v P = .ok r ∧ renderPieces P qs = .ok b2 ∧ b = r ++ b2 := by
  simp only [renderPieces] at h
  cases hr : replacement v P with
  | error e => rw [hr] at h; simp at h
  | ok r =>
    cases hq : renderPieces P qs with
    | error e => rw [hr, hq] at h; simp at h
    | ok o =>
      rw [hr, hq] at h
      simp only [Except.ok.injEq] at h
      exact ⟨r, o, rfl, rfl, h.symm⟩

theorem placeholder_data (v : String) :
    (placeholder v).data = '{' :: '{' :: (v.data ++ ['}', '}']) := by
  simp [placeholder, String.data_append]

theorem ne_empty_of_includes_placeholder (T v : String) (hT : includes T (placeholder v)) :
    T ≠ "" := by
  intro h
  obtain ⟨pre, post, hpp⟩ := hT
  rw [h, placeholder_data] at hpp
  simp at hpp

/-- Unknown-variable preservation, as far as the code has it.  For every template `T` that
contains `{{v}}`, with `v` a word-character identifier outside the alias table, and every
profile `P` on which the lookup `profileData[v]` finds nothing, neither among the fields of
`P` nor among the members of `Object.prototype`: whatever `render(T, P)` returns contains
the exact substring `{{v}}`; and `render(T, P)` does return a string on every profile whose
`name` and `headline` are strings or absent. -/
theorem render_preserves_unknown_variable (T v : String) (P : Profile)
    (hT : includes T (placeholder v)) (hv : IsIdentifier v.data)
    (halias : v ∉ aliasNames) (hP : P.get v = .undefined) :
    (∀ s, render (some T) (some P) = .ok (some s) → includes s (placeholder v)) ∧
    (P.WellTyped → ∃ s, render (some T) (some P) = .ok (some s)) := by
  have hne := ne_empty_of_includes_placeholder T v hT
  constructor
  · intro s hs
    obtain ⟨pre, post, hpp⟩ := hT
    rw [placeholder_data] at hpp
    obtain ⟨ps, hps⟩ := scanVariables_before_placeholder v.data post hv pre.length pre (le_refl _)
    have hTd : T.data = pre ++ '{' :: '{' :: (v.data ++ '}' :: '}' :: post) := by
      rw [← hpp]; simp
    simp only [render, if_neg hne] at hs
    rw [hTd, hps] at hs
    cases hr : renderPieces P (ps ++ Piece.hit v.data :: scanVariables post) with
    | error e => rw [hr] at hs; simp at hs
    | ok out =>
      rw [hr] at hs
      simp only [Except.ok.injEq, Option.some.injEq] at hs
      obtain ⟨a, b, _, hb, hab⟩ := renderPieces_append_ok P _ _ out hr
      obtain ⟨r, b2, hrep, _, hb2⟩ := renderPieces_hit_cons_ok P _ _ b hb
      have hnull : getProfileValue v P = .ok .null :=
        getProfileValue_unknown v P (by rw [hP]; rfl) halias
      have hrep2 := replacement_eq v P .null hnull
      rw [hrep] at hrep2
      simp only [Except.ok.injEq, JSValue.isPresent, Bool.false_eq_true, if_false] at hrep2
      rw [← hs]
      exact ⟨a, b2, by rw [hab, hb2, hrep2]; simp⟩
  · intro hW
    obtain ⟨out, hout⟩ := renderPieces_total P hW (scanVariables T.data)
    exact ⟨⟨out⟩, by simp only [render, if_neg hne, hout]⟩

/-- Example of unknown-variable preservation: the variable `unknownXyz` next to a known
one. -/
theorem render_preserves_unknown_variable_witness :
    render (some "Hi {{firstName}}, {{unknownXyz}}!") (some ⟨[("name", .str "Ada Lovelace")]⟩) =
        .ok (some "Hi Ada, {{unknownXyz}}!") ∧
      includes "Hi Ada, {{unknownXyz}}!" (placeholder "unknownXyz") :=
  ⟨by decide,
   (render_preserves_unknown_variable "Hi {{firstName}}, {{unknownXyz}}!" "unknownXyz"
      ⟨[("name", .str "Ada Lovelace")]⟩ (by decide) (by decide) (by decide) (by decide)).1
      "Hi Ada, {{unknownXyz}}!" (by decide)⟩

/-- Claim C2 (`TemplateEngine.render`, `getProfileValue`), the code at the failing input.
The profile `{name: 'Ada Lovelace'}` has no field `constructor`, and `constructor` is a
word-character identifier outside the alias table; yet the direct lookup
`profileData[variable]` finds the member every object inherits from `Object.prototype`, a
function, and `render('{{constructor}}', P)` returns the text of that function: the
placeholder is gone.  The same holds inside a longer template and for `toString`; a name
no object inherits, such as `unknownXyz`, reaches `default: return null` and stays. -/
theorem render_replaces_inherited_member :
    lookupOwn "constructor" [("name", JSValue.str "Ada Lovelace")] = none ∧
      "constructor" ∉ aliasNames ∧
      getProfileValue "constructor" ⟨[("name", .str "Ada Lovelace")]⟩ = .ok (.fn "Object") ∧
      render (some "{{constructor}}") (some ⟨[("name", .str "Ada Lovelace")]⟩) =
        .ok (some "function Object() \x7b [native code] \x7d") ∧
      render (some "Hi {{firstName}}, {{toString}}!")
          (some ⟨[("name", .str "Ada Lovelace")]⟩) =
        .ok (some "Hi Ada, function toString() \x7b [native code] \x7d!") ∧
      render (some "{{unknownXyz}}") (some ⟨[("name", .str "Ada Lovelace")]⟩) =
        .ok (some "{{unknownXyz}}") := by
  decide

/-- Claim C4 (`TemplateEngine.getProfileValue`).  Direct key match beats the alias table:
whenever the profile holds a non-empty value under the exact key `v` (a non-empty string,
or a sequence), `getProfileValue v P` returns that value verbatim, for alias names as for
any other name. -/
theorem getProfileValue_direct_key (v : String) (P : Profile)
    (h1 : P.get v ≠ .undefined) (h2 : P.get v ≠ .null) (h3 : P.get v ≠ .str "") :
    getProfileValue v P = .ok (P.get v) := by
  have ht : (P.get v).truthy = true := by
    cases hg : P.get v with
    | undefined => exact absurd hg h1
    | null => exact absurd hg h2
    | str s =>
      have : s ≠ "" := fun hs => h3 (by rw [hg, hs])
      simp [JSValue.truthy, this]
    | arr items => rfl
    | fn name => rfl
    | obj => rfl
  unfold getProfileValue
  rw [if_pos ht]

/-- Witness for claim C4: with `P = {name: "Ada Lovelace", role: "ignored"}` the variable
`role` resolves to the stored `"ignored"`, and the template `{{name}} is a {{role}}`
renders to `Ada Lovelace is a ignored`. -/
theorem getProfileValue_direct_key_witness :
    getProfileValue "role" ⟨[("name", .str "Ada Lovelace"), ("role", .str "ignored")]⟩ =
        .ok (.str "ignored") ∧
      render (some "{{name}} is a {{role}}")
          (some ⟨[("name", .str "Ada Lovelace"), ("role", .str "ignored")]⟩) =
        .ok (some "Ada Lovelace is a ignored") :=
  ⟨getProfileValue_direct_key "role" ⟨[("name", .str "Ada Lovelace"), ("role", .str "ignored")]⟩
      (by decide) (by decide) (by decide),
   by decide⟩

theorem scanAux_hit_identifier (v : List Char) : ∀ (fuel : Nat) (s : List Char),
    Piece.hit v ∈ scanAux fuel s → IsIdentifier v := by
  intro fuel
  induction fuel with
  | zero => intro s h; simp [scanAux] at h
  | succ n ih =>
    intro s h
    cases s with
    | nil => simp [scanAux] at h
    | cons c cs =>
      simp only [scanAux] at h
      cases hm : matchVariable (c :: cs) with
      | none =>
        rw [hm] at h
        simp only [List.mem_cons, reduceCtorEq, false_or] at h
        exact ih cs h
      | some p =>
        obtain ⟨w, rest⟩ := p
        rw [hm] at h
        simp only [List.mem_cons, Piece.hit.injEq] at h
        rcases h with h | h
        · obtain ⟨_, h1, h2⟩ := matchVariable_some hm
          rw [h]; exact ⟨h1, h2⟩
        · exact ih rest h

theorem scanVariables_hit_identifier (v s : List Char) (h : Piece.hit v ∈ scanVariables s) :
    IsIdentifier v :=
  scanAux_hit_identifier v _ s h

theorem mem_foldl_setAdd (x : String) (l : List String) :
    ∀ acc : List String, x ∈ l.foldl setAdd acc ↔ x ∈ acc ∨ x ∈ l := by
  induction l with
  | nil => intro acc; simp
  | cons y ys ih =>
    intro acc
    rw [List.foldl_cons, ih]
    unfold setAdd
    by_cases hy : y ∈ acc
    · rw [if_pos hy]
      constructor
      · rintro (h | h)
        · exact Or.inl h
        · exact Or.inr (List.mem_cons_of_mem _ h)
      · rintro (h | h)
        · exact Or.inl h
        · rcases List.mem_cons.mp h with h | h
          · exact Or.inl (h ▸ hy)
          · exact Or.inr h
    · rw [if_neg hy]
      simp only [List.mem_append, List.mem_singleton, List.mem_cons]
      tauto

theorem mem_hitNames (v : List Char) (ps : List Piece) :
    (⟨v⟩ : String) ∈ hitNames ps ↔ Piece.hit v ∈ ps := by
  induction ps with
  | nil => simp [hitNames]
  | cons p ps ih =>
    cases p with
    | text c => simp [hitNames, ih]
    | hit w =>
      simp only [hitNames, List.mem_cons, ih, Piece.hit.injEq, String.ext_iff]

theorem mem_getVariables (T : String) (v : List Char) :
    (⟨v⟩ : String) ∈ getVariables T ↔ Piece.hit v ∈ scanVariables T.data := by
  unfold getVariables
  rw [mem_foldl_setAdd, mem_hitNames]
  simp

/-- Rendering pieces whose values bring no brace gives a text that scans into pieces the
profile leaves as they are. -/
theorem renderPieces_stable (P : Profile) (ps : List Piece)
    (htext : ∀ c, Piece.text c ∈ ps → c ≠ '{')
    (hhit : ∀ v, Piece.hit v ∈ ps → IsIdentifier v ∧ ∃ value,
      getProfileValue ⟨v⟩ P = .ok value ∧
        (value.isPresent = true → NoBraces value.toJSString.data)) :
    ∃ out qs, renderPieces P ps = .ok out ∧ sourceOf qs = out ∧
      renderPieces P qs = .ok out ∧
      (∀ c, Piece.text c ∈ qs → c ≠ '{') ∧ (∀ v, Piece.hit v ∈ qs → IsIdentifier v) := by
  induction ps with
  | nil => exact ⟨[], [], rfl, rfl, rfl, by simp, by simp⟩
  | cons p ps ih =>
    obtain ⟨out, qs, h1, h2, h3, h4, h5⟩ := ih
      (fun c hc => htext c (List.mem_cons_of_mem _ hc))
      (fun v hv => hhit v (List.mem_cons_of_mem _ hv))
    cases p with
    | text c =>
      have hc := htext c (List.mem_cons_self _ _)
      refine ⟨c :: out, Piece.text c :: qs, by simp [renderPieces, h1],
        by simp [sourceOf, Piece.source, h2], by simp [renderPieces, h3], ?_, ?_⟩
      · intro d hd
        simp only [List.mem_cons, Piece.text.injEq] at hd
        rcases hd with hd | hd
        · rw [hd]; exact hc
        · exact h4 d hd
      · intro w hw
        simp only [List.mem_cons, reduceCtorEq, false_or] at hw
        exact h5 w hw
    | hit v =>
      obtain ⟨hid, value, hval, hbr⟩ := hhit v (List.mem_cons_self _ _)
      have hrep := replacement_eq ⟨v⟩ P value hval
      cases hp : value.isPresent with
      | true =>
        simp only [hp, if_true] at hrep
        refine ⟨value.toJSString.data ++ out,
          value.toJSString.data.map Piece.text ++ qs, by simp [renderPieces, hrep, h1],
          by simp [sourceOf_append, sourceOf_map_text, h2],
          renderPieces_append P _ _ _ _ (renderPieces_map_text P _) h3, ?_, ?_⟩
        · intro d hd
          simp only [List.mem_append, List.mem_map, Piece.text.injEq, exists_eq_right] at hd
          rcases hd with hd | hd
          · exact (hbr hp d hd).1
          · exact h4 d hd
        · intro w hw
          simp only [List.mem_append, List.mem_map, reduceCtorEq, and_false, exists_false,
            false_or] at hw
          exact h5 w hw
      | false =>
        simp only [hp, Bool.false_eq_true, if_false, placeholder_data] at hrep
        refine ⟨Piece.source (.hit v) ++ out, Piece.hit v :: qs,
          by simp [renderPieces, hrep, h1, Piece.source],
          by simp [sourceOf, h2], by simp [renderPieces, hrep, h3, Piece.source], ?_, ?_⟩
        · intro d hd
          simp only [List.mem_cons, reduceCtorEq, false_or] at hd
          exact h4 d hd
        · intro w hw
          simp only [List.mem_cons, Piece.hit.injEq] at hw
          rcases hw with hw | hw
          · rw [hw]; exact hid
          · exact h5 w hw

/-- Counterexample to claim C3 as stated: the template `{{headline}}` has no nested or
escaped braces, yet on a profile whose headline itself contains `{{company}}` the first
rendering gives `Ask me about {{company}}` and rendering that again gives
`Ask me about Acme`. -/
theorem render_not_idempotent :
    SimpleTemplate "{{headline}}" ∧
      render (some "{{headline}}")
          (some ⟨[("name", .str "Ada Lovelace"), ("company", .str "Acme"),
            ("headline", .str "Ask me about {{company}}")]⟩) =
        .ok (some "Ask me about {{company}}") ∧
      render (some "Ask me about {{company}}")
          (some ⟨[("name", .str "Ada Lovelace"), ("company", .str "Acme"),
            ("headline", .str "Ask me about {{company}}")]⟩) =
        .ok (some "Ask me about Acme") ∧
      "Ask me about Acme" ≠ "Ask me about {{company}}" := by
  decide

/-- Claim C3, amended (`TemplateEngine.render`).  Re-rendering is idempotent for every
template `T` without nested or escaped braces and every profile `P` on which each
variable of `T` resolves to `null`/`undefined` or to a value whose text contains no brace
character: `render(T, P)` returns a string `s`, and `render(s, P) = s`. -/
theorem render_idempotent_of_brace_free_values (T : String) (P : Profile)
    (hT : SimpleTemplate T)
    (hvals : ∀ v ∈ getVariables T, ∃ value, getProfileValue v P = .ok value ∧
      (value.isPresent = true → NoBraces value.toJSString.data)) :
    ∃ s, render (some T) (some P) = .ok (some s) ∧ render (some s) (some P) = .ok (some s) := by
  by_cases hE : T = ""
  · exact ⟨"", by simp [render, hE], by simp [render]⟩
  · obtain ⟨out, qs, h1, h2, h3, h4, h5⟩ := renderPieces_stable P (scanVariables T.data)
      (fun c hc => by
        have := hT _ hc
        simp only [Piece.isPlain, Bool.and_eq_true, bne_iff_ne, ne_eq] at this
        exact this.1)
      (fun v hv => ⟨scanVariables_hit_identifier v _ hv,
        hvals ⟨v⟩ ((mem_getVariables T v).mpr hv)⟩)
    refine ⟨⟨out⟩, by simp only [render, if_neg hE, h1], ?_⟩
    by_cases hO : (⟨out⟩ : String) = ""
    · simp only [render, if_pos hO]
    · simp only [render, if_neg hO]
      rw [← h2, scanVariables_sourceOf qs h4 h5, h2, h3]

/-- Witness for claim C3, amended: a template with a resolved and an unresolved variable. -/
theorem render_idempotent_of_brace_free_values_witness :
    ∃ s, render (some "Hi {{firstName}}, {{unknownXyz}}!")
          (some ⟨[("name", .str "Ada Lovelace")]⟩) = .ok (some s) ∧
      render (some s) (some ⟨[("name", .str "Ada Lovelace")]⟩) = .ok (some s) :=
  render_idempotent_of_brace_free_values "Hi {{firstName}}, {{unknownXyz}}!"
    ⟨[("name", .str "Ada Lovelace")]⟩ (by decide)
    (by
      intro v hv
      have hvars : getVariables "Hi {{firstName}}, {{unknownXyz}}!" =
          ["firstName", "unknownXyz"] := by decide
      rw [hvars] at hv
      simp only [List.mem_cons, List.mem_singleton, List.not_mem_nil, or_false] at hv
      rcases hv with rfl | rfl
      · exact ⟨.str "Ada", by decide, by decide⟩
      · exact ⟨.null, by decide, by decide⟩)

/-! ## Limit status -/

theorem statusOf_percentage (current limit : Int) (hl : 0 < limit) :
    statusOf (JSNumber.div current limit).times100 =
      if (95 : ℚ) / 100 ≤ (current : ℚ) / (limit : ℚ) then "critical"
      else if (80 : ℚ) / 100 ≤ (current : ℚ) / (limit : ℚ) then "warning"
      else "safe" := by
  have hne : limit ≠ 0 := ne_of_gt hl
  have h95 : critical_threshold * 100 = 95 := by norm_num [critical_threshold]
  have h80 : warning_threshold * 100 = 80 := by norm_num [warning_threshold]
  have e95 : ((95 : ℚ) ≤ (current : ℚ) / (limit : ℚ) * 100) ↔
      ((95 : ℚ) / 100 ≤ (current : ℚ) / (limit : ℚ)) := by
    constructor <;> intro h <;> linarith
  have e80 : ((80 : ℚ) ≤ (current : ℚ) / (limit : ℚ) * 100) ↔
      ((80 : ℚ) / 100 ≤ (current : ℚ) / (limit : ℚ)) := by
    constructor <;> intro h <;> linarith
  simp only [statusOf, JSNumber.div, if_neg hne, JSNumber.times100, JSNumber.ge, h95, h80,
    decide_eq_true_eq, e95, e80]

/-- Claim C6 (`LinkedInLimitsManager.createLimitStatus`).  For every integer `current` and
every `limit > 0` the status is `critical` exactly when `current/limit ≥ 95%`, `warning`
exactly when `80% ≤ current/limit < 95%`, and `safe` exactly when `current/limit < 80%`. -/
theorem createLimitStatus_status (type : String) (current limit : Int) (hl : 0 < limit) :
    ((createLimitStatus type current limit).status = "critical" ↔
        (95 : ℚ) / 100 ≤ (current : ℚ) / (limit : ℚ)) ∧
      ((createLimitStatus type current limit).status = "warning" ↔
        ((80 : ℚ) / 100 ≤ (current : ℚ) / (limit : ℚ) ∧
          (current : ℚ) / (limit : ℚ) < (95 : ℚ) / 100)) ∧
      ((createLimitStatus type current limit).status = "safe" ↔
        (current : ℚ) / (limit : ℚ) < (80 : ℚ) / 100) := by
  have hs : (createLimitStatus type current limit).status =
      statusOf (JSNumber.div current limit).times100 := rfl
  rw [hs, statusOf_percentage current limit hl]
  have d1 : ("critical" : String) ≠ "warning" := by decide
  have d2 : ("critical" : String) ≠ "safe" := by decide
  have d3 : ("warning" : String) ≠ "safe" := by decide
  by_cases h95 : (95 : ℚ) / 100 ≤ (current : ℚ) / (limit : ℚ)
  · rw [if_pos h95]
    refine ⟨⟨fun _ => h95, fun _ => rfl⟩, ⟨fun h => absurd h d1, fun h => ?_⟩,
      ⟨fun h => absurd h d2, fun h => ?_⟩⟩
    · exact absurd h95 (not_le.mpr h.2)
    · exact absurd h95 (not_le.mpr (by linarith))
  · rw [if_neg h95]
    by_cases h80 : (80 : ℚ) / 100 ≤ (current : ℚ) / (limit : ℚ)
    · rw [if_pos h80]
      refine ⟨⟨fun h => absurd h.symm d1, fun h => absurd h h95⟩,
        ⟨fun _ => ⟨h80, not_le.mp h95⟩, fun _ => rfl⟩,
        ⟨fun h => absurd h d3, fun h => absurd h80 (not_le.mpr h)⟩⟩
    · rw [if_neg h80]
      refine ⟨⟨fun h => absurd h.symm d2, fun h => absurd h h95⟩,
        ⟨fun h => absurd h.symm d3, fun h => absurd h.1 h80⟩,
        ⟨fun _ => not_le.mp h80, fun _ => rfl⟩⟩

/-- Witness for claim C6: with the limit 40 the status is `warning` at 32 and `critical` at
38. -/
theorem createLimitStatus_status_witness :
    (createLimitStatus "messages" 32 40).status = "warning" ∧
      (createLimitStatus "messages" 38 40).status = "critical" :=
  ⟨(createLimitStatus_status "messages" 32 40 (by decide)).2.1.mpr
      ⟨by norm_num, by norm_num⟩,
   (createLimitStatus_status "messages" 38 40 (by decide)).1.mpr (by norm_num)⟩

/-- Claim C7 (`LinkedInLimitsManager.createLimitStatus`).  For all `current` and `limit`,
`canProceed` is true if and only if `current < limit`, whatever the status is. -/
theorem createLimitStatus_canProceed (type : String) (current limit : Int) :
    (createLimitStatus type current limit).canProceed = true ↔ current < limit := by
  simp [createLimitStatus]

/-- Witness for claim C7: at 39 of 40 the status is `critical` and `canProceed` is true. -/
theorem createLimitStatus_canProceed_witness :
    (createLimitStatus "messages" 39 40).status = "critical" ∧
      (createLimitStatus "messages" 39 40).canProceed = true :=
  ⟨by
      show statusOf (JSNumber.div 39 40).times100 = "critical"
      rw [statusOf_percentage 39 40 (by decide)]
      norm_num,
   (createLimitStatus_canProceed "messages" 39 40).mpr (by decide)⟩

/-! ## Calendar and activity map -/

theorem digitChar_toNat (n : Nat) : (digitChar n).toNat = 48 + n % 10 := by
  unfold digitChar
  have h : n % 10 < 10 := Nat.mod_lt _ (by decide)
  generalize n % 10 = k at h
  interval_cases k <;> rfl

theorem utf16Units_digit (n : Nat) (rest : List Char) :
    utf16Units (digitChar n :: rest) = (48 + n % 10) :: utf16Units rest := by
  have h := digitChar_toNat n
  have h2 : n % 10 < 10 := Nat.mod_lt _ (by decide)
  simp only [utf16Units, h]
  rw [if_pos (by omega)]

theorem utf16Units_dash (rest : List Char) :
    utf16Units ('-' :: rest) = 45 :: utf16Units rest := by
  simp [utf16Units]

theorem utf16Units_isoDate (d : CivilDate) (hy : 0 ≤ d.year ∧ d.year ≤ 9999) :
    utf16Units (isoDate d).data =
      [48 + d.year.toNat / 10 / 10 / 10 % 10, 48 + d.year.toNat / 10 / 10 % 10,
       48 + d.year.toNat / 10 % 10, 48 + d.year.toNat % 10, 45,
       48 + d.month / 10 % 10, 48 + d.month % 10, 45,
       48 + d.day / 10 % 10, 48 + d.day % 10] := by
  have hnil : utf16Units [] = [] := rfl
  simp only [isoDate, isoYear, if_pos hy, padDigits, List.nil_append, List.cons_append,
    List.append_assoc, List.singleton_append]
  simp only [utf16Units_digit, utf16Units_dash, hnil]

theorem unitsLt_isoDate (y1 m1 d1 y2 m2 d2 : Nat) (hy1 : y1 ≤ 9999) (hy2 : y2 ≤ 9999)
    (hm1 : m1 ≤ 99) (hm2 : m2 ≤ 99) (hd1 : d1 ≤ 99) (hd2 : d2 ≤ 99) :
    unitsLt
      [48 + y1 / 10 / 10 / 10 % 10, 48 + y1 / 10 / 10 % 10, 48 + y1 / 10 % 10, 48 + y1 % 10, 45,
       48 + m1 / 10 % 10, 48 + m1 % 10, 45, 48 + d1 / 10 % 10, 48 + d1 % 10]
      [48 + y2 / 10 / 10 / 10 % 10, 48 + y2 / 10 / 10 % 10, 48 + y2 / 10 % 10, 48 + y2 % 10, 45,
       48 + m2 / 10 % 10, 48 + m2 % 10, 45, 48 + d2 / 10 % 10, 48 + d2 % 10] = true ↔
      (y1 < y2 ∨ (y1 = y2 ∧ (m1 < m2 ∨ (m1 = m2 ∧ d1 < d2)))) := by
  simp only [unitsLt, Bool.or_eq_true, Bool.and_eq_true, decide_eq_true_eq, beq_iff_eq,
    Bool.false_eq_true, and_false, or_false, Nat.lt_irrefl, false_or, true_and]
  omega

theorem daysInMonth_bounds (y : Int) (m : Nat) : 28 ≤ daysInMonth y m ∧ daysInMonth y m ≤ 31 := by
  unfold daysInMonth
  split_ifs <;> omega

theorem jsStrLt_isoDate (a b : CivilDate) (ha : a.Valid) (hb : b.Valid)
    (hay : 0 ≤ a.year ∧ a.year ≤ 9999) (hby : 0 ≤ b.year ∧ b.year ≤ 9999) :
    jsStrLt (isoDate a) (isoDate b) = true ↔ a.before b := by
  obtain ⟨_, ha2, _, ha4⟩ := ha
  obtain ⟨_, hb2, _, hb4⟩ := hb
  have h1 := (daysInMonth_bounds a.year a.month).2
  have h2 := (daysInMonth_bounds b.year b.month).2
  unfold jsStrLt
  rw [utf16Units_isoDate a hay, utf16Units_isoDate b hby,
    unitsLt_isoDate _ _ _ _ _ _ (by omega) (by omega) (by omega) (by omega) (by omega) (by omega)]
  unfold CivilDate.before
  omega

theorem prevDay_valid (d : CivilDate) (h : d.Valid) : (prevDay d).Valid := by
  obtain ⟨h1, h2, h3, h4⟩ := h
  unfold prevDay
  split_ifs with hd hm
  · exact ⟨h1, h2, by simp only; omega, by simp only; omega⟩
  · have hb := daysInMonth_bounds d.year (d.month - 1)
    exact ⟨by simp only; omega, by simp only; omega, by simp only; omega, le_refl _⟩
  · exact ⟨by simp only; omega, by simp only; omega, by simp only; omega, by
      simp [daysInMonth]⟩

theorem daysBefore_valid (n : Nat) : ∀ d : CivilDate, d.Valid → (daysBefore n d).Valid := by
  induction n with
  | zero => intro d h; exact h
  | succ n ih => intro d h; exact ih _ (prevDay_valid d h)

theorem lookupDay_setDay (key k : String) (r : DayRecord) (m : ActivityMap) :
    lookupDay k (setDay key r m) = if k = key then some r else lookupDay k m := by
  induction m with
  | nil =>
    simp only [setDay, lookupDay]
    by_cases h : k = key
    · rw [if_pos h, if_pos h.symm]
    · rw [if_neg h, if_neg (Ne.symm h)]
  | cons e m ih =>
    obtain ⟨k2, old⟩ := e
    simp only [setDay]
    by_cases h2 : k2 = key
    · rw [if_pos h2]
      simp only [lookupDay]
      by_cases h : k = key
      · rw [if_pos h, if_pos (h2.trans h.symm)]
      · have h3 : ¬ k2 = k := fun h3 => h (h3.symm.trans h2)
        rw [if_neg h, if_neg h3, if_neg h3]
    · rw [if_neg h2]
      simp only [lookupDay, ih]
      by_cases h3 : k2 = k
      · rw [if_pos h3, if_neg (fun h4 => h2 (h3.trans h4)), if_pos h3]
      · rw [if_neg h3, if_neg h3]

theorem lookupDay_pruneBefore (cutoffDate k : String) (m : ActivityMap) :
    lookupDay k (pruneBefore cutoffDate m) =
      if jsStrLt k cutoffDate = true then none else lookupDay k m := by
  induction m with
  | nil => simp [pruneBefore, lookupDay]
  | cons e m ih =>
    obtain ⟨k2, r⟩ := e
    unfold pruneBefore at ih ⊢
    by_cases hk : jsStrLt k2 cutoffDate = true
    · rw [List.filter_cons_of_neg (by simp [hk]), ih]
      by_cases h : jsStrLt k cutoffDate = true
      · rw [if_pos h, if_pos h]
      · rw [if_neg h, if_neg h]
        simp only [lookupDay]
        rw [if_neg (fun h2 : k2 = k => h (h2 ▸ hk))]
    · rw [List.filter_cons_of_pos (by simp [hk])]
      simp only [lookupDay, ih]
      by_cases h3 : k2 = k
      · rw [if_pos h3, if_pos h3, if_neg (fun h4 => hk (h3 ▸ h4))]
      · rw [if_neg h3, if_neg h3]

theorem prevDay_before (d : CivilDate) (h : d.Valid) : (prevDay d).before d := by
  obtain ⟨h1, h2, h3, h4⟩ := h
  unfold prevDay CivilDate.before
  split_ifs with hd hm
  · exact Or.inr ⟨rfl, Or.inr ⟨rfl, by simp only; omega⟩⟩
  · exact Or.inr ⟨rfl, Or.inl (by simp only; omega)⟩
  · exact Or.inl (by simp only; omega)

theorem daysBefore_not_after (n : Nat) : ∀ d : CivilDate, d.Valid →
    daysBefore n d = d ∨ (daysBefore n d).before d := by
  induction n with
  | zero => intro d _; exact Or.inl rfl
  | succ n ih =>
    intro d h
    have hp := prevDay_before d h
    rcases ih (prevDay d) (prevDay_valid d h) with h1 | h1
    · right; simp only [daysBefore]; rw [h1]; exact hp
    · right
      simp only [daysBefore]
      unfold CivilDate.before at h1 hp ⊢
      omega

theorem not_before_daysBefore (n : Nat) (d : CivilDate) (h : d.Valid) :
    ¬ d.before (daysBefore n d) := by
  rcases daysBefore_not_after n d h with h1 | h1
  · rw [h1]; unfold CivilDate.before; omega
  · unfold CivilDate.before at h1 ⊢; omega

theorem daysBefore_year_le (n : Nat) (d : CivilDate) (h : d.Valid) :
    (daysBefore n d).year ≤ d.year := by
  rcases daysBefore_not_after n d h with h1 | h1
  · rw [h1]
  · unfold CivilDate.before at h1; omega

/-- The map `incrementDailyActivity` holds before the clean-up loop. -/
theorem lookupDay_before_prune (today k : String) (type : CounterName) (stored : ActivityMap)
    (hk : k ≠ today) :
    lookupDay k
      (match lookupDay today
          (match lookupDay today stored with
            | some _ => stored
            | none => setDay today (freshRecord today) stored) with
        | some r => setDay today (incrementCounter type r)
            (match lookupDay today stored with
              | some _ => stored
              | none => setDay today (freshRecord today) stored)
        | none =>
            (match lookupDay today stored with
              | some _ => stored
              | none => setDay today (freshRecord today) stored)) =
      lookupDay k stored := by
  cases h1 : lookupDay today stored with
  | some r0 =>
    simp only [h1]
    rw [lookupDay_setDay, if_neg hk]
  | none =>
    simp only
    rw [lookupDay_setDay, if_pos rfl]
    simp only
    rw [lookupDay_setDay, if_neg hk, lookupDay_setDay, if_neg hk]

theorem shiftMinutes_zero (d : CivilDate) : shiftMinutes d 0 0 = (d, 0) := rfl

/-- On a machine set to UTC the local days are the UTC days. -/
theorem localDaysAgo_utcClock (d : CivilDate) (n : Nat) :
    (utcClock d).localDaysAgo n = daysBefore n d := by
  simp only [Clock.localDaysAgo, utcClock, utcZone, shiftMinutes_zero, neg_zero]

/-- The record `incrementDailyActivity` returns is the stored record of today (a fresh one
when there is none) with the named counter incremented, and the written map holds it,
whenever the key of today is not below the cutoff. -/
theorem incrementDailyActivity_returns (now : Clock) (type : CounterName)
    (stored : ActivityMap)
    (hkeep : jsStrLt (isoDate now.date) (isoDate (now.localDaysAgo 90)) = false) :
    (incrementDailyActivity now type stored).2 =
        some (incrementCounter type
          ((lookupDay (isoDate now.date) stored).getD (freshRecord (isoDate now.date)))) ∧
      lookupDay (isoDate now.date) (incrementDailyActivity now type stored).1 =
        (incrementDailyActivity now type stored).2 := by
  have hkeep2 : ¬ jsStrLt (isoDate now.date) (isoDate (now.localDaysAgo 90)) = true := by
    rw [hkeep]; simp
  refine ⟨?_, rfl⟩
  simp only [incrementDailyActivity]
  rw [lookupDay_pruneBefore, if_neg hkeep2]
  cases h1 : lookupDay (isoDate now.date) stored with
  | some r0 =>
    simp only [h1]
    rw [lookupDay_setDay, if_pos rfl]
    rfl
  | none =>
    simp only
    rw [lookupDay_setDay, if_pos rfl]
    simp only
    rw [lookupDay_setDay, if_pos rfl]
    rfl

/-- Claim C5 (`StorageManager.incrementDailyActivity`), the code at the failing input.  On a
store with no record for today, `incrementDailyActivity('profileViews')` creates the
record without a `profileViews` counter and the increment turns the absent counter into
`NaN`, not 1; the same happens on a record that an earlier `messagesSent` call created. -/
theorem incrementDailyActivity_profileViews_nan :
    incrementDailyActivity (utcClock ⟨2024, 3, 1⟩) .profileViews [] =
        ([("2024-03-01", ⟨"2024-03-01", 0, 0, some .nan⟩)],
          some ⟨"2024-03-01", 0, 0, some .nan⟩) ∧
      (incrementDailyActivity (utcClock ⟨2024, 3, 1⟩) .profileViews
          (incrementDailyActivity (utcClock ⟨2024, 3, 1⟩) .messagesSent []).1).2 =
        some ⟨"2024-03-01", 1, 0, some .nan⟩ := by
  decide!

/-- Claim C8 (`StorageManager.incrementDailyActivity`), the code at the failing input.
Starting from the empty map, one increment on each of the 91 days from 2024-01-01 to
2024-03-31 leaves 91 distinct date keys in the store: the key 2024-01-01, the date 90
days before the last day, is still there. -/
theorem incrementDailyActivity_keeps_91_days :
    (dateKeys (incrementOnConsecutiveDays .messagesSent 91 ⟨2024, 1, 1⟩ [])).length = 91 ∧
      (dateKeys (incrementOnConsecutiveDays .messagesSent 91 ⟨2024, 1, 1⟩ [])).Nodup ∧
      "2024-01-01" ∈ dateKeys (incrementOnConsecutiveDays .messagesSent 91 ⟨2024, 1, 1⟩ []) ∧
      "2024-03-31" ∈ dateKeys (incrementOnConsecutiveDays .messagesSent 91 ⟨2024, 1, 1⟩ []) ∧
      isoDate (daysBefore 90 ⟨2024, 3, 31⟩) = "2024-01-01" := by
  decide!

/-- The clean-up of `incrementDailyActivity` removes exactly the keys of the dates strictly
before the cutoff date the code computes (years 0 to 9999) and keeps every other key except
today's with its record unchanged; the map written back to the store is that pruned map. -/
theorem incrementDailyActivity_prunes_before_cutoff (now : Clock) (d : CivilDate)
    (type : CounterName) (stored : ActivityMap) (hvalid : (now.localDaysAgo 90).Valid)
    (hcut : 0 ≤ (now.localDaysAgo 90).year ∧ (now.localDaysAgo 90).year ≤ 9999)
    (hd : d.Valid) (hdy : 0 ≤ d.year ∧ d.year ≤ 9999) (hne : isoDate d ≠ isoDate now.date) :
    lookupDay (isoDate d) (incrementDailyActivity now type stored).1 =
      if d.before (now.localDaysAgo 90) then none else lookupDay (isoDate d) stored := by
  have hlt := jsStrLt_isoDate d (now.localDaysAgo 90) hd hvalid hdy hcut
  simp only [incrementDailyActivity]
  rw [lookupDay_pruneBefore, lookupDay_before_prune _ _ _ _ hne]
  by_cases hb : d.before (now.localDaysAgo 90)
  · rw [if_pos hb, if_pos (hlt.mpr hb)]
  · rw [if_neg hb, if_neg (fun h => hb (hlt.mp h))]

/-- Claim C9 (`StorageManager.incrementDailyActivity`), the code at the failing input.  On a
machine in the zone `Pacific/Auckland`, at 2024-06-15T00:30Z, today is 2024-06-15 and today
minus 90 days is 2024-03-17; the code steps 90 days back in local time (12:30 of 17 March,
daylight time) and prints the result in UTC, so its cutoff is 2024-03-16, and the key
2024-03-16, strictly older than today minus 90 days, is kept. -/
theorem incrementDailyActivity_cutoff_in_local_days :
    isoDate (daysBefore 90 ⟨2024, 6, 15⟩) = "2024-03-17" ∧
      jsStrLt "2024-03-16" "2024-03-17" = true ∧
      isoDate (Clock.localDaysAgo ⟨⟨2024, 6, 15⟩, 30, aucklandZone⟩ 90) = "2024-03-16" ∧
      lookupDay "2024-03-16"
        (incrementDailyActivity ⟨⟨2024, 6, 15⟩, 30, aucklandZone⟩ .messagesSent
          [("2024-03-16", ⟨"2024-03-16", 3, 1, none⟩)]).1 =
        some ⟨"2024-03-16", 3, 1, none⟩ ∧
      lookupDay "2024-03-16"
        (incrementDailyActivity (utcClock ⟨2024, 6, 15⟩) .messagesSent
          [("2024-03-16", ⟨"2024-03-16", 3, 1, none⟩)]).1 = none := by
  decide!

/-! ## Validation -/

theorem isJSSpace_close : isJSSpace '}' = false := by decide

theorem emptyVariableAt_iff (s : List Char) :
    emptyVariableAt s = true ↔
      ∃ ws post, s = '{' :: '{' :: (ws ++ '}' :: '}' :: post) ∧ ∀ c ∈ ws, isJSSpace c = true := by
  constructor
  · intro h
    unfold emptyVariableAt at h
    split at h
    · rename_i t
      split at h
      · rename_i rest hdrop
        refine ⟨t.takeWhile isJSSpace, rest, ?_, fun c hc => List.mem_takeWhile_imp hc⟩
        rw [← hdrop, List.takeWhile_append_dropWhile]
      · simp at h
    · simp at h
  · rintro ⟨ws, post, hs, hws⟩
    subst hs
    have hdrop : (ws ++ '}' :: '}' :: post).dropWhile isJSSpace = '}' :: '}' :: post := by
      rw [List.dropWhile_append_of_pos hws]
      simp [List.dropWhile, isJSSpace_close]
    simp only [emptyVariableAt, hdrop]

theorem hasEmptyVariable_iff (s : List Char) :
    hasEmptyVariable s = true ↔ HasEmptyPlaceholder s := by
  induction s with
  | nil =>
    simp only [hasEmptyVariable, Bool.false_eq_true, false_iff]
    rintro ⟨pre, ws, post, h, _⟩
    cases pre <;> simp at h
  | cons c cs ih =>
    simp only [hasEmptyVariable, Bool.or_eq_true, emptyVariableAt_iff, ih]
    constructor
    · rintro (⟨ws, post, hs, hws⟩ | ⟨pre, ws, post, hs, hws⟩)
      · exact ⟨[], ws, post, hs, hws⟩
      · exact ⟨c :: pre, ws, post, by rw [hs]; rfl, hws⟩
    · rintro ⟨pre, ws, post, hs, hws⟩
      cases pre with
      | nil => exact Or.inl ⟨ws, post, hs, hws⟩
      | cons p pre =>
        simp only [List.cons_append, List.cons.injEq] at hs
        exact Or.inr ⟨pre, ws, post, hs.2, hws⟩

/-- Claim C10 (`TemplateEngine.validate`).  For every template `T`: `valid` is true if and
only if the error list is empty, which holds if and only if the regular expressions find
as many `{{` as `}}`, `T` contains no `{{` followed by optional white space and `}}`, and
the length of `T` is at most 300. -/
theorem validate_valid_iff (T : String) :
    ((validate T).valid = true ↔ (validate T).errors = []) ∧
      ((validate T).errors = [] ↔
        (countPairs '{' T.data = countPairs '}' T.data ∧ ¬ HasEmptyPlaceholder T.data ∧
          jsLength T ≤ 300)) := by
  constructor
  · simp [validate]
  · rw [← hasEmptyVariable_iff]
    unfold validate
    by_cases h1 : countPairs '{' T.data = countPairs '}' T.data <;>
      by_cases h2 : hasEmptyVariable T.data = true <;>
      by_cases h3 : jsLength T ≤ 300 <;>
      simp [h1, h2, h3, not_le.mp, Nat.not_lt.mpr]

/-- Witness for claim C10: `Hi {{name}` is invalid with the unbalanced-bracket error and
`Hi {{}}` is invalid with the empty-variable error. -/
theorem validate_valid_iff_witness :
    validate "Hi \x7b\x7bname\x7d" = ⟨false, ["Unclosed variable brackets detected"]⟩ ∧
      validate "Hi {{}}" = ⟨false, ["Empty variable brackets detected"]⟩ ∧
      ((validate "Hi {{firstName}}").valid = true ↔ (validate "Hi {{firstName}}").errors = []) :=
  ⟨by decide, by decide, (validate_valid_iff "Hi {{firstName}}").1⟩

/-! ## Validation: the length error -/

theorem lengthError_ne_unclosed (n : Nat) :
    lengthError n ≠ "Unclosed variable brackets detected" := by
  intro h
  have h2 := congrArg String.data h
  simp [lengthError, String.data_append] at h2

theorem lengthError_ne_empty (n : Nat) :
    lengthError n ≠ "Empty variable brackets detected" := by
  intro h
  have h2 := congrArg String.data h
  simp [lengthError, String.data_append] at h2

/-- Claim C11 (`TemplateEngine.validate`).  For every template `T`: the error list holds
the length error exactly when the length of `T` exceeds 300; every error of the list is the
bracket error, the empty-variable error or that length error; and the length error
contains the decimal representation of the length of `T`. -/
theorem validate_length_error (T : String) :
    (lengthError (jsLength T) ∈ (validate T).errors ↔ 300 < jsLength T) ∧
      (∀ e ∈ (validate T).errors, e = "Unclosed variable brackets detected" ∨
        e = "Empty variable brackets detected" ∨ e = lengthError (jsLength T)) ∧
      includes (lengthError (jsLength T)) (toString (jsLength T)) := by
  have h1 := lengthError_ne_unclosed (jsLength T)
  have h2 := lengthError_ne_empty (jsLength T)
  refine ⟨?_, ?_, ?_⟩
  · unfold validate
    by_cases a : countPairs '{' T.data = countPairs '}' T.data <;>
      by_cases b : hasEmptyVariable T.data = true <;>
      by_cases c : 300 < jsLength T <;>
      simp [a, b, c, h1, h2]
  · unfold validate
    by_cases a : countPairs '{' T.data = countPairs '}' T.data <;>
      by_cases b : hasEmptyVariable T.data = true <;>
      by_cases c : 300 < jsLength T <;>
      simp [a, b, c]
  · exact ⟨"Template is ".data, " characters (max 300 for connection requests)".data, by
      simp [lengthError, String.data_append]⟩

/-- Witness for claim C11: a template of 300 letters is valid, and one of 301 letters is
reported with a message that mentions 301. -/
theorem validate_length_error_witness :
    validate ⟨List.replicate 300 'a'⟩ = ⟨true, []⟩ ∧
      validate ⟨List.replicate 301 'a'⟩ =
        ⟨false, ["Template is 301 characters (max 300 for connection requests)"]⟩ ∧
      includes (lengthError (jsLength ⟨List.replicate 301 'a'⟩))
        (toString (jsLength ⟨List.replicate 301 'a'⟩)) :=
  ⟨by decide!, by decide!, (validate_length_error ⟨List.replicate 301 'a'⟩).2.2⟩

/-! ## Weekly and dashboard queries -/

theorem weekRecord_connectionsSent (now : Clock) (stored : ActivityMap) (i : Nat) :
    (weekRecord now stored i).connectionsSent =
      connectionsOn stored (isoDate (now.localDaysAgo i)) := by
  unfold weekRecord connectionsOn
  cases lookupDay (isoDate (now.localDaysAgo i)) stored <;> rfl

theorem foldl_connectionsSent (days : List DayRecord) (init : Int) :
    days.foldl (fun sum day => sum + day.connectionsSent) init =
      init + (days.map (fun day => day.connectionsSent)).sum := by
  induction days generalizing init with
  | nil => simp
  | cons d ds ih => simp only [List.foldl_cons, ih, List.map_cons, List.sum_cons]; ring

theorem checkWeeklyConnectionLimit_eq (now : Clock) (stored : ActivityMap) :
    checkWeeklyConnectionLimit now stored =
      createLimitStatus "connections" (weekConnections now stored) 80 := by
  unfold checkWeeklyConnectionLimit weekConnections getWeekActivity
  simp only [foldl_connectionsSent, List.map_map, zero_add, connection_requests_per_week]
  congr 2
  apply List.map_congr_left
  intro i _
  exact weekRecord_connectionsSent now stored i

theorem checkDailyMessageLimit_eq (now : CivilDate) (stored : ActivityMap) :
    checkDailyMessageLimit now stored =
      createLimitStatus "messages" (messagesOn stored (isoDate now)) 40 := by
  unfold checkDailyMessageLimit messagesOn
  cases lookupDay (isoDate now) stored <;> rfl

/-- The `current` that `checkWeeklyConnectionLimit` reports is the sum of `connectionsSent`
over the seven dates `getWeekActivity` reads, a date without a stored record counting 0,
and the result is the limit status of that sum against the limit 80. -/
theorem checkWeeklyConnectionLimit_reads (now : Clock) (stored : ActivityMap) :
    (checkWeeklyConnectionLimit now stored).current =
        connectionsOn stored (isoDate (now.localDaysAgo 0)) +
        connectionsOn stored (isoDate (now.localDaysAgo 1)) +
        connectionsOn stored (isoDate (now.localDaysAgo 2)) +
        connectionsOn stored (isoDate (now.localDaysAgo 3)) +
        connectionsOn stored (isoDate (now.localDaysAgo 4)) +
        connectionsOn stored (isoDate (now.localDaysAgo 5)) +
        connectionsOn stored (isoDate (now.localDaysAgo 6)) ∧
      (checkWeeklyConnectionLimit now stored).limit = 80 ∧
      checkWeeklyConnectionLimit now stored =
        createLimitStatus "connections" (checkWeeklyConnectionLimit now stored).current 80 := by
  rw [checkWeeklyConnectionLimit_eq]
  refine ⟨?_, rfl, rfl⟩
  show weekConnections now stored = _
  simp only [weekConnections, List.range, List.range.loop, List.map_cons, List.map_nil,
    List.sum_cons, List.sum_nil]
  ring

/-- Claim C12 (`LinkedInLimitsManager.checkWeeklyConnectionLimit`, `getWeekActivity`), the
code at the failing input.  On a machine in the zone `Pacific/Auckland`, at
2024-04-10T00:30Z, with 5 connection requests stored under 2024-04-06 (today minus 4 days)
and nothing else: the sum over today and the six days before it is 5, but the code steps
back in local days and prints UTC dates, reads 2024-04-05 in place of 2024-04-06, and
reports `current = 0`.  On a machine set to UTC it reports 5. -/
theorem checkWeeklyConnectionLimit_misses_a_day :
    isoDate (daysBefore 4 ⟨2024, 4, 10⟩) = "2024-04-06" ∧
      calendarWeekConnections ⟨2024, 4, 10⟩
        [("2024-04-06", ⟨"2024-04-06", 0, 5, none⟩)] = 5 ∧
      (checkWeeklyConnectionLimit ⟨⟨2024, 4, 10⟩, 30, aucklandZone⟩
        [("2024-04-06", ⟨"2024-04-06", 0, 5, none⟩)]).current = 0 ∧
      (checkWeeklyConnectionLimit (utcClock ⟨2024, 4, 10⟩)
        [("2024-04-06", ⟨"2024-04-06", 0, 5, none⟩)]).current = 5 := by
  decide!

theorem status_ne_safe_iff (type : String) (current limit : Int) (hl : 0 < limit) :
    (createLimitStatus type current limit).status ≠ "safe" ↔
      (80 : ℚ) / 100 ≤ (current : ℚ) / (limit : ℚ) := by
  have hs : (createLimitStatus type current limit).status =
      statusOf (JSNumber.div current limit).times100 := rfl
  rw [hs, statusOf_percentage current limit hl]
  by_cases h95 : (95 : ℚ) / 100 ≤ (current : ℚ) / (limit : ℚ)
  · rw [if_pos h95]
    exact ⟨fun _ => by linarith, fun _ => by decide⟩
  · rw [if_neg h95]
    by_cases h80 : (80 : ℚ) / 100 ≤ (current : ℚ) / (limit : ℚ)
    · rw [if_pos h80]
      exact ⟨fun _ => h80, fun _ => by decide⟩
    · rw [if_neg h80]
      exact ⟨fun h => absurd rfl h, fun h => absurd h h80⟩

theorem eighty_percent_of_40 (current : Int) :
    (80 : ℚ) / 100 ≤ (current : ℚ) / ((40 : Int) : ℚ) ↔ 32 ≤ current := by
  constructor
  · intro h
    have h2 : (32 : ℚ) ≤ (current : ℚ) := by
      have : (current : ℚ) / ((40 : Int) : ℚ) = (current : ℚ) / 40 := by norm_num
      rw [this] at h
      linarith
    exact_mod_cast h2
  · intro h
    have h2 : (32 : ℚ) ≤ (current : ℚ) := by exact_mod_cast h
    have : (current : ℚ) / ((40 : Int) : ℚ) = (current : ℚ) / 40 := by norm_num
    rw [this]
    linarith

theorem eighty_percent_of_80 (current : Int) :
    (80 : ℚ) / 100 ≤ (current : ℚ) / ((80 : Int) : ℚ) ↔ 64 ≤ current := by
  constructor
  · intro h
    have h2 : (64 : ℚ) ≤ (current : ℚ) := by
      have : (current : ℚ) / ((80 : Int) : ℚ) = (current : ℚ) / 80 := by norm_num
      rw [this] at h
      linarith
    exact_mod_cast h2
  · intro h
    have h2 : (64 : ℚ) ≤ (current : ℚ) := by exact_mod_cast h
    have : (current : ℚ) / ((80 : Int) : ℚ) = (current : ℚ) / 80 := by norm_num
    rw [this]
    linarith

theorem checkDailyConnectionLimit_eq (now : CivilDate) (stored : ActivityMap) :
    checkDailyConnectionLimit now stored =
      createLimitStatus "daily_connections" (connectionsOn stored (isoDate now)) 15 := by
  unfold checkDailyConnectionLimit connectionsOn
  cases lookupDay (isoDate now) stored <;> rfl

/-- Claim C13 (`LinkedInLimitsManager.getDashboardData`).  For every stored activity map
and every reading of the clock: `safeModeRecommended` is true if and only if the
daily-message status or the weekly-connection status is not `safe`, that is, if and only
if today's `messagesSent` is at least 32 (80% of 40) or the seven-day sum of
`connectionsSent` is at least 64 (80% of 80); the daily-connection status does not occur
in the condition.  The seven-day sum is taken over the dates `getWeekActivity` reads: on a
machine set to UTC, today and the six days before it. -/
theorem getDashboardData_safeModeRecommended (now : Clock) (stored : ActivityMap) :
    ((getDashboardData now stored).safeModeRecommended = true ↔
        ((getDashboardData now stored).messageLimit.status ≠ "safe" ∨
          (getDashboardData now stored).connectionLimitWeekly.status ≠ "safe")) ∧
      ((getDashboardData now stored).safeModeRecommended = true ↔
        (32 ≤ messagesOn stored (isoDate now.date) ∨ 64 ≤ weekConnections now stored)) ∧
      (getDashboardData now stored).messageLimit = checkDailyMessageLimit now.date stored ∧
      (getDashboardData now stored).connectionLimitWeekly =
        checkWeeklyConnectionLimit now stored ∧
      (∀ today : CivilDate,
        weekConnections (utcClock today) stored = calendarWeekConnections today stored) := by
  have h1 : (getDashboardData now stored).safeModeRecommended = true ↔
      ((checkDailyMessageLimit now.date stored).status ≠ "safe" ∨
        (checkWeeklyConnectionLimit now stored).status ≠ "safe") := by
    simp [getDashboardData]
  refine ⟨h1, ?_, rfl, rfl, ?_⟩
  · rw [h1, checkDailyMessageLimit_eq, checkWeeklyConnectionLimit_eq,
      status_ne_safe_iff _ _ 40 (by decide), status_ne_safe_iff _ _ 80 (by decide),
      eighty_percent_of_40, eighty_percent_of_80]
  · intro today
    simp only [weekConnections, calendarWeekConnections, localDaysAgo_utcClock]

/-- Witness for claim C13: with 15 connection requests today the daily-connection status
is `critical` while safe mode is not recommended; with 32 messages today it is. -/
theorem getDashboardData_safeModeRecommended_witness :
    (getDashboardData (utcClock ⟨2024, 3, 3⟩)
        [("2024-03-03", ⟨"2024-03-03", 0, 15, none⟩)]).safeModeRecommended = false ∧
      (getDashboardData (utcClock ⟨2024, 3, 3⟩)
        [("2024-03-03", ⟨"2024-03-03", 0, 15, none⟩)]).connectionLimitDaily.status =
        "critical" ∧
      (getDashboardData (utcClock ⟨2024, 3, 3⟩)
        [("2024-03-03", ⟨"2024-03-03", 32, 0, none⟩)]).safeModeRecommended = true := by
  refine ⟨?_, ?_, ?_⟩
  · rw [Bool.eq_false_iff]
    intro h
    have h2 := (getDashboardData_safeModeRecommended (utcClock ⟨2024, 3, 3⟩)
      [("2024-03-03", ⟨"2024-03-03", 0, 15, none⟩)]).2.1.mp h
    revert h2
    decide!
  · have h : connectionsOn [("2024-03-03", (⟨"2024-03-03", 0, 15, none⟩ : DayRecord))]
        (isoDate ⟨2024, 3, 3⟩) = 15 := by decide!
    show (checkDailyConnectionLimit _ _).status = "critical"
    rw [checkDailyConnectionLimit_eq]
    show statusOf (JSNumber.div (connectionsOn
      [("2024-03-03", (⟨"2024-03-03", 0, 15, none⟩ : DayRecord))] (isoDate ⟨2024, 3, 3⟩))
        15).times100 = "critical"
    rw [h, statusOf_percentage 15 15 (by decide)]
    norm_num
  · exact (getDashboardData_safeModeRecommended (utcClock ⟨2024, 3, 3⟩)
      [("2024-03-03", ⟨"2024-03-03", 32, 0, none⟩)]).2.1.mpr (Or.inl (by decide!))

/-! ## Name and role resolution -/

theorem splitOnChar_ne_nil (sep : Char) (s : List Char) : splitOnChar sep s ≠ [] := by
  cases s with
  | nil => simp [splitOnChar]
  | cons c cs =>
    unfold splitOnChar
    split
    · simp
    · split <;> simp

theorem headD_splitOnChar (sep : Char) (s : List Char) :
    (splitOnChar sep s).headD [] = s.takeWhile (fun c => c != sep) := by
  induction s with
  | nil => rfl
  | cons c cs ih =>
    unfold splitOnChar
    by_cases h : c = sep
    · rw [if_pos h]
      simp [List.takeWhile, h]
    · rw [if_neg h]
      have hc : (c != sep) = true := by simpa using h
      cases hs : splitOnChar sep cs with
      | nil => exact absurd hs (splitOnChar_ne_nil sep cs)
      | cons seg segs =>
        rw [hs] at ih
        simp only [List.headD_cons] at ih ⊢
        rw [List.takeWhile_cons, hc, ih]
        rfl

theorem splitOnChar_of_not_mem (sep : Char) (s : List Char) (h : sep ∉ s) :
    splitOnChar sep s = [s] := by
  induction s with
  | nil => rfl
  | cons c cs ih =>
    have hc : c ≠ sep := fun e => h (e ▸ List.mem_cons_self _ _)
    have hcs : sep ∉ cs := fun e => h (List.mem_cons_of_mem _ e)
    unfold splitOnChar
    rw [if_neg hc, ih hcs]

theorem splitOnChar_cons_sep (sep : Char) (cs : List Char) :
    splitOnChar sep (sep :: cs) = [] :: splitOnChar sep cs := by
  simp [splitOnChar]

theorem splitOnChar_cons_ne (sep c : Char) (cs seg : List Char) (segs : List (List Char))
    (h : c ≠ sep) (hs : splitOnChar sep cs = seg :: segs) :
    splitOnChar sep (c :: cs) = (c :: seg) :: segs := by
  simp [splitOnChar, h, hs]

theorem splitOnChar_append_sep (sep : Char) (a b : List Char) :
    1 < (splitOnChar sep (a ++ sep :: b)).length ∧
      (splitOnChar sep (a ++ sep :: b)).getLastD [] = (splitOnChar sep b).getLastD [] := by
  induction a with
  | nil =>
    have hb := splitOnChar_ne_nil sep b
    rw [List.nil_append, splitOnChar_cons_sep]
    cases hs : splitOnChar sep b with
    | nil => exact absurd hs hb
    | cons seg segs => simp
  | cons c cs ih =>
    obtain ⟨ih1, ih2⟩ := ih
    rw [List.cons_append]
    cases hs : splitOnChar sep (cs ++ sep :: b) with
    | nil => rw [hs] at ih1; simp at ih1
    | cons seg segs =>
      rw [hs] at ih1 ih2
      cases segs with
      | nil => simp at ih1
      | cons s2 rest =>
        by_cases h : c = sep
        · rw [h, splitOnChar_cons_sep, hs, ← ih2]
          exact ⟨by simp, by simp [List.getLastD_cons]⟩
        · rw [splitOnChar_cons_ne sep c _ seg (s2 :: rest) h hs, ← ih2]
          exact ⟨by simp, by simp [List.getLastD_cons]⟩

theorem getProfileValue_firstName (P : Profile) (h : (P.get "firstName").truthy = false) :
    getProfileValue "firstName" P = extractFirstName (P.get "name") := by
  unfold getProfileValue
  rw [if_neg (by simp [h]), if_pos rfl]

theorem getProfileValue_lastName (P : Profile) (h : (P.get "lastName").truthy = false) :
    getProfileValue "lastName" P = extractLastName (P.get "name") := by
  unfold getProfileValue
  rw [if_neg (by simp [h]), if_neg (by decide), if_pos rfl]

theorem extractFirstName_of_falsy (x : JSValue) (h : x.truthy = false) :
    extractFirstName x = .ok (.str "") := by
  simp [extractFirstName, h]

theorem extractLastName_of_falsy (x : JSValue) (h : x.truthy = false) :
    extractLastName x = .ok (.str "") := by
  simp [extractLastName, h]

theorem extractFirstName_str (s : String) :
    extractFirstName (.str s) = .ok (.str ⟨s.data.takeWhile (fun c => c != ' ')⟩) := by
  by_cases h : (JSValue.str s).truthy = true
  · simp only [extractFirstName, h, Bool.not_true, Bool.false_eq_true, if_false,
      headD_splitOnChar]
  · have hs : s = "" := by simpa [JSValue.truthy] using h
    subst hs
    rfl

/-- Counterexample to claim C16 as stated: the name `Ada<TAB>Lovelace` has the
white-space-delimited tokens `Ada` and `Lovelace`, yet `firstName` resolves to the whole
name, because only the space character splits. -/
theorem firstName_not_first_token :
    whitespaceTokens "Ada\tLovelace".data = ["Ada".data, "Lovelace".data] ∧
      getProfileValue "firstName" ⟨[("name", .str "Ada\tLovelace")]⟩ =
        .ok (.str "Ada\tLovelace") ∧
      ("Ada\tLovelace" : String) ≠ "Ada" := by
  decide

/-- Claim C16, amended (`TemplateEngine.extractFirstName`, `getProfileValue`).  For every
profile with no value under the key `firstName`: the variable `firstName` resolves to the
part of `name` before its first space character (U+0020), the whole name when it has no
space, and to the empty string when `name` is absent or empty. -/
theorem firstName_resolution (P : Profile) (hdirect : (P.get "firstName").truthy = false) :
    (∀ s, P.get "name" = .str s →
        getProfileValue "firstName" P =
          .ok (.str ⟨s.data.takeWhile (fun c => c != ' ')⟩)) ∧
      ((P.get "name").truthy = false → getProfileValue "firstName" P = .ok (.str "")) := by
  rw [getProfileValue_firstName P hdirect]
  constructor
  · intro s hs
    rw [hs, extractFirstName_str]
  · intro h
    exact extractFirstName_of_falsy _ h

/-- Witness for claim C16, amended: the name `Ada Lovelace` gives `Ada`. -/
theorem firstName_resolution_witness :
    getProfileValue "firstName" ⟨[("name", .str "Ada Lovelace")]⟩ = .ok (.str "Ada") :=
  (firstName_resolution ⟨[("name", .str "Ada Lovelace")]⟩ (by decide)).1 "Ada Lovelace"
    (by decide)

theorem extractLastName_of_space (s : String) (a b : List Char) (hs : s.data = a ++ ' ' :: b)
    (hb : ' ' ∉ b) : extractLastName (.str s) = .ok (.str ⟨b⟩) := by
  have ht : (JSValue.str s).truthy = true := by
    have : s ≠ "" := by
      intro h
      rw [h] at hs
      simp at hs
    simp [JSValue.truthy, this]
  obtain ⟨h1, h2⟩ := splitOnChar_append_sep ' ' a b
  rw [splitOnChar_of_not_mem ' ' b hb] at h2
  simp only [extractLastName, ht, Bool.not_true, Bool.false_eq_true, if_false, hs, h2,
    gt_iff_lt, h1, if_true]
  rfl

theorem extractLastName_of_no_space (s : String) (hs : ' ' ∉ s.data) :
    extractLastName (.str s) = .ok (.str "") := by
  by_cases h : (JSValue.str s).truthy = true
  · simp [extractLastName, h, splitOnChar_of_not_mem ' ' s.data hs]
  · exact extractLastName_of_falsy _ (by simpa using h)

/-- Counterexample to claim C17 as stated: the name `Ada<TAB>Lovelace` has two
white-space-delimited tokens, the last one `Lovelace`, yet `lastName` resolves to the
empty string, because only the space character splits. -/
theorem lastName_not_last_token :
    whitespaceTokens "Ada\tLovelace".data = ["Ada".data, "Lovelace".data] ∧
      getProfileValue "lastName" ⟨[("name", .str "Ada\tLovelace")]⟩ = .ok (.str "") ∧
      ("" : String) ≠ "Lovelace" := by
  decide

/-- Claim C17, amended (`TemplateEngine.extractLastName`, `getProfileValue`).  For every
profile with no value under the key `lastName`: the variable `lastName` resolves to the
part of `name` after its last space character (U+0020) when `name` contains a space, and
to the empty string otherwise (no space in `name`, or `name` absent or empty). -/
theorem lastName_resolution (P : Profile) (hdirect : (P.get "lastName").truthy = false) :
    (∀ s a b, P.get "name" = .str s → s.data = a ++ ' ' :: b → ' ' ∉ b →
        getProfileValue "lastName" P = .ok (.str ⟨b⟩)) ∧
      (∀ s, P.get "name" = .str s → ' ' ∉ s.data →
        getProfileValue "lastName" P = .ok (.str "")) ∧
      ((P.get "name").truthy = false → getProfileValue "lastName" P = .ok (.str "")) := by
  rw [getProfileValue_lastName P hdirect]
  refine ⟨?_, ?_, ?_⟩
  · intro s a b hs hab hb
    rw [hs]
    exact extractLastName_of_space s a b hab hb
  · intro s hs hno
    rw [hs]
    exact extractLastName_of_no_space s hno
  · intro h
    exact extractLastName_of_falsy _ h

/-- Witness for claim C17, amended: `Ada King Lovelace` gives `Lovelace`, and `Ada` gives
the empty string. -/
theorem lastName_resolution_witness :
    getProfileValue "lastName" ⟨[("name", .str "Ada King Lovelace")]⟩ =
        .ok (.str "Lovelace") ∧
      getProfileValue "lastName" ⟨[("name", .str "Ada")]⟩ = .ok (.str "") :=
  ⟨(lastName_resolution ⟨[("name", .str "Ada King Lovelace")]⟩ (by decide)).1
      "Ada King Lovelace" "Ada King".data "Lovelace".data (by decide) (by decide) (by decide),
   (lastName_resolution ⟨[("name", .str "Ada")]⟩ (by decide)).2.1 "Ada" (by decide)
      (by decide)⟩

/-- A placeholder whose variable resolves to `null` or `undefined` is still there in
whatever `render` returns. -/
theorem render_keeps_unresolved (T v : String) (P : Profile) (value : JSValue)
    (hT : includes T (placeholder v)) (hv : IsIdentifier v.data)
    (hval : getProfileValue v P = .ok value) (hp : value.isPresent = false) (s : String)
    (hs : render (some T) (some P) = .ok (some s)) : includes s (placeholder v) := by
  have hne := ne_empty_of_includes_placeholder T v hT
  obtain ⟨pre, post, hpp⟩ := hT
  rw [placeholder_data] at hpp
  obtain ⟨ps, hps⟩ := scanVariables_before_placeholder v.data post hv pre.length pre (le_refl _)
  have hTd : T.data = pre ++ '{' :: '{' :: (v.data ++ '}' :: '}' :: post) := by
    rw [← hpp]; simp
  simp only [render, if_neg hne] at hs
  rw [hTd, hps] at hs
  cases hr : renderPieces P (ps ++ Piece.hit v.data :: scanVariables post) with
  | error e => rw [hr] at hs; simp at hs
  | ok out =>
    rw [hr] at hs
    simp only [Except.ok.injEq, Option.some.injEq] at hs
    obtain ⟨a, b, _, hb, hab⟩ := renderPieces_append_ok P _ _ out hr
    obtain ⟨r, b2, hrep, _, hb2⟩ := renderPieces_hit_cons_ok P _ _ b hb
    have hrep2 := replacement_eq v P value hval
    rw [hrep] at hrep2
    simp only [Except.ok.injEq, hp, Bool.false_eq_true, if_false] at hrep2
    rw [← hs]
    exact ⟨a, b2, by rw [hab, hb2, hrep2]; simp⟩

theorem getProfileValue_role (v : String) (P : Profile)
    (hv : v = "role" ∨ v = "title" ∨ v = "position") (h : (P.get v).truthy = false) :
    getProfileValue v P =
      if (P.get "primaryRole").truthy then .ok (P.get "primaryRole")
      else headlineRole (P.get "headline") := by
  unfold getProfileValue
  rw [if_neg (by simp [h])]
  rcases hv with rfl | rfl | rfl
  · rw [if_neg (by decide), if_neg (by decide), if_neg (by decide), if_neg (by decide),
      if_pos (by decide)]
  · rw [if_neg (by decide), if_neg (by decide), if_neg (by decide), if_neg (by decide),
      if_pos (by decide)]
  · rw [if_neg (by decide), if_neg (by decide), if_neg (by decide), if_neg (by decide),
      if_pos (by decide)]

theorem headlineRole_str (s : String) :
    headlineRole (.str s) =
      .ok (.str ⟨trimChars (s.data.takeWhile (fun c => c != '|'))⟩) := by
  simp only [headlineRole, headD_splitOnChar]

/-- Claim C19 (`TemplateEngine.getProfileValue`).  For `v` among `role`, `title` and
`position` and every profile with no value under the key `v`: `v` resolves to
`primaryRole` when that is non-empty; otherwise, when `headline` is a string, to the part
of the headline before its first `|`, trimmed; and when `primaryRole` is empty and
`headline` is `null` or `undefined` the result is `undefined`, so that the placeholder
`{{v}}` is left in whatever `render` returns. -/
theorem role_resolution (v : String) (P : Profile)
    (hv : v = "role" ∨ v = "title" ∨ v = "position") (hdirect : (P.get v).truthy = false) :
    ((P.get "primaryRole").truthy = true → getProfileValue v P = .ok (P.get "primaryRole")) ∧
      (∀ s, (P.get "primaryRole").truthy = false → P.get "headline" = .str s →
        getProfileValue v P =
          .ok (.str ⟨trimChars (s.data.takeWhile (fun c => c != '|'))⟩)) ∧
      ((P.get "primaryRole").truthy = false →
        (P.get "headline" = .undefined ∨ P.get "headline" = .null) →
        getProfileValue v P = .ok .undefined ∧
          render (some (placeholder v)) (some P) = .ok (some (placeholder v)) ∧
          ∀ T s, includes T (placeholder v) → render (some T) (some P) = .ok (some s) →
            includes s (placeholder v)) := by
  have hg := getProfileValue_role v P hv hdirect
  refine ⟨?_, ?_, ?_⟩
  · intro h
    rw [hg, if_pos h]
  · intro s h hs
    rw [hg, if_neg (by simp [h]), hs, headlineRole_str]
  · intro h hh
    have hu : getProfileValue v P = .ok .undefined := by
      rw [hg, if_neg (by simp [h])]
      rcases hh with hh | hh <;> rw [hh] <;> rfl
    have hid : IsIdentifier v.data := by
      rcases hv with rfl | rfl | rfl <;> decide
    refine ⟨hu, ?_, ?_⟩
    · have hrep := replacement_eq v P .undefined hu
      simp only [JSValue.isPresent, Bool.false_eq_true, if_false] at hrep
      have hne : placeholder v ≠ "" := by
        intro he
        have := congrArg String.data he
        simp [placeholder_data] at this
      have hsrc : (placeholder v).data = sourceOf [Piece.hit v.data] := by
        simp [placeholder_data, sourceOf, Piece.source]
      have hscan := scanVariables_sourceOf [Piece.hit v.data] (by simp)
        (by intro w hw; simp only [List.mem_singleton, Piece.hit.injEq] at hw; rw [hw]; exact hid)
      simp only [render, if_neg hne]
      rw [hsrc, hscan, renderPieces_hit P v.data _ hrep]
    · intro T s hT hs
      exact render_keeps_unresolved T v P .undefined hT hid hu rfl s hs

/-- Witness for claim C19: `role` falls back to the headline before `|`, trimmed, and with
neither `primaryRole` nor `headline` the placeholder stays. -/
theorem role_resolution_witness :
    getProfileValue "role" ⟨[("headline", .str "Engineer at Acme Corp | ex-Google")]⟩ =
        .ok (.str "Engineer at Acme Corp") ∧
      render (some "As a {{role}}") (some ⟨[("name", .str "Ada Lovelace")]⟩) =
        .ok (some "As a {{role}}") :=
  ⟨((role_resolution "role" ⟨[("headline", .str "Engineer at Acme Corp | ex-Google")]⟩
      (Or.inl rfl) (by decide)).2.1 "Engineer at Acme Corp | ex-Google" (by decide)
      (by decide)).trans (by decide),
   by decide⟩

/-- The direct mapping returns a `skills` sequence as it is, before the switch is reached. -/
theorem getProfileValue_skills_arr (P : Profile) (items : List String)
    (h : P.get "skills" = .arr items) : getProfileValue "skills" P = .ok (.arr items) := by
  unfold getProfileValue
  rw [if_pos (by rw [h]; rfl), h]

/-- Claim C18 (`TemplateEngine.getProfileValue`, `render`), the code at the failing input.
With `skills = ["Python", "SQL"]` the direct mapping returns the sequence itself and
`render("{{skills}}", P)` prints it as `Python,SQL`, with a comma only, not as the
`Python, SQL` that joining with `", "` gives. -/
theorem skills_rendered_with_comma_only :
    getProfileValue "skills" ⟨[("skills", .arr ["Python", "SQL"])]⟩ =
        .ok (.arr ["Python", "SQL"]) ∧
      render (some "{{skills}}") (some ⟨[("skills", .arr ["Python", "SQL"])]⟩) =
        .ok (some "Python,SQL") ∧
      joinWith ", " ["Python", "SQL"] = "Python, SQL" ∧
      ("Python,SQL" : String) ≠ "Python, SQL" := by
  decide

/-- Counterexample to claim C20 as stated: an empty profile record is not "missing input";
`render` goes on to replace, and `{{firstName}}` becomes the empty string. -/
theorem render_empty_record_not_identity :
    render (some "Hi {{firstName}}") (some ⟨[]⟩) = .ok (some "Hi ") ∧
      ("Hi " : String) ≠ "Hi {{firstName}}" := by
  decide

/-- Claim C20, amended (`TemplateEngine.render`).  Whenever the template is absent or
empty, or the profile-data record is absent (`null` or `undefined`), `render` returns the
template unchanged and does not throw. -/
theorem render_missing_input (template : Option String) (profileData : Option Profile)
    (h : template = none ∨ template = some "" ∨ profileData = none) :
    render template profileData = .ok template := by
  rcases h with h | h | h
  · subst h; rfl
  · subst h
    cases profileData <;> simp [render]
  · subst h
    cases template <;> rfl

/-- Witness for claim C20, amended: an absent template, an empty template and an absent
record. -/
theorem render_missing_input_witness :
    render none (some ⟨[("name", .str "Ada Lovelace")]⟩) = .ok none ∧
      render (some "") (some ⟨[("name", .str "Ada Lovelace")]⟩) = .ok (some "") ∧
      render (some "Hi {{firstName}}") none = .ok (some "Hi {{firstName}}") :=
  ⟨render_missing_input none _ (Or.inl rfl),
   render_missing_input (some "") _ (Or.inr (Or.inl rfl)),
   render_missing_input (some "Hi {{firstName}}") none (Or.inr (Or.inr rfl))⟩

/-! ## Company extraction -/

theorem isCompanyChar_of_isJSSpace (c : Char) (h : isJSSpace c = true) :
    isCompanyChar c = true := by
  unfold isCompanyChar
  by_cases h1 : c = '|'
  · subst h1; exact absurd h (by decide)
  · by_cases h2 : c = ','
    · subst h2; exact absurd h (by decide)
    · simp [h1, h2]

theorem matchAtCompany_cons_cons (pw : Bool) (a t : Char) (rest : List Char) :
    matchAtCompany pw (a :: t :: rest) =
      if (!pw && isAtPair a t) = true then
        match rest.takeWhile isJSSpace,
          (rest.dropWhile isJSSpace).takeWhile isCompanyChar with
        | [], _ => none
        | _ :: _, _ :: _ => some ((rest.dropWhile isJSSpace).takeWhile isCompanyChar)
        | [_], [] => none
        | w :: w2 :: more, [] => some [(w :: w2 :: more).getLastD w]
      else none := by
  simp only [matchAtCompany, isAtPair, Bool.and_assoc]
  rfl

theorem head?_not_company_of_takeWhile_nil (l : List Char)
    (h : l.takeWhile isCompanyChar = []) : ∀ r ∈ l.head?, isCompanyChar r = false := by
  intro r hr
  cases l with
  | nil => simp at hr
  | cons x xs =>
    simp only [List.head?_cons, Option.mem_def, Option.some.injEq] at hr
    subst hr
    by_cases hx : isCompanyChar x = true
    · simp [List.takeWhile_cons, hx] at h
    · simpa using hx

theorem head?_dropWhile_company (l : List Char) :
    ∀ r ∈ (l.dropWhile isCompanyChar).head?, isCompanyChar r = false := by
  intro r hr
  have h := List.head?_dropWhile_not isCompanyChar l
  rw [Option.mem_def] at hr
  rw [hr] at h
  exact h

/-- A successful attempt of the regular expression at the head of `s` is an occurrence at
a word start, and what it captures is the `cap` of that occurrence. -/
theorem matchAtCompany_some (pw : Bool) (s c : List Char)
    (h : matchAtCompany pw s = some c) :
    pw = false ∧ ∃ ws rest, AtOccurrence s [] ws c rest := by
  match s, h with
  | [], h => simp [matchAtCompany] at h
  | [_], h => simp [matchAtCompany] at h
  | a :: t :: rest0, h =>
    rw [matchAtCompany_cons_cons] at h
    split at h
    · rename_i hcond
      simp only [Bool.and_eq_true, Bool.not_eq_true'] at hcond
      obtain ⟨hpw, hat⟩ := hcond
      refine ⟨hpw, ?_⟩
      have hsplit := List.takeWhile_append_dropWhile isJSSpace rest0
      have hws : ∀ x ∈ rest0.takeWhile isJSSpace, isJSSpace x = true :=
        fun x hx => List.mem_takeWhile_imp hx
      split at h
      · simp at h
      · rename_i w ws1 k cap1 hw hc
        simp only [Option.some.injEq] at h
        refine ⟨rest0.takeWhile isJSSpace,
          (rest0.dropWhile isJSSpace).dropWhile isCompanyChar, a, t, hat, ?_, ?_, hws, ?_, ?_,
          head?_dropWhile_company _⟩
        · rw [← h, List.takeWhile_append_dropWhile, hsplit]
          rfl
        · rw [hw]; simp
        · rw [← h, hc]; simp
        · intro x hx
          rw [← h] at hx
          exact List.mem_takeWhile_imp hx
      · simp at h
      · rename_i w w2 more hw hc
        simp only [Option.some.injEq] at h
        have hne : (w :: w2 :: more) ≠ [] := by simp
        have hlast : (w :: w2 :: more).getLastD w = (w :: w2 :: more).getLast hne := by
          simp [List.getLast?_eq_getLast _ hne]
        have hmem : (w :: w2 :: more).getLast hne ∈ rest0.takeWhile isJSSpace := by
          rw [hw]; exact List.getLast_mem hne
        have hdl := List.dropLast_append_getLast hne
        refine ⟨(w :: w2 :: more).dropLast, rest0.dropWhile isJSSpace, a, t, hat, ?_, ?_, ?_,
          ?_, ?_, head?_not_company_of_takeWhile_nil _ hc⟩
        · rw [← h, hlast, ← List.append_assoc, hdl, ← hw, hsplit]
          rfl
        · simp [List.dropLast]
        · intro x hx
          exact hws x (hw ▸ List.mem_of_mem_dropLast hx)
        · rw [← h]; simp
        · intro x hx
          rw [← h, hlast] at hx
          simp only [List.mem_singleton] at hx
          rw [hx]
          exact isCompanyChar_of_isJSSpace _ (hws _ hmem)
    · simp at h

theorem takeWhile_nil_of_head (p : Char → Bool) (l : List Char)
    (h : ∀ r ∈ l.head?, p r = false) : l.takeWhile p = [] ∧ l.dropWhile p = l := by
  cases l with
  | nil => simp
  | cons x xs =>
    have hx : p x = false := h x (by simp)
    simp [List.takeWhile_cons, List.dropWhile_cons, hx]

theorem trimChars_append_space (w s : List Char) (hw : ∀ c ∈ w, isJSSpace c = true) :
    trimChars (w ++ s) = trimChars s := by
  unfold trimChars
  rw [List.dropWhile_append_of_pos hw]

theorem trimChars_of_space (w : List Char) (hw : ∀ c ∈ w, isJSSpace c = true) :
    trimChars w = [] := by
  unfold trimChars
  rw [List.dropWhile_eq_nil_iff.mpr hw]
  rfl

theorem not_space_of_not_company (l : List Char)
    (h : ∀ r ∈ l.head?, isCompanyChar r = false) : ∀ r ∈ l.head?, isJSSpace r = false := by
  intro r hr
  by_cases hs : isJSSpace r = true
  · have := isCompanyChar_of_isJSSpace r hs
    rw [h r hr] at this
    exact absurd this (by simp)
  · simpa using hs

/-- An occurrence at the head of `s`, at a word start, makes the attempt of the regular
expression succeed; what it captures trims to the same text as the `cap` of the
occurrence. -/
theorem matchAtCompany_of_occurrence (s ws cap rest : List Char)
    (h : AtOccurrence s [] ws cap rest) :
    ∃ c, matchAtCompany false s = some c ∧ trimChars c = trimChars cap := by
  obtain ⟨a, t, hat, hs, hwne, hws, hcne, hcap, hrest⟩ := h
  rw [List.nil_append] at hs
  subst hs
  rw [matchAtCompany_cons_cons, if_pos (by simp [hat])]
  have hcapsplit := List.takeWhile_append_dropWhile isJSSpace cap
  have hcw : ∀ x ∈ cap.takeWhile isJSSpace, isJSSpace x = true :=
    fun x hx => List.mem_takeWhile_imp hx
  have hrestsp := not_space_of_not_company rest hrest
  obtain ⟨w, ws1, rfl⟩ := List.exists_cons_of_ne_nil hwne
  cases hcn : cap.dropWhile isJSSpace with
  | nil =>
    -- the captured text is white space only: `\s+` gives its last character back
    have hall : ∀ x ∈ cap, isJSSpace x = true := List.dropWhile_eq_nil_iff.mp hcn
    obtain ⟨k, cap1, rfl⟩ := List.exists_cons_of_ne_nil hcne
    have htw : ((w :: ws1) ++ ((k :: cap1) ++ rest)).takeWhile isJSSpace =
        w :: (ws1 ++ k :: cap1) := by
      rw [List.takeWhile_append_of_pos hws, List.takeWhile_append_of_pos hall,
        (takeWhile_nil_of_head _ rest hrestsp).1]
      simp
    have hdw : ((w :: ws1) ++ ((k :: cap1) ++ rest)).dropWhile isJSSpace = rest := by
      rw [List.dropWhile_append_of_pos hws, List.dropWhile_append_of_pos hall,
        (takeWhile_nil_of_head _ rest hrestsp).2]
    rw [htw, hdw, (takeWhile_nil_of_head _ rest hrest).1]
    obtain ⟨w2, more, hmore⟩ := List.exists_cons_of_ne_nil (l := ws1 ++ k :: cap1) (by simp)
    rw [hmore]
    refine ⟨_, rfl, ?_⟩
    rw [trimChars_of_space (k :: cap1) hall]
    apply trimChars_of_space
    intro x hx
    simp only [List.mem_singleton] at hx
    have hne : (w :: w2 :: more) ≠ [] := by simp
    have hlast : (w :: w2 :: more).getLastD w = (w :: w2 :: more).getLast hne := by
      simp [List.getLast?_eq_getLast _ hne]
    have hmem : (w :: w2 :: more).getLast hne ∈ w :: w2 :: more := List.getLast_mem hne
    have hmem2 : (w :: w2 :: more).getLast hne ∈ w :: (ws1 ++ k :: cap1) := by
      rw [hmore]; exact hmem
    rw [hx, hlast]
    rcases List.mem_cons.mp hmem2 with h1 | h1
    · rw [h1]; exact hws w (List.mem_cons_self _ _)
    · rcases List.mem_append.mp h1 with h2 | h2
      · exact hws _ (List.mem_cons_of_mem _ h2)
      · exact hall _ h2
  | cons k cn1 =>
    have hk : isJSSpace k = false := by
      have h := List.head?_dropWhile_not isJSSpace cap
      rw [hcn] at h
      simpa using h
    have hcapeq : cap = cap.takeWhile isJSSpace ++ k :: cn1 := by
      rw [← hcn, hcapsplit]
    have hcn1 : ∀ x ∈ k :: cn1, isCompanyChar x = true := by
      intro x hx
      apply hcap
      rw [hcapeq]
      exact List.mem_append_right _ hx
    have htw : ((w :: ws1) ++ (cap ++ rest)).takeWhile isJSSpace =
        w :: (ws1 ++ cap.takeWhile isJSSpace) := by
      rw [List.takeWhile_append_of_pos hws]
      conv_lhs => rw [hcapeq]
      rw [List.append_assoc, List.takeWhile_append_of_pos hcw]
      simp [List.takeWhile_cons, hk]
    have hdw : ((w :: ws1) ++ (cap ++ rest)).dropWhile isJSSpace = (k :: cn1) ++ rest := by
      rw [List.dropWhile_append_of_pos hws]
      conv_lhs => rw [hcapeq]
      rw [List.append_assoc, List.dropWhile_append_of_pos hcw]
      simp [List.dropWhile_cons, hk]
    have hcap2 : ((k :: cn1) ++ rest).takeWhile isCompanyChar = k :: cn1 := by
      rw [List.takeWhile_append_of_pos hcn1, (takeWhile_nil_of_head _ rest hrest).1]
      simp
    rw [htw, hdw, hcap2]
    refine ⟨k :: cn1, by simp only, ?_⟩
    conv_rhs => rw [hcapeq]
    rw [trimChars_append_space _ _ hcw]

theorem AtOccurrence_cons (x : Char) (xs pre ws cap rest : List Char) :
    AtOccurrence (x :: xs) (x :: pre) ws cap rest ↔ AtOccurrence xs pre ws cap rest := by
  unfold AtOccurrence
  simp only [List.cons_append, List.cons.injEq, true_and]

theorem AtBoundary_cons (pw : Bool) (x : Char) (pre : List Char) :
    AtBoundary pw (x :: pre) ↔ AtBoundary (isWordChar x) pre := by
  unfold AtBoundary
  rw [List.getLast?_cons]
  cases pre.getLast? <;> simp

theorem AtBoundary_nil (pw : Bool) : AtBoundary pw [] ↔ pw = false := by
  simp [AtBoundary]

theorem findAtCompany_cons (pw : Bool) (x : Char) (xs : List Char) :
    findAtCompany pw (x :: xs) =
      match matchAtCompany pw (x :: xs) with
      | some cap => some cap
      | none => findAtCompany (isWordChar x) xs := rfl

/-- What the search of the regular expression finds is the `cap` of an occurrence at a
word start. -/
theorem findAtCompany_some (s : List Char) : ∀ (pw : Bool) (c : List Char),
    findAtCompany pw s = some c →
      ∃ pre ws rest, AtOccurrence s pre ws c rest ∧ AtBoundary pw pre := by
  induction s with
  | nil => intro pw c h; simp [findAtCompany] at h
  | cons x xs ih =>
    intro pw c h
    rw [findAtCompany_cons] at h
    cases hm : matchAtCompany pw (x :: xs) with
    | some cap =>
      rw [hm] at h
      simp only [Option.some.injEq] at h
      subst h
      obtain ⟨hpw, ws, rest, hocc⟩ := matchAtCompany_some pw _ _ hm
      exact ⟨[], ws, rest, hocc, (AtBoundary_nil pw).mpr hpw⟩
    | none =>
      rw [hm] at h
      obtain ⟨pre, ws, rest, hocc, hb⟩ := ih _ _ h
      exact ⟨x :: pre, ws, rest, (AtOccurrence_cons x xs pre ws c rest).mpr hocc,
        (AtBoundary_cons pw x pre).mpr hb⟩

/-- The search of the regular expression finds the first occurrence at a word start; what
it captures trims to the same text as the `cap` of that occurrence. -/
theorem findAtCompany_of_first (pre : List Char) : ∀ (pw : Bool) (s ws cap rest : List Char),
    AtOccurrence s pre ws cap rest → AtBoundary pw pre →
    (∀ pre2 ws2 cap2 rest2, AtOccurrence s pre2 ws2 cap2 rest2 → AtBoundary pw pre2 →
      pre.length ≤ pre2.length) →
    ∃ c, findAtCompany pw s = some c ∧ trimChars c = trimChars cap := by
  induction pre with
  | nil =>
    intro pw s ws cap rest hocc hb _
    have hpw : pw = false := (AtBoundary_nil pw).mp hb
    subst hpw
    obtain ⟨c, hc, htrim⟩ := matchAtCompany_of_occurrence s ws cap rest hocc
    obtain ⟨a, t, _, hs, _⟩ := hocc
    rw [List.nil_append] at hs
    subst hs
    exact ⟨c, by rw [findAtCompany_cons, hc], htrim⟩
  | cons p pre ih =>
    intro pw s ws cap rest hocc hb hmin
    have hs : ∃ xs, s = p :: xs := by
      obtain ⟨a, t, _, hs, _⟩ := hocc
      exact ⟨_, by rw [hs]; rfl⟩
    obtain ⟨xs, rfl⟩ := hs
    have hnone : matchAtCompany pw (p :: xs) = none := by
      cases hm : matchAtCompany pw (p :: xs) with
      | none => rfl
      | some c0 =>
        obtain ⟨hpw, ws0, rest0, hocc0⟩ := matchAtCompany_some pw _ _ hm
        have := hmin [] ws0 c0 rest0 hocc0 ((AtBoundary_nil pw).mpr hpw)
        simp at this
    obtain ⟨c, hc, htrim⟩ := ih (isWordChar p) xs ws cap rest
      ((AtOccurrence_cons p xs pre ws cap rest).mp hocc) ((AtBoundary_cons pw p pre).mp hb)
      (fun pre2 ws2 cap2 rest2 h2 hb2 => by
        have := hmin (p :: pre2) ws2 cap2 rest2
          ((AtOccurrence_cons p xs pre2 ws2 cap2 rest2).mpr h2)
          ((AtBoundary_cons pw p pre2).mpr hb2)
        simpa using this)
    exact ⟨c, by rw [findAtCompany_cons, hnone]; exact hc, htrim⟩

theorem AtBoundary_false (pre : List Char) :
    AtBoundary false pre ↔ ∀ p ∈ pre.getLast?, isWordChar p = false := by
  unfold AtBoundary
  cases pre.getLast? <;> simp

theorem findAtCompany_none_of_no_occurrence (s : List Char)
    (h : ¬ ∃ pre ws cap rest, WordAtOccurrence s pre ws cap rest) :
    findAtCompany false s = none := by
  cases hf : findAtCompany false s with
  | none => rfl
  | some c =>
    obtain ⟨pre, ws, rest, hocc, hb⟩ := findAtCompany_some s false c hf
    exact absurd ⟨pre, ws, c, rest, hocc, (AtBoundary_false pre).mp hb⟩ h

theorem atPairAt_of_occurrence (s pre ws cap rest : List Char)
    (h : AtOccurrence s pre ws cap rest) :
    atPairAt s pre.length = true ∧ pre.length < s.length := by
  obtain ⟨a, t, hat, hs, _⟩ := h
  subst hs
  constructor
  · simp [atPairAt, hat]
  · simp

theorem getProfileValue_company (v : String) (P : Profile)
    (hv : v = "company" ∨ v = "currentCompany") (hdirect : (P.get v).truthy = false)
    (hcompany : (P.get "company").truthy = false) :
    getProfileValue v P = extractCompanyFromHeadline (P.get "headline") := by
  unfold getProfileValue
  rw [if_neg (by simp [hdirect])]
  rcases hv with rfl | rfl
  · rw [if_neg (by decide), if_neg (by decide), if_neg (by decide), if_pos (by decide),
      if_neg (by simp [hcompany])]
  · rw [if_neg (by decide), if_neg (by decide), if_neg (by decide), if_pos (by decide),
      if_neg (by simp [hcompany])]

theorem extractCompanyFromHeadline_of_first (s : String) (pre ws cap rest : List Char)
    (hocc : WordAtOccurrence s.data pre ws cap rest)
    (hfirst : ∀ pre2 ws2 cap2 rest2, WordAtOccurrence s.data pre2 ws2 cap2 rest2 →
      pre.length ≤ pre2.length) :
    extractCompanyFromHeadline (.str s) = .ok (.str ⟨trimChars cap⟩) := by
  obtain ⟨c, hc, htrim⟩ := findAtCompany_of_first pre false s.data ws cap rest hocc.1
    ((AtBoundary_false pre).mpr hocc.2)
    (fun pre2 ws2 cap2 rest2 h2 hb2 =>
      hfirst pre2 ws2 cap2 rest2 ⟨h2, (AtBoundary_false pre2).mp hb2⟩)
  have ht : (JSValue.str s).truthy = true := by
    have : s ≠ "" := by
      intro h
      have h2 := (atPairAt_of_occurrence _ _ _ _ _ hocc.1).2
      rw [h] at h2
      simp at h2
    simp [JSValue.truthy, this]
  simp only [extractCompanyFromHeadline, ht, Bool.not_true, Bool.false_eq_true, if_false, hc,
    htrim]

/-- Counterexample to claim C14 as stated: in `Cat lover | Acme` the first `at` followed by
white space and capturable text is the one inside `Cat`, after which `lover` stands; the
code skips it, because that `at` does not start a word, and falls back to the second
`|`-separated segment, `Acme`. -/
theorem company_skips_at_inside_word :
    AtOccurrence "Cat lover | Acme".data ['C'] [' '] "lover ".data "| Acme".data ∧
      (∀ pre2 ws2 cap2 rest2, AtOccurrence "Cat lover | Acme".data pre2 ws2 cap2 rest2 →
        ['C'].length ≤ pre2.length) ∧
      trimChars "lover ".data = "lover".data ∧
      getProfileValue "company" ⟨[("headline", .str "Cat lover | Acme")]⟩ =
        .ok (.str "Acme") ∧
      ("Acme" : String) ≠ "lover" := by
  refine ⟨⟨'a', 't', by decide, by decide, by decide, by decide, by decide, by decide,
    by decide⟩, ?_, by decide, by decide, by decide⟩
  intro pre2 ws2 cap2 rest2 h
  by_contra hlt
  have h0 : pre2.length = 0 := by
    simp only [List.length_singleton, not_le, Nat.lt_one_iff] at hlt
    exact hlt
  have h1 := (atPairAt_of_occurrence _ _ _ _ _ h).1
  rw [h0] at h1
  exact absurd h1 (by decide)

/-- Claim C14, amended (`TemplateEngine.extractCompanyFromHeadline`, `getProfileValue`).
For `v` among `company` and `currentCompany`, every profile with no value under `v` and no
`company` value, and every headline that contains `at` (in either case) at the start of a
word, followed by white space and then one or more characters other than `|` and `,`: `v`
resolves to the text after the first such `at` and white space, up to the next `|` or `,`
or the end of the headline, trimmed. -/
theorem company_from_headline (v : String) (P : Profile) (s : String)
    (pre ws cap rest : List Char) (hv : v = "company" ∨ v = "currentCompany")
    (hdirect : (P.get v).truthy = false) (hcompany : (P.get "company").truthy = false)
    (hhead : P.get "headline" = .str s)
    (hocc : WordAtOccurrence s.data pre ws cap rest)
    (hfirst : ∀ pre2 ws2 cap2 rest2, WordAtOccurrence s.data pre2 ws2 cap2 rest2 →
      pre.length ≤ pre2.length) :
    getProfileValue v P = .ok (.str ⟨trimChars cap⟩) := by
  rw [getProfileValue_company v P hv hdirect hcompany, hhead]
  exact extractCompanyFromHeadline_of_first s pre ws cap rest hocc hfirst

/-- Witness for claim C14, amended: the headline `Engineer at Acme Corp | ex-Google` yields
`Acme Corp`. -/
theorem company_from_headline_witness :
    getProfileValue "company" ⟨[("headline", .str "Engineer at Acme Corp | ex-Google")]⟩ =
      .ok (.str "Acme Corp") :=
  (company_from_headline "company" ⟨[("headline", .str "Engineer at Acme Corp | ex-Google")]⟩
    "Engineer at Acme Corp | ex-Google" "Engineer ".data " ".data "Acme Corp ".data
    "| ex-Google".data (Or.inl rfl) (by decide) (by decide) (by decide)
    ⟨⟨'a', 't', by decide, by decide, by decide, by decide, by decide, by decide, by decide⟩,
      by decide⟩
    (by
      intro pre2 ws2 cap2 rest2 h
      have hall : ∀ n, n < 9 → atPairAt "Engineer at Acme Corp | ex-Google".data n = false := by
        decide
      by_contra hlt
      have h1 := (atPairAt_of_occurrence _ _ _ _ _ h.1).1
      rw [hall _ (by simpa using hlt)] at h1
      exact absurd h1 (by simp))).trans (by decide)

theorem splitOnChar_first_sep (sep : Char) (a b : List Char) (ha : sep ∉ a) :
    splitOnChar sep (a ++ sep :: b) = a :: splitOnChar sep b := by
  induction a with
  | nil => rw [List.nil_append, splitOnChar_cons_sep]
  | cons c cs ih =>
    have hc : c ≠ sep := fun e => ha (e ▸ List.mem_cons_self _ _)
    have hcs : sep ∉ cs := fun e => ha (List.mem_cons_of_mem _ e)
    rw [List.cons_append, splitOnChar_cons_ne sep c _ cs (splitOnChar sep b) hc (ih hcs)]

theorem extractCompanyFromHeadline_of_none (s : String)
    (hnone : findAtCompany false s.data = none) :
    extractCompanyFromHeadline (.str s) =
      .ok (.str (if 2 ≤ (splitOnChar '|' s.data).length then
        ⟨trimChars ((splitOnChar '|' s.data).getD 1 [])⟩ else "")) := by
  by_cases ht : (JSValue.str s).truthy = true
  · simp only [extractCompanyFromHeadline, ht, Bool.not_true, Bool.false_eq_true, if_false,
      hnone]
    cases hsp : splitOnChar '|' s.data with
    | nil => rfl
    | cons x xs =>
      cases xs with
      | nil => rfl
      | cons y ys => simp
  · have hs : s = "" := by simpa [JSValue.truthy] using ht
    subst hs
    rfl

/-- Claim C15 (`TemplateEngine.extractCompanyFromHeadline`).  For every headline in which
no `at` at the start of a word is followed by white space and capturable text (in
particular when no `at` followed by white space occurs at all): the result is the second
`|`-separated segment, trimmed, when the headline contains a `|`, and the empty string
when it contains none; it is the empty string too when the headline is absent. -/
theorem extractCompany_without_at (s : String)
    (hno : ¬ ∃ pre ws cap rest, WordAtOccurrence s.data pre ws cap rest) :
    (∀ a b, s.data = a ++ '|' :: b → '|' ∉ a →
        extractCompanyFromHeadline (.str s) =
          .ok (.str ⟨trimChars (b.takeWhile (fun c => c != '|'))⟩)) ∧
      ('|' ∉ s.data → extractCompanyFromHeadline (.str s) = .ok (.str "")) ∧
      extractCompanyFromHeadline .undefined = .ok (.str "") ∧
      extractCompanyFromHeadline .null = .ok (.str "") := by
  have hnone := findAtCompany_none_of_no_occurrence s.data hno
  have hmain := extractCompanyFromHeadline_of_none s hnone
  refine ⟨?_, ?_, rfl, rfl⟩
  · intro a b hab ha
    rw [hmain, hab, splitOnChar_first_sep '|' a b ha]
    have hb := headD_splitOnChar '|' b
    cases hsb : splitOnChar '|' b with
    | nil => exact absurd hsb (splitOnChar_ne_nil '|' b)
    | cons seg segs =>
      rw [hsb] at hb
      simp only [List.headD_cons] at hb
      simp [hb]
  · intro hbar
    rw [hmain, splitOnChar_of_not_mem '|' s.data hbar]
    simp

/-- Witness for claim C15: without an `at` pattern, `Product Manager | TechCorp | ex-Google`
yields the second segment `TechCorp`, and `Product Manager` yields the empty string. -/
theorem extractCompany_without_at_witness :
    extractCompanyFromHeadline (.str "Product Manager | TechCorp | ex-Google") =
        .ok (.str "TechCorp") ∧
      extractCompanyFromHeadline (.str "Product Manager") = .ok (.str "") :=
  ⟨((extractCompany_without_at "Product Manager | TechCorp | ex-Google" (by
      rintro ⟨pre, ws, cap, rest, h, _⟩
      have hall : ∀ n, n < "Product Manager | TechCorp | ex-Google".data.length →
          atPairAt "Product Manager | TechCorp | ex-Google".data n = false := by decide
      have h1 := atPairAt_of_occurrence _ _ _ _ _ h
      rw [hall _ h1.2] at h1
      exact absurd h1.1 (by simp))).1 "Product Manager ".data " TechCorp | ex-Google".data
      (by decide) (by decide)).trans (by decide),
   (extractCompany_without_at "Product Manager" (by
      rintro ⟨pre, ws, cap, rest, h, _⟩
      have hall : ∀ n, n < "Product Manager".data.length →
          atPairAt "Product Manager".data n = false := by decide
      have h1 := atPairAt_of_occurrence _ _ _ _ _ h
      rw [hall _ h1.2] at h1
      exact absurd h1.1 (by simp))).2.1 (by decide)⟩

/-! ## Variables of a template -/

theorem sourceOf_scanVariables (n : Nat) : ∀ s : List Char, s.length ≤ n →
    sourceOf (scanVariables s) = s := by
  induction n with
  | zero =>
    intro s hs
    have : s = [] := List.length_eq_zero.mp (Nat.le_zero.mp hs)
    subst this
    rfl
  | succ n ih =>
    intro s hs
    cases s with
    | nil => rfl
    | cons c cs =>
      simp only [List.length_cons, Nat.add_le_add_iff_right] at hs
      cases hm : matchVariable (c :: cs) with
      | none =>
        rw [scanVariables_cons_none c cs hm]
        simp only [sourceOf, Piece.source, List.singleton_append, ih cs hs]
      | some p =>
        obtain ⟨w, rest⟩ := p
        have hl := matchVariable_length hm
        simp only [List.length_cons] at hl
        obtain ⟨hsrc, _, _⟩ := matchVariable_some hm
        rw [scanVariables_cons_some c cs w rest hm]
        simp only [sourceOf, Piece.source, ih rest (by omega)]
        rw [hsrc]
        simp

theorem nodup_keepFirst (l : List String) : (keepFirst l).Nodup := by
  induction l with
  | nil => simp [keepFirst]
  | cons x xs ih =>
    simp only [keepFirst, List.nodup_cons]
    exact ⟨by simp [List.mem_filter], ih.filter _⟩

theorem mem_keepFirst (x : String) (l : List String) : x ∈ keepFirst l ↔ x ∈ l := by
  induction l with
  | nil => simp [keepFirst]
  | cons y ys ih =>
    simp only [keepFirst, List.mem_cons, List.mem_filter, ih, decide_eq_true_eq]
    by_cases h : x = y <;> simp [h]

theorem foldl_setAdd_eq (l : List String) : ∀ acc : List String,
    l.foldl setAdd acc = acc ++ (keepFirst l).filter (fun y => decide (y ∉ acc)) := by
  induction l with
  | nil => intro acc; simp [keepFirst]
  | cons x xs ih =>
    intro acc
    rw [List.foldl_cons, ih]
    unfold setAdd
    by_cases hx : x ∈ acc
    · rw [if_pos hx]
      simp only [keepFirst, List.filter_cons, hx, not_true_eq_false, decide_False,
        Bool.false_eq_true, if_false, List.filter_filter]
      congr 1
      apply List.filter_congr
      intro y _
      by_cases hy : y ∈ acc
      · simp [hy]
      · have : y ≠ x := fun h => hy (h ▸ hx)
        simp [hy, this]
    · rw [if_neg hx]
      simp only [keepFirst, List.filter_cons, hx, not_false_eq_true, decide_True, if_true,
        List.filter_filter, List.append_assoc, List.singleton_append]
      congr 2
      apply List.filter_congr
      intro y _
      simp only [List.mem_append, List.mem_singleton, not_or, ne_eq, Bool.decide_and,
        Bool.and_comm]

theorem getVariables_eq_keepFirst (T : String) :
    getVariables T = keepFirst (hitNames (scanVariables T.data)) := by
  unfold getVariables
  rw [foldl_setAdd_eq]
  simp

theorem firstIndex_cons_skip (t : List Char) (c : Char) (cs : List Char)
    (h : ¬ t <+: c :: cs) : firstIndex t (c :: cs) = firstIndex t cs + 1 := by
  have : t.isPrefixOf (c :: cs) = false := by
    rw [Bool.eq_false_iff]
    intro hp
    exact h (List.isPrefixOf_iff_prefix.mp hp)
  simp only [firstIndex, this, Bool.false_eq_true, if_false]

theorem firstIndex_zero (t : List Char) (s : List Char) (hs : s ≠ [])
    (h : t <+: s) : firstIndex t s = 0 := by
  cases s with
  | nil => exact absurd rfl hs
  | cons c cs =>
    have : t.isPrefixOf (c :: cs) = true := List.isPrefixOf_iff_prefix.mpr h
    simp only [firstIndex, this, if_true]

/-- No text that begins with `{` starts inside a run of characters other than `{`. -/
theorem firstIndex_skip (t : List Char) (w tail : List Char)
    (hw : ∀ c ∈ w, c ≠ '{') :
    firstIndex ('{' :: t) (w ++ tail) = w.length + firstIndex ('{' :: t) tail := by
  induction w with
  | nil => simp
  | cons a w ih =>
    have ha : a ≠ '{' := hw a (List.mem_cons_self _ _)
    rw [List.cons_append, firstIndex_cons_skip, ih (fun c hc => hw c (List.mem_cons_of_mem _ hc))]
    · simp only [List.length_cons]; omega
    · intro hp
      rw [List.cons_prefix_cons] at hp
      exact ha hp.1.symm

theorem ne_open_of_isWordChar (c : Char) (h : isWordChar c = true) : c ≠ '{' := by
  intro hc
  rw [hc, isWordChar_open] at h
  exact absurd h (by simp)

/-- A placeholder begins at no inner position of another match. -/
theorem firstIndex_after_hit (v w rest : List Char) (hv : IsIdentifier v)
    (hw : IsIdentifier w) (hne : w ≠ v) :
    firstIndex ('{' :: '{' :: (v ++ ['}', '}'])) ('{' :: '{' :: (w ++ '}' :: '}' :: rest)) =
      (w.length + 4) + firstIndex ('{' :: '{' :: (v ++ ['}', '}'])) rest := by
  have h0 : ¬ ('{' :: '{' :: (v ++ ['}', '}'])) <+: ('{' :: '{' :: (w ++ '}' :: '}' :: rest)) := by
    intro hp
    obtain ⟨r, hr⟩ := hp
    have h1 := matchVariable_hit w rest hw.1 hw.2
    have h2 := matchVariable_hit v r hv.1 hv.2
    have : '{' :: '{' :: (v ++ '}' :: '}' :: r) = '{' :: '{' :: (w ++ '}' :: '}' :: rest) := by
      rw [← hr]; simp
    rw [this, h1] at h2
    simp only [Option.some.injEq, Prod.mk.injEq] at h2
    exact hne h2.1
  have h1 : ¬ ('{' :: '{' :: (v ++ ['}', '}'])) <+: ('{' :: (w ++ '}' :: '}' :: rest)) := by
    intro hp
    obtain ⟨hw1, hw2⟩ := hw
    cases w with
    | nil => exact absurd rfl hw1
    | cons a w2 =>
      rw [List.cons_prefix_cons, List.cons_append, List.cons_prefix_cons] at hp
      exact ne_open_of_isWordChar a (hw2 a (List.mem_cons_self _ _)) hp.2.1.symm
  rw [firstIndex_cons_skip _ _ _ h0, firstIndex_cons_skip _ _ _ h1,
    firstIndex_skip _ w _ (fun c hc => ne_open_of_isWordChar c (hw.2 c hc)),
    firstIndex_cons_skip, firstIndex_cons_skip]
  · omega
  · intro hp
    rw [List.cons_prefix_cons] at hp
    exact absurd hp.1 (by decide)
  · intro hp
    rw [List.cons_prefix_cons] at hp
    exact absurd hp.1 (by decide)

theorem firstIndex_eq_hitOffset (v : List Char) (hv : IsIdentifier v) (n : Nat) :
    ∀ s : List Char, s.length ≤ n →
      firstIndex ('{' :: '{' :: (v ++ ['}', '}'])) s = hitOffset v (scanVariables s) := by
  induction n with
  | zero =>
    intro s hs
    have : s = [] := List.length_eq_zero.mp (Nat.le_zero.mp hs)
    subst this
    rfl
  | succ n ih =>
    intro s hs
    cases s with
    | nil => rfl
    | cons c cs =>
      simp only [List.length_cons, Nat.add_le_add_iff_right] at hs
      cases hm : matchVariable (c :: cs) with
      | none =>
        rw [scanVariables_cons_none c cs hm]
        have hnp : ¬ ('{' :: '{' :: (v ++ ['}', '}'])) <+: c :: cs := by
          intro hp
          obtain ⟨r, hr⟩ := hp
          have h2 := matchVariable_hit v r hv.1 hv.2
          have : '{' :: '{' :: (v ++ '}' :: '}' :: r) = c :: cs := by
            rw [← hr]; simp
          rw [this, hm] at h2
          exact absurd h2 (by simp)
        rw [firstIndex_cons_skip _ _ _ hnp, ih cs hs]
        simp only [hitOffset, reduceCtorEq, if_false, Piece.source, List.length_singleton]
        omega
      | some p =>
        obtain ⟨w, rest⟩ := p
        have hl := matchVariable_length hm
        simp only [List.length_cons] at hl
        obtain ⟨hsrc, hw1, hw2⟩ := matchVariable_some hm
        rw [scanVariables_cons_some c cs w rest hm]
        by_cases hwv : w = v
        · subst hwv
          have hp : ('{' :: '{' :: (w ++ ['}', '}'])) <+: c :: cs := by
            rw [hsrc]
            exact ⟨rest, by simp⟩
          rw [firstIndex_zero _ _ (by simp) hp]
          simp [hitOffset]
        · rw [hsrc, firstIndex_after_hit v w rest hv ⟨hw1, hw2⟩ hwv, ih rest (by omega)]
          simp only [hitOffset, Piece.hit.injEq, hwv, if_false, Piece.source, List.length_cons,
            List.length_append, List.length_nil]

theorem hitOffset_pairwise (ps : List Piece) :
    (keepFirst (hitNames ps)).Pairwise
      (fun u w => hitOffset u.data ps < hitOffset w.data ps) := by
  induction ps with
  | nil => simp [hitNames, keepFirst]
  | cons p ps ih =>
    cases p with
    | text c =>
      simp only [hitNames]
      refine ih.imp ?_
      intro u w h
      simp only [hitOffset, reduceCtorEq, if_false, Piece.source, List.length_singleton]
      omega
    | hit x =>
      simp only [hitNames, keepFirst, List.pairwise_cons]
      constructor
      · intro w hw
        have hne : w ≠ ⟨x⟩ := by
          simpa using (List.mem_filter.mp hw).2
        have hne2 : ¬ x = w.data := by
          intro h
          exact hne (by rw [String.ext_iff]; exact h.symm)
        simp only [hitOffset, if_true, Piece.hit.injEq, hne2, if_false, Piece.source,
          List.length_cons]
        omega
      · refine (ih.filter _).imp_of_mem ?_
        intro u w hu hw h
        have hu2 : ¬ x = u.data := by
          intro h2
          have : u ≠ ⟨x⟩ := by simpa using (List.mem_filter.mp hu).2
          exact this (by rw [String.ext_iff]; exact h2.symm)
        have hw2 : ¬ x = w.data := by
          intro h2
          have : w ≠ ⟨x⟩ := by simpa using (List.mem_filter.mp hw).2
          exact this (by rw [String.ext_iff]; exact h2.symm)
        simp only [hitOffset, Piece.hit.injEq, hu2, hw2, if_false]
        omega

theorem hit_source_infix (v : List Char) (ps : List Piece) (h : Piece.hit v ∈ ps) :
    ('{' :: '{' :: (v ++ ['}', '}'])) <:+: sourceOf ps := by
  obtain ⟨a, b, hab⟩ := List.append_of_mem h
  subst hab
  refine ⟨sourceOf a, sourceOf b, ?_⟩
  rw [sourceOf_append]
  simp [sourceOf, Piece.source]

/-- Claim C21 (`TemplateEngine.getVariables`).  For every template string `T`,
`getVariables(T)` has no duplicate; its members are exactly the identifiers `v` (one or
more letters, digits or underscores) such that `{{v}}` occurs in `T`; and they stand in the
order of their first appearance: of two members, the earlier one is the one whose
placeholder first occurs earlier in `T`. -/
theorem getVariables_first_appearance (T : String) :
    (getVariables T).Nodup ∧
    (∀ v : String, v ∈ getVariables T ↔ (IsIdentifier v.data ∧ includes T (placeholder v))) ∧
    (getVariables T).Pairwise (fun u w =>
      firstIndex (placeholder u).data T.data < firstIndex (placeholder w).data T.data) := by
  have hmem : ∀ v : String, v ∈ getVariables T ↔
      (IsIdentifier v.data ∧ includes T (placeholder v)) := by
    intro v
    have hv : v = ⟨v.data⟩ := rfl
    rw [hv, mem_getVariables]
    constructor
    · intro h
      refine ⟨scanVariables_hit_identifier _ _ h, ?_⟩
      have := hit_source_infix v.data _ h
      rw [sourceOf_scanVariables _ _ (le_refl _)] at this
      unfold includes
      rw [placeholder_data]
      exact this
    · rintro ⟨hid, pre, post, hpp⟩
      rw [placeholder_data] at hpp
      obtain ⟨ps, hps⟩ :=
        scanVariables_before_placeholder v.data post hid pre.length pre (le_refl _)
      have hT : T.data = pre ++ '{' :: '{' :: (v.data ++ '}' :: '}' :: post) := by
        rw [← hpp]; simp
      rw [hT, hps]
      simp
  refine ⟨?_, hmem, ?_⟩
  · rw [getVariables_eq_keepFirst]
    exact nodup_keepFirst _
  · have hp := hitOffset_pairwise (scanVariables T.data)
    rw [← getVariables_eq_keepFirst] at hp
    refine hp.imp_of_mem ?_
    intro u w hu hw h
    rw [placeholder_data, placeholder_data,
      firstIndex_eq_hitOffset u.data ((hmem u).mp hu).1 _ T.data (le_refl _),
      firstIndex_eq_hitOffset w.data ((hmem w).mp hw).1 _ T.data (le_refl _)]
    exact h

/-! ## Limit status: remaining, percentage, message -/

theorem roundHalfEven_near (a b : Nat) (hb : 0 < b) :
    |((roundHalfEven a b : Nat) : ℚ) - (a : ℚ) / (b : ℚ)| ≤ 1 / 2 := by
  have hbq : (0 : ℚ) < (b : ℚ) := by exact_mod_cast hb
  have hdm : ((b : ℚ) * ((a / b : Nat) : ℚ) + ((a % b : Nat) : ℚ)) = (a : ℚ) := by
    exact_mod_cast Nat.div_add_mod a b
  have hr : ((a % b : Nat) : ℚ) < (b : ℚ) := by exact_mod_cast Nat.mod_lt a hb
  have hr0 : (0 : ℚ) ≤ ((a % b : Nat) : ℚ) := by positivity
  have hdiv : (a : ℚ) / (b : ℚ) = ((a / b : Nat) : ℚ) + ((a % b : Nat) : ℚ) / (b : ℚ) := by
    rw [← hdm]; field_simp; ring
  rw [hdiv]
  unfold roundHalfEven
  have key1 : 2 * (a % b) < b → ((a % b : Nat) : ℚ) / (b : ℚ) ≤ 1 / 2 := by
    intro h
    rw [div_le_iff₀ hbq]
    have : (2 : ℚ) * ((a % b : Nat) : ℚ) < (b : ℚ) := by exact_mod_cast h
    linarith
  have key2 : b ≤ 2 * (a % b) → 1 / 2 ≤ ((a % b : Nat) : ℚ) / (b : ℚ) := by
    intro h
    rw [le_div_iff₀ hbq]
    have : (b : ℚ) ≤ (2 : ℚ) * ((a % b : Nat) : ℚ) := by exact_mod_cast h
    linarith
  have key3 : ((a % b : Nat) : ℚ) / (b : ℚ) < 1 := by
    rw [div_lt_iff₀ hbq]; linarith
  have key0 : (0 : ℚ) ≤ ((a % b : Nat) : ℚ) / (b : ℚ) := div_nonneg hr0 (le_of_lt hbq)
  have up : b ≤ 2 * (a % b) →
      |(((a / b + 1 : Nat)) : ℚ) - (((a / b : Nat) : ℚ) + ((a % b : Nat) : ℚ) / (b : ℚ))| ≤
        1 / 2 := by
    intro h
    have := key2 h
    push_cast
    rw [abs_le]
    constructor <;> linarith
  have down : 2 * (a % b) ≤ b →
      |((a / b : Nat) : ℚ) - (((a / b : Nat) : ℚ) + ((a % b : Nat) : ℚ) / (b : ℚ))| ≤ 1 / 2 := by
    intro h
    have : ((a % b : Nat) : ℚ) / (b : ℚ) ≤ 1 / 2 := by
      rw [div_le_iff₀ hbq]
      have : (2 : ℚ) * ((a % b : Nat) : ℚ) ≤ (b : ℚ) := by exact_mod_cast h
      linarith
    rw [abs_le]
    constructor <;> linarith
  by_cases h1 : 2 * (a % b) < b
  · rw [if_pos h1]
    exact down (le_of_lt h1)
  · rw [if_neg h1]
    by_cases h2 : b < 2 * (a % b)
    · rw [if_pos h2]
      exact up (le_of_lt h2)
    · rw [if_neg h2]
      by_cases h3 : (a / b) % 2 = 0
      · rw [if_pos h3]
        exact down (not_lt.mp h2)
      · rw [if_neg h3]
        exact up (not_lt.mp h1)

theorem log2Aux_eq (fuel : Nat) : ∀ n : Nat, n ≤ fuel → log2Aux fuel n = Nat.log2 n := by
  induction fuel with
  | zero =>
    intro n hn
    have : n = 0 := Nat.le_zero.mp hn
    subst this
    rw [Nat.log2]
    rfl
  | succ f ih =>
    intro n hn
    rw [Nat.log2]
    by_cases h : n < 2
    · simp only [log2Aux, if_pos h, if_neg (not_le.mpr h)]
    · have h2 : 2 ≤ n := not_lt.mp h
      simp only [log2Aux, if_neg h, ge_iff_le, if_pos h2]
      rw [ih (n / 2) (by omega)]

theorem floorLog2_eq (n : Nat) : floorLog2 n = Nat.log2 n := log2Aux_eq n n (le_refl n)

theorem nearestDouble_near (num : Int) (den : Nat) (hn : 0 ≤ num) (hd : 0 < den) :
    0 ≤ (nearestDouble num den).num ∧ 0 < (nearestDouble num den).den ∧
      |(nearestDouble num den).value - (num : ℚ) / (den : ℚ)| ≤
        (num : ℚ) / (den : ℚ) / 2 ^ 53 := by
  by_cases h0 : num = 0
  · subst h0
    simp [nearestDouble, Fraction.value]
  · have hpos : 0 < num := lt_of_le_of_ne hn (Ne.symm h0)
    have hden : den ≠ 0 := Nat.pos_iff_ne_zero.mp hd
    have hcond : ¬ (num = 0 ∨ den = 0) := by
      intro h; rcases h with h | h
      · exact h0 h
      · exact hden h
    obtain ⟨a, ha⟩ : ∃ a : Nat, num = (a : Int) := ⟨num.natAbs, (Int.natAbs_of_nonneg hn).symm⟩
    subst ha
    have hapos : 0 < a := by exact_mod_cast hpos
    have hane : a ≠ 0 := Nat.pos_iff_ne_zero.mp hapos
    have hsign : Int.sign (a : Int) = 1 := Int.sign_eq_one_of_pos hpos
    -- the scaled quotient has at least 53 bits
    have hlow : 2 ^ 52 * (den * 2 ^ Nat.log2 a) ≤
        a * 2 ^ (if den * 2 ^ Nat.log2 a ≤ a * 2 ^ Nat.log2 den then 52 + Nat.log2 den
          else 53 + Nat.log2 den) := by
      by_cases hc : den * 2 ^ Nat.log2 a ≤ a * 2 ^ Nat.log2 den
      · rw [if_pos hc, pow_add]
        calc 2 ^ 52 * (den * 2 ^ Nat.log2 a) ≤ 2 ^ 52 * (a * 2 ^ Nat.log2 den) :=
              Nat.mul_le_mul_left _ hc
          _ = a * (2 ^ 52 * 2 ^ Nat.log2 den) := by ring
      · rw [if_neg hc, pow_add]
        have h1 : 2 ^ Nat.log2 a ≤ a := Nat.log2_self_le hane
        have h2 : den < 2 ^ (Nat.log2 den + 1) := Nat.lt_log2_self
        have h3 : den * 2 ^ Nat.log2 a ≤ 2 ^ (Nat.log2 den + 1) * a :=
          Nat.mul_le_mul (le_of_lt h2) h1
        calc 2 ^ 52 * (den * 2 ^ Nat.log2 a) ≤ 2 ^ 52 * (2 ^ (Nat.log2 den + 1) * a) :=
              Nat.mul_le_mul_left _ h3
          _ = a * (2 ^ 53 * 2 ^ Nat.log2 den) := by ring
    generalize hs : (if den * 2 ^ Nat.log2 a ≤ a * 2 ^ Nat.log2 den then 52 + Nat.log2 den
          else 53 + Nat.log2 den) = s at hlow
    have hD : 0 < den * 2 ^ Nat.log2 a := Nat.mul_pos hd (Nat.pow_pos (by decide))
    have hA := roundHalfEven_near (a * 2 ^ s) (den * 2 ^ Nat.log2 a) hD
    have hval : nearestDouble (a : Int) den =
        ⟨((roundHalfEven (a * 2 ^ s) (den * 2 ^ Nat.log2 a) * 2 ^ Nat.log2 a : Nat) : Int),
          2 ^ s⟩ := by
      simp only [nearestDouble, if_neg hcond, Int.natAbs_ofNat, floorLog2_eq, hs, hsign, one_mul]
    rw [hval]
    generalize roundHalfEven (a * 2 ^ s) (den * 2 ^ Nat.log2 a) = m at hA
    refine ⟨by positivity, Nat.pow_pos (by decide), ?_⟩
    simp only [Fraction.value]
    have hP : (0 : ℚ) < (2 : ℚ) ^ Nat.log2 a := by positivity
    have hS : (0 : ℚ) < (2 : ℚ) ^ s := by positivity
    have haq : (0 : ℚ) < (a : ℚ) := by exact_mod_cast hapos
    have hdq : (0 : ℚ) < (den : ℚ) := by exact_mod_cast hd
    have hlowq : (2 : ℚ) ^ 52 * ((den : ℚ) * (2 : ℚ) ^ Nat.log2 a) ≤ (a : ℚ) * (2 : ℚ) ^ s := by
      exact_mod_cast hlow
    push_cast at hA ⊢
    -- with t = 2^la / 2^s: the error is at most t / 2, and t * 2^52 ≤ a / den
    have e1 : (m : ℚ) * (2 : ℚ) ^ Nat.log2 a / (2 : ℚ) ^ s - (a : ℚ) / (den : ℚ) =
        ((m : ℚ) - (a : ℚ) * (2 : ℚ) ^ s / ((den : ℚ) * (2 : ℚ) ^ Nat.log2 a)) *
          ((2 : ℚ) ^ Nat.log2 a / (2 : ℚ) ^ s) := by
      field_simp
      ring
    have ht : (0 : ℚ) < (2 : ℚ) ^ Nat.log2 a / (2 : ℚ) ^ s := div_pos hP hS
    have e2 : (2 : ℚ) ^ 52 * ((2 : ℚ) ^ Nat.log2 a / (2 : ℚ) ^ s) ≤ (a : ℚ) / (den : ℚ) := by
      rw [le_div_iff₀ hdq, ← mul_div_assoc, div_mul_eq_mul_div, div_le_iff₀ hS]
      linarith
    rw [e1, abs_mul, abs_of_pos ht]
    calc |(m : ℚ) - (a : ℚ) * (2 : ℚ) ^ s / ((den : ℚ) * (2 : ℚ) ^ Nat.log2 a)| *
          ((2 : ℚ) ^ Nat.log2 a / (2 : ℚ) ^ s)
        ≤ 1 / 2 * ((2 : ℚ) ^ Nat.log2 a / (2 : ℚ) ^ s) :=
          mul_le_mul_of_nonneg_right hA (le_of_lt ht)
      _ = (2 : ℚ) ^ 52 * ((2 : ℚ) ^ Nat.log2 a / (2 : ℚ) ^ s) / 2 ^ 53 := by ring
      _ ≤ (a : ℚ) / (den : ℚ) / 2 ^ 53 := by
          apply div_le_div_of_nonneg_right e2 (by positivity)

theorem mathRound_bounds (x : Fraction) (hd : 0 < x.den) :
    ((mathRound x : Int) : ℚ) ≤ x.value + 1 / 2 ∧ x.value + 1 / 2 < ((mathRound x : Int) : ℚ) + 1 := by
  have hdq : (0 : ℚ) < (x.den : ℚ) := by exact_mod_cast hd
  have hdi : (0 : Int) < 2 * (x.den : Int) := by positivity
  have h1 := Int.ediv_mul_le (2 * x.num + (x.den : Int)) (ne_of_gt hdi)
  have h2 := Int.lt_ediv_add_one_mul_self (2 * x.num + (x.den : Int)) hdi
  have h1q : ((mathRound x : Int) : ℚ) * (2 * (x.den : ℚ)) ≤ 2 * (x.num : ℚ) + (x.den : ℚ) := by
    have : mathRound x * (2 * (x.den : Int)) ≤ 2 * x.num + (x.den : Int) := h1
    exact_mod_cast this
  have h2q : 2 * (x.num : ℚ) + (x.den : ℚ) < (((mathRound x : Int) : ℚ) + 1) * (2 * (x.den : ℚ)) := by
    have : 2 * x.num + (x.den : Int) < (mathRound x + 1) * (2 * (x.den : Int)) := h2
    exact_mod_cast this
  have hv : x.value + 1 / 2 = (2 * (x.num : ℚ) + (x.den : ℚ)) / (2 * (x.den : ℚ)) := by
    unfold Fraction.value; field_simp; ring
  rw [hv]
  constructor
  · rw [le_div_iff₀ (by positivity)]; exact h1q
  · rw [div_lt_iff₀ (by positivity)]; exact h2q

theorem doublePercentage_near (c l : Int) (hc : 0 ≤ c) (hc2 : c ≤ 10 ^ 13) (hl : 0 < l) :
    |((mathRound (doublePercentage c l) : Int) : ℚ) - (c : ℚ) / (l : ℚ) * 100| ≤ 1 / 2 := by
  have hsign : l.sign = 1 := Int.sign_eq_one_of_pos hl
  have hnat : 0 < l.natAbs := Int.natAbs_pos.mpr (ne_of_gt hl)
  have hcast : ((l.natAbs : Nat) : ℚ) = (l : ℚ) := by
    have : ((l.natAbs : Nat) : Int) = l := Int.natAbs_of_nonneg (le_of_lt hl)
    rw [← Int.cast_natCast, this]
  obtain ⟨hn1, hd1, he1⟩ := nearestDouble_near c l.natAbs hc hnat
  obtain ⟨_, hd2, he2⟩ := nearestDouble_near ((nearestDouble c l.natAbs).num * 100)
    (nearestDouble c l.natAbs).den (by positivity) hd1
  obtain ⟨hr1, hr2⟩ := mathRound_bounds
    (nearestDouble ((nearestDouble c l.natAbs).num * 100) (nearestDouble c l.natAbs).den) hd2
  have hrp : mathRound (doublePercentage c l) = mathRound
      (nearestDouble ((nearestDouble c l.natAbs).num * 100) (nearestDouble c l.natAbs).den) := by
    simp only [doublePercentage, hsign, mul_one]
  rw [hrp]
  generalize mathRound
      (nearestDouble ((nearestDouble c l.natAbs).num * 100) (nearestDouble c l.natAbs).den) = n
      at hr1 hr2
  generalize (nearestDouble ((nearestDouble c l.natAbs).num * 100)
      (nearestDouble c l.natAbs).den).value = v2 at he2 hr1 hr2
  have hv1 : (((nearestDouble c l.natAbs).num * 100 : Int) : ℚ) /
      ((nearestDouble c l.natAbs).den : ℚ) = (nearestDouble c l.natAbs).value * 100 := by
    unfold Fraction.value
    push_cast
    ring
  rw [hv1] at he2
  generalize (nearestDouble c l.natAbs).value = v1 at he1 he2
  rw [hcast] at he1
  have hL : (0 : ℚ) < (l : ℚ) := by exact_mod_cast hl
  have hC : (0 : ℚ) ≤ (c : ℚ) := by exact_mod_cast hc
  have hC2 : (c : ℚ) ≤ 10 ^ 13 := by exact_mod_cast hc2
  have hr : (0 : ℚ) ≤ (c : ℚ) / (l : ℚ) := div_nonneg hC (le_of_lt hL)
  generalize hrdef : (c : ℚ) / (l : ℚ) = r at he1 hr ⊢
  have hrl : r * (l : ℚ) = (c : ℚ) := by rw [← hrdef]; field_simp
  rw [abs_le] at he1 he2
  -- both roundings together move the product by less than 1 / (2 l)
  have hu : (0 : ℚ) < 1 / 2 ^ 53 := by positivity
  have hv1lo : r * (1 - 1 / 2 ^ 53) ≤ v1 := by linarith [he1.1]
  have hv1hi : v1 ≤ r * (1 + 1 / 2 ^ 53) := by linarith [he1.2]
  have hv1nn : 0 ≤ v1 := le_trans (mul_nonneg hr (by norm_num)) hv1lo
  have hv2lo : v1 * 100 * (1 - 1 / 2 ^ 53) ≤ v2 := by linarith [he2.1]
  have hv2hi : v2 ≤ v1 * 100 * (1 + 1 / 2 ^ 53) := by linarith [he2.2]
  have hlo : r * 100 - r * 100 * (3 / 2 ^ 53) ≤ v2 := by
    have h1 : r * (1 - 1 / 2 ^ 53) * 100 * (1 - 1 / 2 ^ 53) ≤ v1 * 100 * (1 - 1 / 2 ^ 53) := by
      apply mul_le_mul_of_nonneg_right _ (by norm_num)
      apply mul_le_mul_of_nonneg_right hv1lo (by norm_num)
    have h2 : r * 100 - r * 100 * (3 / 2 ^ 53) ≤ r * (1 - 1 / 2 ^ 53) * 100 * (1 - 1 / 2 ^ 53) := by
      have : r * (1 - 1 / 2 ^ 53) * 100 * (1 - 1 / 2 ^ 53) -
          (r * 100 - r * 100 * (3 / 2 ^ 53)) = r * (100 * (1 / 2 ^ 53 + 1 / 2 ^ 106)) := by ring
      have hnn : 0 ≤ r * (100 * (1 / 2 ^ 53 + 1 / 2 ^ 106)) := mul_nonneg hr (by norm_num)
      linarith
    linarith
  have hhi : v2 ≤ r * 100 + r * 100 * (3 / 2 ^ 53) := by
    have h1 : v1 * 100 * (1 + 1 / 2 ^ 53) ≤ r * (1 + 1 / 2 ^ 53) * 100 * (1 + 1 / 2 ^ 53) := by
      apply mul_le_mul_of_nonneg_right _ (by norm_num)
      apply mul_le_mul_of_nonneg_right hv1hi (by norm_num)
    have h2 : r * (1 + 1 / 2 ^ 53) * 100 * (1 + 1 / 2 ^ 53) ≤ r * 100 + r * 100 * (3 / 2 ^ 53) := by
      have : r * 100 + r * 100 * (3 / 2 ^ 53) -
          r * (1 + 1 / 2 ^ 53) * 100 * (1 + 1 / 2 ^ 53) = r * (100 * (1 / 2 ^ 53 - 1 / 2 ^ 106)) := by
        ring
      have hnn : 0 ≤ r * (100 * (1 / 2 ^ 53 - 1 / 2 ^ 106)) := mul_nonneg hr (by norm_num)
      linarith
    linarith
  have herr : r * 100 * (3 / 2 ^ 53) * (2 * (l : ℚ)) < 1 := by
    have : r * 100 * (3 / 2 ^ 53) * (2 * (l : ℚ)) = (c : ℚ) * (600 / 2 ^ 53) := by
      rw [← hrl]; ring
    rw [this]
    have : (c : ℚ) * (600 / 2 ^ 53) ≤ 10 ^ 13 * (600 / 2 ^ 53) :=
      mul_le_mul_of_nonneg_right hC2 (by norm_num)
    have h3 : (10 : ℚ) ^ 13 * (600 / 2 ^ 53) < 1 := by norm_num
    linarith
  rw [abs_le]
  constructor
  · by_contra hcon
    rw [not_le] at hcon
    have h1 : (2 * (n : ℚ) + 1) * (l : ℚ) < r * 100 * (2 * (l : ℚ)) := by
      have := mul_lt_mul_of_pos_right (show (n : ℚ) + 1 / 2 < r * 100 by linarith)
        (show (0 : ℚ) < 2 * (l : ℚ) by positivity)
      linarith
    have h2 : (2 * (n : ℚ) + 1) * (l : ℚ) < (200 : ℚ) * (c : ℚ) := by
      have : r * 100 * (2 * (l : ℚ)) = 200 * (c : ℚ) := by rw [← hrl]; ring
      linarith
    have h3 : (2 * n + 1) * l < 200 * c := by exact_mod_cast h2
    have h4 : (2 * n + 1) * l + 1 ≤ 200 * c := h3
    have h5 : (2 * (n : ℚ) + 1) * (l : ℚ) + 1 ≤ (200 : ℚ) * (c : ℚ) := by exact_mod_cast h4
    have h6 : (2 * (n : ℚ) + 1) * (l : ℚ) + 1 ≤ r * 100 * (2 * (l : ℚ)) := by
      have : r * 100 * (2 * (l : ℚ)) = 200 * (c : ℚ) := by rw [← hrl]; ring
      linarith
    have h7 : (r * 100 - r * 100 * (3 / 2 ^ 53)) * (2 * (l : ℚ)) ≤ v2 * (2 * (l : ℚ)) :=
      mul_le_mul_of_nonneg_right hlo (by positivity)
    have h8 : v2 * (2 * (l : ℚ)) < ((n : ℚ) + 1 / 2) * (2 * (l : ℚ)) :=
      mul_lt_mul_of_pos_right (by linarith) (by positivity)
    linarith
  · by_contra hcon
    rw [not_le] at hcon
    have h1 : r * 100 * (2 * (l : ℚ)) < (2 * (n : ℚ) - 1) * (l : ℚ) := by
      have := mul_lt_mul_of_pos_right (show r * 100 < (n : ℚ) - 1 / 2 by linarith)
        (show (0 : ℚ) < 2 * (l : ℚ) by positivity)
      linarith
    have h2 : (200 : ℚ) * (c : ℚ) < (2 * (n : ℚ) - 1) * (l : ℚ) := by
      have : r * 100 * (2 * (l : ℚ)) = 200 * (c : ℚ) := by rw [← hrl]; ring
      linarith
    have h3 : 200 * c < (2 * n - 1) * l := by exact_mod_cast h2
    have h4 : 200 * c + 1 ≤ (2 * n - 1) * l := h3
    have h5 : (200 : ℚ) * (c : ℚ) + 1 ≤ (2 * (n : ℚ) - 1) * (l : ℚ) := by exact_mod_cast h4
    have h6 : r * 100 * (2 * (l : ℚ)) + 1 ≤ (2 * (n : ℚ) - 1) * (l : ℚ) := by
      have : r * 100 * (2 * (l : ℚ)) = 200 * (c : ℚ) := by rw [← hrl]; ring
      linarith
    have h7 : v2 * (2 * (l : ℚ)) ≤ (r * 100 + r * 100 * (3 / 2 ^ 53)) * (2 * (l : ℚ)) :=
      mul_le_mul_of_nonneg_right hhi (by positivity)
    have h8 : ((n : ℚ) - 1 / 2) * (2 * (l : ℚ)) ≤ v2 * (2 * (l : ℚ)) :=
      mul_le_mul_of_nonneg_right (by linarith) (by positivity)
    linarith

theorem roundHalfEven_ge (a b N : Nat) (hb : 0 < b) (h : 2 * N * b < 2 * a + b) :
    N ≤ roundHalfEven a b := by
  have hdm : a / b * b + a % b = a := Nat.div_add_mod' a b
  have hr : a % b < b := Nat.mod_lt a hb
  have hup : N ≤ a / b + 1 := by
    by_contra hc
    have hc2 : a / b + 2 ≤ N := by omega
    have h1 : (a / b + 2) * b ≤ N * b := Nat.mul_le_mul_right b hc2
    rw [Nat.add_mul] at h1
    rw [Nat.mul_assoc] at h
    omega
  have hdown : 2 * (a % b) ≤ b → N ≤ a / b := by
    intro h2
    by_contra hc
    have hc2 : a / b + 1 ≤ N := by omega
    have h1 : (a / b + 1) * b ≤ N * b := Nat.mul_le_mul_right b hc2
    rw [Nat.add_mul] at h1
    rw [Nat.mul_assoc] at h
    omega
  unfold roundHalfEven
  split_ifs with h1 h2 h3
  · exact hdown (le_of_lt h1)
  · exact hup
  · exact hdown (not_lt.mp h2)
  · exact hup

/-- The shape of a correctly rounded quotient of positive integers: a significand of 53
bits over a power of two. -/
theorem nearestDouble_shape (a den : Nat) (ha : 0 < a) (hd : 0 < den) :
    ∃ s : Nat, nearestDouble (a : Int) den =
        ⟨((roundHalfEven (a * 2 ^ s) (den * 2 ^ Nat.log2 a) * 2 ^ Nat.log2 a : Nat) : Int),
          2 ^ s⟩ ∧
      2 ^ 52 * (den * 2 ^ Nat.log2 a) ≤ a * 2 ^ s ∧
      a * 2 ^ s < 2 ^ 53 * (den * 2 ^ Nat.log2 a) := by
  have hane : a ≠ 0 := Nat.pos_iff_ne_zero.mp ha
  have hden : den ≠ 0 := Nat.pos_iff_ne_zero.mp hd
  have hpos : (0 : Int) < (a : Int) := by exact_mod_cast ha
  have hcond : ¬ ((a : Int) = 0 ∨ den = 0) := by
    intro h; rcases h with h | h
    · exact hane (by exact_mod_cast h)
    · exact hden h
  have hsign : Int.sign (a : Int) = 1 := Int.sign_eq_one_of_pos hpos
  have h1 : 2 ^ Nat.log2 a ≤ a := Nat.log2_self_le hane
  have h1u : a < 2 ^ (Nat.log2 a + 1) := Nat.lt_log2_self
  have h2 : den < 2 ^ (Nat.log2 den + 1) := Nat.lt_log2_self
  have h2l : 2 ^ Nat.log2 den ≤ den := Nat.log2_self_le hden
  refine ⟨if den * 2 ^ Nat.log2 a ≤ a * 2 ^ Nat.log2 den then 52 + Nat.log2 den
          else 53 + Nat.log2 den, ?_, ?_, ?_⟩
  · simp only [nearestDouble, if_neg hcond, Int.natAbs_ofNat, floorLog2_eq, hsign, one_mul]
  · by_cases hc : den * 2 ^ Nat.log2 a ≤ a * 2 ^ Nat.log2 den
    · rw [if_pos hc, pow_add]
      calc 2 ^ 52 * (den * 2 ^ Nat.log2 a) ≤ 2 ^ 52 * (a * 2 ^ Nat.log2 den) :=
            Nat.mul_le_mul_left _ hc
        _ = a * (2 ^ 52 * 2 ^ Nat.log2 den) := by ring
    · rw [if_neg hc, pow_add]
      have h3 : den * 2 ^ Nat.log2 a ≤ 2 ^ (Nat.log2 den + 1) * a :=
        Nat.mul_le_mul (le_of_lt h2) h1
      calc 2 ^ 52 * (den * 2 ^ Nat.log2 a) ≤ 2 ^ 52 * (2 ^ (Nat.log2 den + 1) * a) :=
            Nat.mul_le_mul_left _ h3
        _ = a * (2 ^ 53 * 2 ^ Nat.log2 den) := by ring
  · by_cases hc : den * 2 ^ Nat.log2 a ≤ a * 2 ^ Nat.log2 den
    · rw [if_pos hc, pow_add]
      have h3 : a * 2 ^ Nat.log2 den < 2 ^ (Nat.log2 a + 1) * den :=
        lt_of_lt_of_le (Nat.mul_lt_mul_of_pos_right h1u (Nat.pow_pos (by decide)))
          (Nat.mul_le_mul_left _ h2l)
      calc a * (2 ^ 52 * 2 ^ Nat.log2 den) = 2 ^ 52 * (a * 2 ^ Nat.log2 den) := by ring
        _ < 2 ^ 52 * (2 ^ (Nat.log2 a + 1) * den) :=
            Nat.mul_lt_mul_of_pos_left h3 (Nat.pow_pos (by decide))
        _ = 2 ^ 53 * (den * 2 ^ Nat.log2 a) := by ring
    · rw [if_neg hc, pow_add]
      have hc2 : a * 2 ^ Nat.log2 den < den * 2 ^ Nat.log2 a := not_le.mp hc
      calc a * (2 ^ 53 * 2 ^ Nat.log2 den) = 2 ^ 53 * (a * 2 ^ Nat.log2 den) := by ring
        _ < 2 ^ 53 * (den * 2 ^ Nat.log2 a) :=
            Nat.mul_lt_mul_of_pos_left hc2 (Nat.pow_pos (by decide))

/-- A rounded quotient is not below `N / 2 ^ s2` when the scaled quotient is within a half
of `N`, the scale `2 ^ s2` being the one of the rounding. -/
theorem nearestDouble_ge_of_scale (a den N la s : Nat) (hd : 0 < den)
    (hN : 2 * N * (den * 2 ^ la) < 2 * (a * 2 ^ s) + den * 2 ^ la) :
    (N : ℚ) * 2 ^ la / 2 ^ s ≤
      (⟨((roundHalfEven (a * 2 ^ s) (den * 2 ^ la) * 2 ^ la : Nat) : Int), 2 ^ s⟩ :
        Fraction).value := by
  have hD : 0 < den * 2 ^ la := Nat.mul_pos hd (Nat.pow_pos (by decide))
  have hm := roundHalfEven_ge (a * 2 ^ s) (den * 2 ^ la) N hD hN
  have hmq : (N : ℚ) ≤ (roundHalfEven (a * 2 ^ s) (den * 2 ^ la) : ℚ) := by exact_mod_cast hm
  simp only [Fraction.value]
  push_cast
  apply div_le_div_of_nonneg_right _ (by positivity)
  exact mul_le_mul_of_nonneg_right hmq (by positivity)

/-- A quotient that is at least the integer `T` rounds to a double that is at least `T`. -/
theorem nearestDouble_ge_of_int (num : Int) (den T : Nat) (hn : 0 < num) (hd : 0 < den)
    (hT : (T : ℚ) ≤ (num : ℚ) / (den : ℚ)) (hbig : (num : ℚ) / (den : ℚ) < 2 ^ 52) :
    (T : ℚ) ≤ (nearestDouble num den).value := by
  obtain ⟨a, ha⟩ : ∃ a : Nat, num = (a : Int) :=
    ⟨num.natAbs, (Int.natAbs_of_nonneg (le_of_lt hn)).symm⟩
  subst ha
  have hapos : 0 < a := by exact_mod_cast hn
  have hdq : (0 : ℚ) < (den : ℚ) := by exact_mod_cast hd
  obtain ⟨s, hval, hlo, hhi⟩ := nearestDouble_shape a den hapos hd
  have hTn : T * den ≤ a := by
    have : (T : ℚ) * (den : ℚ) ≤ (a : ℚ) := by
      have := (le_div_iff₀ hdq).mp hT
      exact_mod_cast this
    exact_mod_cast this
  have hbn : a < 2 ^ 52 * den := by
    have : (a : ℚ) < 2 ^ 52 * (den : ℚ) := by
      have := (div_lt_iff₀ hdq).mp hbig
      exact_mod_cast this
    exact_mod_cast this
  -- the scale is a whole power of two
  have hls : Nat.log2 a ≤ s := by
    by_contra hc
    have hc2 : s + 1 ≤ Nat.log2 a := by omega
    have hp : 2 ^ (s + 1) ≤ 2 ^ Nat.log2 a := Nat.pow_le_pow_right (by decide) hc2
    have h1 : a * 2 ^ s < 2 ^ 52 * den * 2 ^ s :=
      Nat.mul_lt_mul_of_pos_right hbn (Nat.pow_pos (by decide))
    have h2 : 2 ^ 52 * den * 2 ^ (s + 1) ≤ 2 ^ 52 * den * 2 ^ Nat.log2 a :=
      Nat.mul_le_mul_left _ hp
    have h3 : 2 ^ 52 * den * 2 ^ (s + 1) = 2 * (2 ^ 52 * den * 2 ^ s) := by ring
    have h4 : 2 ^ 52 * (den * 2 ^ Nat.log2 a) = 2 ^ 52 * den * 2 ^ Nat.log2 a := by ring
    omega
  obtain ⟨j, hj⟩ : ∃ j, s = Nat.log2 a + j := ⟨s - Nat.log2 a, by omega⟩
  rw [hval]
  have hN : 2 * (T * 2 ^ j) * (den * 2 ^ Nat.log2 a) <
      2 * (a * 2 ^ s) + den * 2 ^ Nat.log2 a := by
    have hD : 0 < den * 2 ^ Nat.log2 a := Nat.mul_pos hd (Nat.pow_pos (by decide))
    have h1 : T * den * (2 ^ j * 2 ^ Nat.log2 a) ≤ a * (2 ^ j * 2 ^ Nat.log2 a) :=
      Nat.mul_le_mul_right _ hTn
    have h2 : 2 * (T * 2 ^ j) * (den * 2 ^ Nat.log2 a) =
        2 * (T * den * (2 ^ j * 2 ^ Nat.log2 a)) := by ring
    have h3 : a * 2 ^ s = a * (2 ^ j * 2 ^ Nat.log2 a) := by rw [hj, pow_add]; ring
    omega
  have := nearestDouble_ge_of_scale a den (T * 2 ^ j) (Nat.log2 a) s hd hN
  refine le_trans (le_of_eq ?_) this
  rw [hj, pow_add]
  push_cast
  field_simp
  ring

/-- A quotient of the binade `2 ^ 52 ≤ q * 2 ^ J < 2 ^ 53` that is above `N - 1/2` after
scaling rounds to a double that is at least `N / 2 ^ J`. -/
theorem nearestDouble_ge_of_binade (num : Int) (den N J : Nat) (hn : 0 < num) (hd : 0 < den)
    (h1 : (2 : ℚ) ^ 52 ≤ (num : ℚ) / (den : ℚ) * 2 ^ J)
    (h2 : (num : ℚ) / (den : ℚ) * 2 ^ J < 2 ^ 53)
    (hN : (N : ℚ) - 1 / 2 < (num : ℚ) / (den : ℚ) * 2 ^ J) :
    (N : ℚ) / 2 ^ J ≤ (nearestDouble num den).value := by
  obtain ⟨a, ha⟩ : ∃ a : Nat, num = (a : Int) :=
    ⟨num.natAbs, (Int.natAbs_of_nonneg (le_of_lt hn)).symm⟩
  subst ha
  have hapos : 0 < a := by exact_mod_cast hn
  have hdq : (0 : ℚ) < (den : ℚ) := by exact_mod_cast hd
  obtain ⟨s, hval, hlo, hhi⟩ := nearestDouble_shape a den hapos hd
  have e : ((a : Int) : ℚ) / (den : ℚ) * 2 ^ J = ((a : ℚ) * 2 ^ J) / (den : ℚ) := by
    push_cast; ring
  rw [e] at h1 h2 hN
  have b1 : 2 ^ 52 * den ≤ a * 2 ^ J := by
    have : (2 : ℚ) ^ 52 * (den : ℚ) ≤ (a : ℚ) * 2 ^ J := (le_div_iff₀ hdq).mp h1
    exact_mod_cast this
  have b2 : a * 2 ^ J < 2 ^ 53 * den := by
    have : (a : ℚ) * 2 ^ J < 2 ^ 53 * (den : ℚ) := (div_lt_iff₀ hdq).mp h2
    exact_mod_cast this
  have b3 : 2 * N * den < 2 * (a * 2 ^ J) + den := by
    have : ((N : ℚ) - 1 / 2) * (den : ℚ) < (a : ℚ) * 2 ^ J := (lt_div_iff₀ hdq).mp hN
    have h3 : 2 * (N : ℚ) * (den : ℚ) < 2 * ((a : ℚ) * 2 ^ J) + (den : ℚ) := by linarith
    exact_mod_cast h3
  have hs : s = Nat.log2 a + J := by
    have hP : 0 < 2 ^ Nat.log2 a := Nat.pow_pos (by decide)
    apply le_antisymm
    · by_contra hc
      have hc2 : Nat.log2 a + J + 1 ≤ s := by omega
      have hp : 2 ^ (Nat.log2 a + J + 1) ≤ 2 ^ s := Nat.pow_le_pow_right (by decide) hc2
      have h3 : a * 2 ^ (Nat.log2 a + J + 1) ≤ a * 2 ^ s := Nat.mul_le_mul_left _ hp
      have h4 : a * 2 ^ (Nat.log2 a + J + 1) = 2 * 2 ^ Nat.log2 a * (a * 2 ^ J) := by
        rw [pow_add, pow_add]; ring
      have h5 : 2 * 2 ^ Nat.log2 a * (2 ^ 52 * den) ≤ 2 * 2 ^ Nat.log2 a * (a * 2 ^ J) :=
        Nat.mul_le_mul_left _ b1
      have h6 : 2 * 2 ^ Nat.log2 a * (2 ^ 52 * den) = 2 ^ 53 * (den * 2 ^ Nat.log2 a) := by
        ring
      omega
    · by_contra hc
      have hc2 : s + 1 ≤ Nat.log2 a + J := by omega
      have hp : 2 ^ (s + 1) ≤ 2 ^ (Nat.log2 a + J) := Nat.pow_le_pow_right (by decide) hc2
      have h3 : a * 2 ^ (s + 1) ≤ a * 2 ^ (Nat.log2 a + J) := Nat.mul_le_mul_left _ hp
      have h4 : a * 2 ^ (Nat.log2 a + J) = 2 ^ Nat.log2 a * (a * 2 ^ J) := by
        rw [pow_add]; ring
      have h5 : 2 ^ Nat.log2 a * (a * 2 ^ J) < 2 ^ Nat.log2 a * (2 ^ 53 * den) :=
        Nat.mul_lt_mul_of_pos_left b2 hP
      have h6 : 2 ^ Nat.log2 a * (2 ^ 53 * den) = 2 * (2 ^ 52 * (den * 2 ^ Nat.log2 a)) := by
        ring
      have h7 : a * 2 ^ (s + 1) = 2 * (a * 2 ^ s) := by rw [pow_succ]; ring
      omega
  rw [hval]
  have hN2 : 2 * N * (den * 2 ^ Nat.log2 a) < 2 * (a * 2 ^ s) + den * 2 ^ Nat.log2 a := by
    have hP : 0 < 2 ^ Nat.log2 a := Nat.pow_pos (by decide)
    have h3 : 2 * N * den * 2 ^ Nat.log2 a < (2 * (a * 2 ^ J) + den) * 2 ^ Nat.log2 a :=
      Nat.mul_lt_mul_of_pos_right b3 hP
    have h4 : 2 * N * (den * 2 ^ Nat.log2 a) = 2 * N * den * 2 ^ Nat.log2 a := by ring
    have h5 : (2 * (a * 2 ^ J) + den) * 2 ^ Nat.log2 a =
        2 * (a * 2 ^ s) + den * 2 ^ Nat.log2 a := by rw [hs, pow_add]; ring
    omega
  have := nearestDouble_ge_of_scale a den N (Nat.log2 a) s hd hN2
  refine le_trans (le_of_eq ?_) this
  rw [hs, pow_add]
  field_simp
  ring

theorem doublePercentage_eq (c l : Int) (hl : 0 < l) :
    doublePercentage c l =
      nearestDouble ((nearestDouble c l.natAbs).num * 100) (nearestDouble c l.natAbs).den := by
  simp only [doublePercentage, Int.sign_eq_one_of_pos hl, mul_one]

theorem natAbs_cast_of_pos (l : Int) (hl : 0 < l) : ((l.natAbs : Nat) : ℚ) = (l : ℚ) := by
  have : ((l.natAbs : Nat) : Int) = l := Int.natAbs_of_nonneg (le_of_lt hl)
  rw [← Int.cast_natCast, this]

theorem times100_value (x : Fraction) :
    (((x.num * 100 : Int) : ℚ)) / (x.den : ℚ) = x.value * 100 := by
  unfold Fraction.value
  push_cast
  ring

/-- The two roundings of `(current / limit) * 100` move the value by at most three parts
in `2 ^ 53`. -/
theorem doublePercentage_value_near (c l : Int) (hc : 0 ≤ c) (hl : 0 < l) :
    (c : ℚ) / (l : ℚ) * 100 - (c : ℚ) / (l : ℚ) * 100 * (3 / 2 ^ 53) ≤
        (doublePercentage c l).value ∧
      (doublePercentage c l).value ≤
        (c : ℚ) / (l : ℚ) * 100 + (c : ℚ) / (l : ℚ) * 100 * (3 / 2 ^ 53) := by
  have hnat : 0 < l.natAbs := Int.natAbs_pos.mpr (ne_of_gt hl)
  obtain ⟨hn1, hd1, he1⟩ := nearestDouble_near c l.natAbs hc hnat
  obtain ⟨_, hd2, he2⟩ := nearestDouble_near ((nearestDouble c l.natAbs).num * 100)
    (nearestDouble c l.natAbs).den (by positivity) hd1
  rw [doublePercentage_eq c l hl]
  generalize (nearestDouble ((nearestDouble c l.natAbs).num * 100)
      (nearestDouble c l.natAbs).den).value = v2 at he2
  rw [times100_value] at he2
  generalize (nearestDouble c l.natAbs).value = v1 at he1 he2
  rw [natAbs_cast_of_pos l hl] at he1
  have hL : (0 : ℚ) < (l : ℚ) := by exact_mod_cast hl
  have hC : (0 : ℚ) ≤ (c : ℚ) := by exact_mod_cast hc
  have hr : (0 : ℚ) ≤ (c : ℚ) / (l : ℚ) := div_nonneg hC (le_of_lt hL)
  generalize (c : ℚ) / (l : ℚ) = r at he1 hr ⊢
  rw [abs_le] at he1 he2
  have hv1lo : r * (1 - 1 / 2 ^ 53) ≤ v1 := by linarith [he1.1]
  have hv1hi : v1 ≤ r * (1 + 1 / 2 ^ 53) := by linarith [he1.2]
  have hv2lo : v1 * 100 * (1 - 1 / 2 ^ 53) ≤ v2 := by linarith [he2.1]
  have hv2hi : v2 ≤ v1 * 100 * (1 + 1 / 2 ^ 53) := by linarith [he2.2]
  constructor
  · have h1 : r * (1 - 1 / 2 ^ 53) * 100 * (1 - 1 / 2 ^ 53) ≤ v1 * 100 * (1 - 1 / 2 ^ 53) := by
      apply mul_le_mul_of_nonneg_right _ (by norm_num)
      apply mul_le_mul_of_nonneg_right hv1lo (by norm_num)
    have h2 : r * 100 - r * 100 * (3 / 2 ^ 53) ≤ r * (1 - 1 / 2 ^ 53) * 100 * (1 - 1 / 2 ^ 53) := by
      have : r * (1 - 1 / 2 ^ 53) * 100 * (1 - 1 / 2 ^ 53) -
          (r * 100 - r * 100 * (3 / 2 ^ 53)) = r * (100 * (1 / 2 ^ 53 + 1 / 2 ^ 106)) := by ring
      have hnn : 0 ≤ r * (100 * (1 / 2 ^ 53 + 1 / 2 ^ 106)) := mul_nonneg hr (by norm_num)
      linarith
    linarith
  · have h1 : v1 * 100 * (1 + 1 / 2 ^ 53) ≤ r * (1 + 1 / 2 ^ 53) * 100 * (1 + 1 / 2 ^ 53) := by
      apply mul_le_mul_of_nonneg_right _ (by norm_num)
      apply mul_le_mul_of_nonneg_right hv1hi (by norm_num)
    have h2 : r * (1 + 1 / 2 ^ 53) * 100 * (1 + 1 / 2 ^ 53) ≤ r * 100 + r * 100 * (3 / 2 ^ 53) := by
      have : r * 100 + r * 100 * (3 / 2 ^ 53) -
          r * (1 + 1 / 2 ^ 53) * 100 * (1 + 1 / 2 ^ 53) = r * (100 * (1 / 2 ^ 53 - 1 / 2 ^ 106)) := by
        ring
      have hnn : 0 ≤ r * (100 * (1 / 2 ^ 53 - 1 / 2 ^ 106)) := mul_nonneg hr (by norm_num)
      linarith
    linarith

/-- The double quotient `current / limit` is not below the double `N / 2 ^ 53` when the exact
quotient, at least one half, is above `(N - 1/2) / 2 ^ 53`. -/
theorem doubleQuotient_ge (c l : Int) (N : Nat) (hc : 0 < c) (hc2 : c ≤ 10 ^ 13) (hl : 0 < l)
    (hhalf : (1 : ℚ) / 2 ≤ (c : ℚ) / (l : ℚ))
    (hN : (N : ℚ) - 1 / 2 < (c : ℚ) / (l : ℚ) * 2 ^ 53) (hN1 : (N : ℚ) ≤ 2 ^ 53) :
    (N : ℚ) / 2 ^ 53 ≤ (nearestDouble c l.natAbs).value := by
  have hnat : 0 < l.natAbs := Int.natAbs_pos.mpr (ne_of_gt hl)
  have hL : (0 : ℚ) < (l : ℚ) := by exact_mod_cast hl
  have hC2 : (c : ℚ) ≤ 10 ^ 13 := by exact_mod_cast hc2
  have hL1 : (1 : ℚ) ≤ (l : ℚ) := by exact_mod_cast hl
  by_cases h1 : (c : ℚ) / (l : ℚ) < 1
  · apply nearestDouble_ge_of_binade c l.natAbs N 53 hc hnat
    · rw [natAbs_cast_of_pos l hl]; linarith
    · rw [natAbs_cast_of_pos l hl]; linarith
    · rw [natAbs_cast_of_pos l hl]; exact hN
  · have h2 : (1 : ℚ) ≤ (c : ℚ) / (l : ℚ) := not_lt.mp h1
    have h3 : ((1 : Nat) : ℚ) ≤ (nearestDouble c l.natAbs).value := by
      apply nearestDouble_ge_of_int c l.natAbs 1 hc hnat
      · rw [natAbs_cast_of_pos l hl]; exact_mod_cast h2
      · rw [natAbs_cast_of_pos l hl]
        have hC : (0 : ℚ) ≤ (c : ℚ) := by exact_mod_cast le_of_lt hc
        have : (c : ℚ) / (l : ℚ) ≤ (c : ℚ) := div_le_self hC hL1
        have h5 : (10 : ℚ) ^ 13 < 2 ^ 52 := by norm_num
        linarith
    have h4 : (N : ℚ) / 2 ^ 53 ≤ 1 := by
      rw [div_le_iff₀ (by positivity)]; linarith
    have h5 : ((1 : Nat) : ℚ) = 1 := by norm_num
    linarith

/-- The double `(current / limit) * 100` reaches the thresholds 95 and 80 exactly when the
exact value does, for counts and limits up to `10 ^ 13`. -/
theorem doublePercentage_thresholds (c l : Int) (hc : 0 ≤ c) (hc2 : c ≤ 10 ^ 13) (hl : 0 < l)
    (hl2 : l ≤ 10 ^ 13) :
    ((95 : ℚ) ≤ (doublePercentage c l).value ↔ (95 : ℚ) ≤ (c : ℚ) / (l : ℚ) * 100) ∧
      ((80 : ℚ) ≤ (doublePercentage c l).value ↔ (80 : ℚ) ≤ (c : ℚ) / (l : ℚ) * 100) := by
  have hnat : 0 < l.natAbs := Int.natAbs_pos.mpr (ne_of_gt hl)
  have hL : (0 : ℚ) < (l : ℚ) := by exact_mod_cast hl
  have hL1 : (1 : ℚ) ≤ (l : ℚ) := by exact_mod_cast hl
  have hL2 : (l : ℚ) ≤ 10 ^ 13 := by exact_mod_cast hl2
  have hC : (0 : ℚ) ≤ (c : ℚ) := by exact_mod_cast hc
  have hC2 : (c : ℚ) ≤ 10 ^ 13 := by exact_mod_cast hc2
  have hr : (0 : ℚ) ≤ (c : ℚ) / (l : ℚ) := div_nonneg hC (le_of_lt hL)
  have hrle : (c : ℚ) / (l : ℚ) ≤ 10 ^ 13 := le_trans (div_le_self hC hL1) hC2
  obtain ⟨hlo, hhi⟩ := doublePercentage_value_near c l hc hl
  obtain ⟨hn1, hd1, he1⟩ := nearestDouble_near c l.natAbs hc hnat
  rw [natAbs_cast_of_pos l hl, abs_le] at he1
  -- below a threshold: the exact value misses it by at least 1 / l
  have below : ∀ p : Int, (p : ℚ) ≤ 100 → ¬ (p : ℚ) ≤ (c : ℚ) / (l : ℚ) * 100 →
      ¬ (p : ℚ) ≤ (doublePercentage c l).value := by
    intro p hp100 hlt hge
    rw [not_le] at hlt
    have h1 : (c : ℚ) * 100 < p * l := by
      have h2 : (c : ℚ) / (l : ℚ) * 100 * l < p * l := mul_lt_mul_of_pos_right hlt hL
      have h3 : (c : ℚ) / (l : ℚ) * 100 * l = c * 100 := by field_simp
      linarith
    have h3 : c * 100 < p * l := by exact_mod_cast h1
    have h4 : c * 100 + 1 ≤ p * l := h3
    have h5 : (c : ℚ) * 100 + 1 ≤ p * l := by exact_mod_cast h4
    have h6 : (c : ℚ) / (l : ℚ) * 100 ≤ (p : ℚ) - 1 / l := by
      have : (p : ℚ) - 1 / l - (c : ℚ) / (l : ℚ) * 100 = (p * l - (c * 100 + 1)) / l := by
        field_simp
        ring
      have hnn : (0 : ℚ) ≤ (p * l - (c * 100 + 1)) / l := by
        apply div_nonneg _ (le_of_lt hL)
        linarith
      linarith
    have hinv : (0 : ℚ) < 1 / l := by positivity
    have h8 : (c : ℚ) / (l : ℚ) * 100 ≤ 100 := by linarith
    have h9 : (c : ℚ) / (l : ℚ) * 100 * (3 / 2 ^ 53) ≤ 100 * (3 / 2 ^ 53) :=
      mul_le_mul_of_nonneg_right h8 (by norm_num)
    have h10 : (100 : ℚ) * (3 / 2 ^ 53) < 1 / l := by
      rw [lt_div_iff₀ hL]
      have : (100 : ℚ) * (3 / 2 ^ 53) * l ≤ 100 * (3 / 2 ^ 53) * 10 ^ 13 :=
        mul_le_mul_of_nonneg_left hL2 (by norm_num)
      have h11 : (100 : ℚ) * (3 / 2 ^ 53) * 10 ^ 13 < 1 := by norm_num
      linarith
    linarith
  -- at or above a threshold the quotient is not below 1/2
  have hv1 : ∀ N : Nat, (N : ℚ) ≤ 2 ^ 53 → (1 : ℚ) / 2 ≤ (c : ℚ) / (l : ℚ) →
      (N : ℚ) - 1 / 2 < (c : ℚ) / (l : ℚ) * 2 ^ 53 →
      (N : ℚ) / 2 ^ 53 ≤ (nearestDouble c l.natAbs).value ∧ 0 < (nearestDouble c l.natAbs).num := by
    intro N hN1 hhalf hN
    have hcpos : 0 < c := by
      rcases lt_or_eq_of_le hc with h | h
      · exact h
      · exfalso
        rw [← h] at hhalf
        norm_num at hhalf
    have h1 := doubleQuotient_ge c l N hcpos hc2 hl hhalf hN hN1
    refine ⟨h1, ?_⟩
    rcases lt_or_eq_of_le hn1 with h | h
    · exact h
    · exfalso
      have hN0 : (1 : ℚ) / 2 < (N : ℚ) := by
        by_contra hcon
        rw [not_lt] at hcon
        have hN00 : N = 0 := by
          by_contra hne
          have : (1 : ℚ) ≤ (N : ℚ) := by exact_mod_cast Nat.one_le_iff_ne_zero.mpr hne
          linarith
        have hcl : (c : ℚ) / (l : ℚ) * 2 ^ 53 ≥ 2 ^ 52 := by linarith
        have hv := he1.1
        have hval0 : (nearestDouble c l.natAbs).value = 0 := by
          unfold Fraction.value
          rw [← h]
          simp
        rw [hval0] at hv
        have : (c : ℚ) / (l : ℚ) * (1 - 1 / 2 ^ 53) ≤ 0 := by linarith
        have h2 : (0 : ℚ) < (c : ℚ) / (l : ℚ) * (1 - 1 / 2 ^ 53) :=
          mul_pos (by linarith) (by norm_num)
        linarith
      have hval0 : (nearestDouble c l.natAbs).value = 0 := by
        unfold Fraction.value
        rw [← h]
        simp
      rw [hval0] at h1
      have : (0 : ℚ) < (N : ℚ) / 2 ^ 53 := div_pos (by linarith) (by positivity)
      linarith
  have hbig : (nearestDouble c l.natAbs).value * 100 < 2 ^ 52 := by
    have h1 : (nearestDouble c l.natAbs).value ≤ (c : ℚ) / (l : ℚ) * (1 + 1 / 2 ^ 53) := by
      linarith [he1.2]
    have h2 : (c : ℚ) / (l : ℚ) * (1 + 1 / 2 ^ 53) ≤ 10 ^ 13 * (1 + 1 / 2 ^ 53) :=
      mul_le_mul_of_nonneg_right hrle (by norm_num)
    have h3 : (10 : ℚ) ^ 13 * (1 + 1 / 2 ^ 53) * 100 < 2 ^ 52 := by norm_num
    linarith
  constructor
  · constructor
    · intro h
      by_contra hcon
      exact below 95 (by norm_num) (by exact_mod_cast hcon) (by exact_mod_cast h)
    · intro h
      have hq : (95 : ℚ) / 100 ≤ (c : ℚ) / (l : ℚ) := by linarith
      obtain ⟨h1, hpos⟩ := hv1 8556839292003942 (by norm_num) (by linarith) (by
        have : (95 : ℚ) / 100 * 2 ^ 53 ≤ (c : ℚ) / (l : ℚ) * 2 ^ 53 :=
          mul_le_mul_of_nonneg_right hq (by norm_num)
        have h2 : ((8556839292003942 : Nat) : ℚ) - 1 / 2 < (95 : ℚ) / 100 * 2 ^ 53 := by norm_num
        linarith)
      rw [doublePercentage_eq c l hl]
      have hnum : 0 < (nearestDouble c l.natAbs).num * 100 := by positivity
      by_cases h95 : (95 : ℚ) ≤ (nearestDouble c l.natAbs).value * 100
      · have := nearestDouble_ge_of_int ((nearestDouble c l.natAbs).num * 100)
          (nearestDouble c l.natAbs).den 95 hnum hd1
          (by rw [times100_value]; exact_mod_cast h95) (by rw [times100_value]; exact hbig)
        exact_mod_cast this
      · rw [not_le] at h95
        have h1b : ((8556839292003942 : Nat) : ℚ) / 2 ^ 53 * 100 ≤
            (nearestDouble c l.natAbs).value * 100 :=
          mul_le_mul_of_nonneg_right h1 (by norm_num)
        have := nearestDouble_ge_of_binade ((nearestDouble c l.natAbs).num * 100)
          (nearestDouble c l.natAbs).den (95 * 2 ^ 46) 46 hnum hd1
          (by rw [times100_value]; norm_num at h1b ⊢; linarith)
          (by rw [times100_value]; norm_num at h1b ⊢; linarith)
          (by rw [times100_value]; norm_num at h1b ⊢; linarith)
        have e : (((95 * 2 ^ 46 : Nat)) : ℚ) / 2 ^ 46 = 95 := by norm_num
        rw [e] at this
        exact this
  · constructor
    · intro h
      by_contra hcon
      exact below 80 (by norm_num) (by exact_mod_cast hcon) (by exact_mod_cast h)
    · intro h
      have hq : (80 : ℚ) / 100 ≤ (c : ℚ) / (l : ℚ) := by linarith
      obtain ⟨h1, hpos⟩ := hv1 7205759403792794 (by norm_num) (by linarith) (by
        have : (80 : ℚ) / 100 * 2 ^ 53 ≤ (c : ℚ) / (l : ℚ) * 2 ^ 53 :=
          mul_le_mul_of_nonneg_right hq (by norm_num)
        have h2 : ((7205759403792794 : Nat) : ℚ) - 1 / 2 < (80 : ℚ) / 100 * 2 ^ 53 := by norm_num
        linarith)
      rw [doublePercentage_eq c l hl]
      have hnum : 0 < (nearestDouble c l.natAbs).num * 100 := by positivity
      have h1b : ((7205759403792794 : Nat) : ℚ) / 2 ^ 53 * 100 ≤
          (nearestDouble c l.natAbs).value * 100 :=
        mul_le_mul_of_nonneg_right h1 (by norm_num)
      have h80 : ((80 : Nat) : ℚ) ≤ (nearestDouble c l.natAbs).value * 100 := by
        norm_num at h1b ⊢; linarith
      have := nearestDouble_ge_of_int ((nearestDouble c l.natAbs).num * 100)
        (nearestDouble c l.natAbs).den 80 hnum hd1
        (by rw [times100_value]; exact h80) (by rw [times100_value]; exact hbig)
      exact_mod_cast this


theorem nearestDouble_num_nonpos (num : Int) (den : Nat) (h : num ≤ 0) :
    (nearestDouble num den).num ≤ 0 := by
  by_cases h0 : num = 0 ∨ den = 0
  · simp only [nearestDouble, if_pos h0, le_refl]
  · have hneg : num < 0 := lt_of_le_of_ne h (fun e => h0 (Or.inl e))
    simp only [nearestDouble, if_neg h0, Int.sign_eq_neg_one_of_neg hneg]
    have hnn : (0 : Int) ≤ ((roundHalfEven (num.natAbs * 2 ^ (if den * 2 ^ floorLog2 num.natAbs ≤
        num.natAbs * 2 ^ floorLog2 den then 52 + floorLog2 den else 53 + floorLog2 den))
        (den * 2 ^ floorLog2 num.natAbs) * 2 ^ floorLog2 num.natAbs : Nat) : Int) :=
      Int.natCast_nonneg _
    linarith

theorem value_nonpos_of_num_nonpos (x : Fraction) (h : x.num ≤ 0) : x.value ≤ 0 := by
  unfold Fraction.value
  apply div_nonpos_of_nonpos_of_nonneg
  · exact_mod_cast h
  · positivity

/-- The status and the level of `createLimitStatus`, which the definition takes from the
exact value of `(current / limit) * 100`, are those of the double the code compares with
the thresholds, for every count up to `10 ^ 13` and every limit from 1 to `10 ^ 13`. -/
theorem createLimitStatus_status_of_double (type : String) (current limit : Int)
    (hc2 : current ≤ 10 ^ 13) (hl : 0 < limit) (hl2 : limit ≤ 10 ^ 13) :
    (createLimitStatus type current limit).status =
        statusOf (JSNumber.fin (doublePercentage current limit).value) ∧
      (createLimitStatus type current limit).level =
        levelOf (JSNumber.fin (doublePercentage current limit).value) := by
  have hne : limit ≠ 0 := ne_of_gt hl
  have h95 : critical_threshold * 100 = 95 := by norm_num [critical_threshold]
  have h80 : warning_threshold * 100 = 80 := by norm_num [warning_threshold]
  have key : ((95 : ℚ) ≤ (doublePercentage current limit).value ↔
        (95 : ℚ) ≤ (current : ℚ) / (limit : ℚ) * 100) ∧
      ((80 : ℚ) ≤ (doublePercentage current limit).value ↔
        (80 : ℚ) ≤ (current : ℚ) / (limit : ℚ) * 100) := by
    rcases le_or_lt 0 current with hc | hc
    · exact doublePercentage_thresholds current limit hc hc2 hl hl2
    · have hv : (doublePercentage current limit).value ≤ 0 := by
        rw [doublePercentage_eq current limit hl]
        apply value_nonpos_of_num_nonpos
        apply nearestDouble_num_nonpos
        have := nearestDouble_num_nonpos current limit.natAbs (le_of_lt hc)
        linarith
      have hq : (current : ℚ) / (limit : ℚ) * 100 < 0 := by
        have hC : (current : ℚ) < 0 := by exact_mod_cast hc
        have hL : (0 : ℚ) < (limit : ℚ) := by exact_mod_cast hl
        have := div_neg_of_neg_of_pos hC hL
        linarith
      constructor <;> constructor <;> intro h <;> linarith
  simp only [createLimitStatus, statusOf, levelOf, JSNumber.div, if_neg hne,
    JSNumber.times100, JSNumber.ge, h95, h80, decide_eq_true_eq, key.1, key.2, and_self]

theorem createLimitStatus_percentage_eq (type : String) (current limit : Int) (hl : 0 < limit) :
    (createLimitStatus type current limit).percentage =
      JSNumber.fin ((mathRound (doublePercentage current limit) : Int) : ℚ) := by
  have hne : limit ≠ 0 := ne_of_gt hl
  simp only [createLimitStatus, if_neg hne]

/-- Counterexample to claim C22 as stated: 23 of 40 is exactly 57.5 percent, which rounds to
58 (`Math.round` takes a half up); the code divides and multiplies in doubles, gets
57.49999999999999 for the product and returns 57. -/
theorem createLimitStatus_percentage_below_half :
    (createLimitStatus "messages" 23 40).percentage = JSNumber.fin 57 ∧
      (23 : ℚ) / 40 * 100 = 57 + 1 / 2 ∧
      ⌊(23 : ℚ) / 40 * 100 + 1 / 2⌋ = 58 ∧
      (doublePercentage 23 40).value < 57 + 1 / 2 := by
  have hd : doublePercentage 23 40 = ⟨8092405580431359 * 2 ^ 62, 2 ^ 109⟩ := by decide!
  refine ⟨?_, by norm_num, ?_, ?_⟩
  · rw [createLimitStatus_percentage_eq "messages" 23 40 (by decide)]
    have : mathRound (doublePercentage 23 40) = 57 := by decide!
    rw [this]
    norm_num
  · rw [Int.floor_eq_iff]
    constructor <;> norm_num
  · rw [hd]
    unfold Fraction.value
    norm_num

/-- Claim C22, amended (`LinkedInLimitsManager.createLimitStatus`).  For all integers
`0 ≤ current ≤ 10^13` and `limit > 0`: `remaining` is `max(0, limit - current)`, so it is
never negative and is `limit - current` whenever `current ≤ limit`; `percentage` is
`Math.round` of the double `(current / limit) * 100`, an integer nearest to
`current / limit * 100` (within 1/2 of it, no integer being nearer; at an exact half it may
be either neighbour), and it is not capped at 100: it is at least 100 as soon as `current`
reaches `limit` and at least 200 as soon as `current` reaches twice the limit (80 of 40
gives 200). -/
theorem createLimitStatus_remaining_percentage (type : String) (current limit : Int)
    (hc : 0 ≤ current) (hc2 : current ≤ 10 ^ 13) (hl : 0 < limit) :
    (createLimitStatus type current limit).remaining = max 0 (limit - current) ∧
    0 ≤ (createLimitStatus type current limit).remaining ∧
    (current ≤ limit → (createLimitStatus type current limit).remaining = limit - current) ∧
    ∃ n : Int, (createLimitStatus type current limit).percentage = JSNumber.fin (n : ℚ) ∧
      n = mathRound (doublePercentage current limit) ∧
      |(n : ℚ) - (current : ℚ) / (limit : ℚ) * 100| ≤ 1 / 2 ∧
      (∀ k : Int, |(n : ℚ) - (current : ℚ) / (limit : ℚ) * 100| ≤
        |(k : ℚ) - (current : ℚ) / (limit : ℚ) * 100|) ∧
      0 ≤ n ∧
      (limit ≤ current → 100 ≤ n) ∧
      (2 * limit ≤ current → 200 ≤ n) ∧
      (createLimitStatus "messages" 80 40).percentage = JSNumber.fin 200 := by
  have hlq : (0 : ℚ) < (limit : ℚ) := by exact_mod_cast hl
  have hcq : (0 : ℚ) ≤ (current : ℚ) := by exact_mod_cast hc
  have hq : (0 : ℚ) ≤ (current : ℚ) / (limit : ℚ) := div_nonneg hcq (le_of_lt hlq)
  have h200 : (createLimitStatus "messages" 80 40).percentage = JSNumber.fin 200 := by
    rw [createLimitStatus_percentage_eq "messages" 80 40 (by decide)]
    have : mathRound (doublePercentage 80 40) = 200 := by decide!
    rw [this]
    norm_num
  have hnear := doublePercentage_near current limit hc hc2 hl
  rw [abs_le] at hnear
  refine ⟨rfl, le_max_left _ _, fun h => max_eq_right (by omega), _,
    createLimitStatus_percentage_eq type current limit hl, rfl, ?_, ?_, ?_, ?_, ?_, h200⟩
  · rw [abs_le]; exact hnear
  · intro k
    by_cases hk : k = mathRound (doublePercentage current limit)
    · rw [hk]
    · have h1 : |((mathRound (doublePercentage current limit) : Int) : ℚ) -
          (current : ℚ) / (limit : ℚ) * 100| ≤ 1 / 2 := by rw [abs_le]; exact hnear
      have h2 : (1 : ℚ) ≤ |(k : ℚ) - ((mathRound (doublePercentage current limit) : Int) : ℚ)| := by
        have : (1 : Int) ≤ |k - mathRound (doublePercentage current limit)| :=
          Int.one_le_abs (sub_ne_zero.mpr hk)
        exact_mod_cast this
      have h3 := abs_sub_le (k : ℚ) ((current : ℚ) / (limit : ℚ) * 100)
        ((mathRound (doublePercentage current limit) : Int) : ℚ)
      rw [abs_sub_comm ((current : ℚ) / (limit : ℚ) * 100)] at h3
      linarith
  · have h1 : ((-1 : Int) : ℚ) < ((mathRound (doublePercentage current limit) : Int) : ℚ) := by
      push_cast
      linarith [hnear.1]
    have : (-1 : Int) < mathRound (doublePercentage current limit) := by exact_mod_cast h1
    omega
  · intro h
    have h1 : (1 : ℚ) ≤ (current : ℚ) / (limit : ℚ) := by
      rw [le_div_iff₀ hlq]
      have : (limit : ℚ) ≤ (current : ℚ) := by exact_mod_cast h
      linarith
    have h2 : ((99 : Int) : ℚ) < ((mathRound (doublePercentage current limit) : Int) : ℚ) := by
      push_cast
      linarith [hnear.1]
    have : (99 : Int) < mathRound (doublePercentage current limit) := by exact_mod_cast h2
    omega
  · intro h
    have h1 : (2 : ℚ) ≤ (current : ℚ) / (limit : ℚ) := by
      rw [le_div_iff₀ hlq]
      have : (2 : ℚ) * (limit : ℚ) ≤ (current : ℚ) := by exact_mod_cast h
      linarith
    have h2 : ((199 : Int) : ℚ) < ((mathRound (doublePercentage current limit) : Int) : ℚ) := by
      push_cast
      linarith [hnear.1]
    have : (199 : Int) < mathRound (doublePercentage current limit) := by exact_mod_cast h2
    omega

/-- Witness for claim C22, amended: 80 of 40 leaves 0 remaining; 30 of 40 leaves 10. -/
theorem createLimitStatus_remaining_percentage_witness :
    (createLimitStatus "messages" 80 40).remaining = 0 ∧
      (createLimitStatus "messages" 30 40).remaining = 10 :=
  ⟨(createLimitStatus_remaining_percentage "messages" 80 40 (by decide) (by decide)
      (by decide)).1,
   (createLimitStatus_remaining_percentage "messages" 30 40 (by decide) (by decide)
      (by decide)).2.2.1 (by decide)⟩

theorem statusOf_cases (percentage : JSNumber) :
    statusOf percentage = "critical" ∨ statusOf percentage = "warning" ∨
      statusOf percentage = "safe" := by
  unfold statusOf
  by_cases h1 : percentage.ge (critical_threshold * 100) = true
  · rw [if_pos h1]; exact Or.inl rfl
  · rw [if_neg h1]
    by_cases h2 : percentage.ge (warning_threshold * 100) = true
    · rw [if_pos h2]; exact Or.inr (Or.inl rfl)
    · rw [if_neg h2]; exact Or.inr (Or.inr rfl)

/-- Claim C23 (`LinkedInLimitsManager.createLimitStatus`, `getStatusMessage`).  For every
`type`, `current` and `limit`, the `message` of the limit status is the text of its status:
the stop sign, `current/limit type` and "sent. You're at your limit!" when the status is
`critical`; the warning sign, `current/limit type` and "sent. Slow down to avoid
restrictions." when it is `warning`; the check mark, `current/limit type`, "sent today." and
the `remaining` count `max(0, limit - current)` when it is `safe`; and the status is always
one of the three. -/
theorem createLimitStatus_message (type : String) (current limit : Int) :
    ((createLimitStatus type current limit).status = "critical" →
      (createLimitStatus type current limit).message =
        "⛔ " ++ toString current ++ "/" ++ toString limit ++ " " ++ type ++
          " sent. You\x27re at your limit!") ∧
    ((createLimitStatus type current limit).status = "warning" →
      (createLimitStatus type current limit).message =
        "⚠️ " ++ toString current ++ "/" ++ toString limit ++ " " ++ type ++
          " sent. Slow down to avoid restrictions.") ∧
    ((createLimitStatus type current limit).status = "safe" →
      (createLimitStatus type current limit).message =
        "✅ " ++ toString current ++ "/" ++ toString limit ++ " " ++ type ++
          " sent today. " ++ toString (max 0 (limit - current)) ++ " remaining.") ∧
    ((createLimitStatus type current limit).status = "critical" ∨
      (createLimitStatus type current limit).status = "warning" ∨
      (createLimitStatus type current limit).status = "safe") ∧
    (createLimitStatus "messages" 39 40).message =
      "⛔ 39/40 messages sent. You\x27re at your limit!" ∧
    (createLimitStatus "messages" 32 40).message =
      "⚠️ 32/40 messages sent. Slow down to avoid restrictions." ∧
    (createLimitStatus "messages" 3 40).message =
      "✅ 3/40 messages sent today. 37 remaining." := by
  have hm : (createLimitStatus type current limit).message =
      getStatusMessage type (createLimitStatus type current limit).status current limit
        (max 0 (limit - current)) := rfl
  have d1 : ("warning" : String) ≠ "critical" := by decide
  have d2 : ("safe" : String) ≠ "critical" := by decide
  have d3 : ("safe" : String) ≠ "warning" := by decide
  have e : ∀ (c : Int) (st : String),
      statusOf (JSNumber.div c 40).times100 = st →
      (createLimitStatus "messages" c 40).message =
        getStatusMessage "messages" st c 40 (max 0 (40 - c)) := by
    intro c st h
    rw [← h]
    rfl
  refine ⟨?_, ?_, ?_, statusOf_cases _, ?_, ?_, ?_⟩
  · intro h
    rw [hm, h]
    simp only [getStatusMessage, if_true]
  · intro h
    rw [hm, h]
    simp only [getStatusMessage, if_neg d1, if_true]
  · intro h
    rw [hm, h]
    simp only [getStatusMessage, if_neg d2, if_neg d3]
  · rw [e 39 "critical" (by rw [statusOf_percentage 39 40 (by decide)]; norm_num)]
    decide
  · rw [e 32 "warning" (by rw [statusOf_percentage 32 40 (by decide)]; norm_num)]
    decide
  · rw [e 3 "safe" (by rw [statusOf_percentage 3 40 (by decide)]; norm_num)]
    decide

/-- Claim C28 (`LinkedInLimitsManager.createLimitStatus`).  For every integer `current`
(so for all `current ≥ 0`) and every `limit > 0`: when `canProceed` is false the status is
`critical` and `remaining` is 0; so a status `safe` or `warning` always comes with
`canProceed` true. -/
theorem createLimitStatus_blocked_is_critical (type : String) (current limit : Int)
    (hl : 0 < limit) :
    ((createLimitStatus type current limit).canProceed = false →
      (createLimitStatus type current limit).status = "critical" ∧
        (createLimitStatus type current limit).remaining = 0) ∧
    ((createLimitStatus type current limit).status = "safe" ∨
        (createLimitStatus type current limit).status = "warning" →
      (createLimitStatus type current limit).canProceed = true) := by
  have hlq : (0 : ℚ) < (limit : ℚ) := by exact_mod_cast hl
  have hs : (createLimitStatus type current limit).status =
      statusOf (JSNumber.div current limit).times100 := rfl
  have hcp : (createLimitStatus type current limit).canProceed = decide (current < limit) := rfl
  have hr : (createLimitStatus type current limit).remaining = max 0 (limit - current) := rfl
  have key : limit ≤ current → statusOf (JSNumber.div current limit).times100 = "critical" := by
    intro h
    rw [statusOf_percentage current limit hl]
    have h1 : (1 : ℚ) ≤ (current : ℚ) / (limit : ℚ) := by
      rw [le_div_iff₀ hlq]
      have : (limit : ℚ) ≤ (current : ℚ) := by exact_mod_cast h
      linarith
    rw [if_pos (by linarith)]
  constructor
  · intro h
    rw [hcp, decide_eq_false_iff_not, not_lt] at h
    exact ⟨hs ▸ key h, by rw [hr]; exact max_eq_left (by omega)⟩
  · intro h
    rw [hcp, decide_eq_true_eq]
    by_contra hlt
    have hcrit := key (not_lt.mp hlt)
    rw [hs, hcrit] at h
    rcases h with h | h
    · exact absurd h (by decide)
    · exact absurd h (by decide)

/-- Witness for claim C28: at 40 of 40 the action is blocked, the status is `critical` and
nothing remains. -/
theorem createLimitStatus_blocked_is_critical_witness :
    (createLimitStatus "messages" 40 40).status = "critical" ∧
      (createLimitStatus "messages" 40 40).remaining = 0 :=
  (createLimitStatus_blocked_is_critical "messages" 40 40 (by decide)).1 rfl

/-- The shape of the week: `getWeekActivity` returns exactly 7 day-records; the record at
position `i` (0 to 6) belongs to the date the code prints after stepping `i` days back: it
is the stored record of that date when there is one, and otherwise a record that carries
that date with `messagesSent = 0` and `connectionsSent = 0`. -/
theorem getWeekActivity_records (now : Clock) (stored : ActivityMap) :
    (getWeekActivity now stored).length = 7 ∧
    ∀ i : Nat, i < 7 →
      (∀ r : DayRecord, lookupDay (isoDate (now.localDaysAgo i)) stored = some r →
        (getWeekActivity now stored)[i]? = some r) ∧
      (lookupDay (isoDate (now.localDaysAgo i)) stored = none →
        ∃ r : DayRecord, (getWeekActivity now stored)[i]? = some r ∧
          r.date = isoDate (now.localDaysAgo i) ∧ r.messagesSent = 0 ∧
          r.connectionsSent = 0) := by
  have hget : ∀ i : Nat, i < 7 →
      (getWeekActivity now stored)[i]? = some (weekRecord now stored i) := by
    intro i hi
    unfold getWeekActivity
    rw [List.getElem?_map, List.getElem?_range hi]
    rfl
  refine ⟨by simp [getWeekActivity], ?_⟩
  intro i hi
  constructor
  · intro r hr
    rw [hget i hi]
    unfold weekRecord
    rw [hr]
    rfl
  · intro hnone
    refine ⟨weekRecord now stored i, hget i hi, ?_⟩
    unfold weekRecord
    rw [hnone]
    exact ⟨rfl, rfl, rfl⟩

/-- Claim C24 (`LinkedInLimitsManager.getWeekActivity`), the code at the failing input.  On
a machine in the zone `Pacific/Auckland`, at 2024-04-10T00:30Z (12:30 local time), the code
steps back in local days and prints UTC dates: local 12:30 of 6 April is still daylight
time, 23:30 of 5 April in UTC.  The seven records are for 10, 9, 8, 7, 5, 4 and 3 April:
position 4 is not today minus 4 days, 2024-04-06 is left out although it has a stored
record, and the last record is 7 days back.  On a machine set to UTC position 4 is the
stored record of 2024-04-06. -/
theorem getWeekActivity_skips_a_day :
    (getWeekActivity ⟨⟨2024, 4, 10⟩, 30, aucklandZone⟩
        [("2024-04-06", ⟨"2024-04-06", 2, 5, none⟩)]).map (fun day => day.date) =
      ["2024-04-10", "2024-04-09", "2024-04-08", "2024-04-07", "2024-04-05", "2024-04-04",
        "2024-04-03"] ∧
    isoDate (daysBefore 4 ⟨2024, 4, 10⟩) = "2024-04-06" ∧
    (getWeekActivity ⟨⟨2024, 4, 10⟩, 30, aucklandZone⟩
        [("2024-04-06", ⟨"2024-04-06", 2, 5, none⟩)])[4]? =
      some ⟨"2024-04-05", 0, 0, none⟩ ∧
    (getWeekActivity (utcClock ⟨2024, 4, 10⟩)
        [("2024-04-06", ⟨"2024-04-06", 2, 5, none⟩)])[4]? =
      some ⟨"2024-04-06", 2, 5, none⟩ := by
  decide!

/-! ## Length estimate -/

theorem replaceAllAux_eq (p r : List Char) : ∀ (fuel : Nat) (s : List Char),
    replaceAllAux p r fuel s = replaceEachAux [(p, r)] fuel s := by
  intro fuel
  induction fuel with
  | zero => intro s; rfl
  | succ n ih =>
    intro s
    cases s with
    | nil => rfl
    | cons c cs =>
      simp only [replaceAllAux, replaceEachAux, List.find?, beginsWith]
      by_cases h : p.isPrefixOf (c :: cs) = true
      · simp only [h, if_true, ih]
      · simp only [Bool.not_eq_true] at h
        simp only [h, Bool.false_eq_true, if_false, ih]

theorem replaceAll_eq (p r : String) (s : List Char) :
    replaceAll p r s = replaceEach [(p.data, r.data)] s :=
  replaceAllAux_eq p.data r.data s.length s

theorem length_drop_lt_of_find (tbl : List (List Char × List Char))
    (htbl : ∀ e ∈ tbl, e.1 ≠ []) (c : Char) (cs : List Char) (e : List Char × List Char)
    (h : tbl.find? (beginsWith (c :: cs)) = some e) :
    ((c :: cs).drop e.1.length).length ≤ cs.length := by
  have hmem := List.mem_of_find?_eq_some h
  have hne := htbl e hmem
  have hpos : 0 < e.1.length := List.length_pos.mpr hne
  simp only [List.length_drop, List.length_cons]
  omega

theorem replaceEachAux_fuel (tbl : List (List Char × List Char))
    (htbl : ∀ e ∈ tbl, e.1 ≠ []) (fuel1 : Nat) : ∀ (fuel2 : Nat) (s : List Char),
    s.length ≤ fuel1 → s.length ≤ fuel2 →
      replaceEachAux tbl fuel1 s = replaceEachAux tbl fuel2 s := by
  induction fuel1 with
  | zero =>
    intro fuel2 s h1 _
    have : s = [] := List.length_eq_zero.mp (Nat.le_zero.mp h1)
    subst this
    cases fuel2 <;> rfl
  | succ n ih =>
    intro fuel2 s h1 h2
    cases s with
    | nil => cases fuel2 <;> rfl
    | cons c cs =>
      cases fuel2 with
      | zero => simp at h2
      | succ m =>
        simp only [List.length_cons, Nat.add_le_add_iff_right] at h1 h2
        simp only [replaceEachAux]
        cases hf : tbl.find? (beginsWith (c :: cs)) with
        | none =>
          simp only
          rw [ih m cs h1 h2]
        | some e =>
          have hl := length_drop_lt_of_find tbl htbl c cs e hf
          simp only
          rw [ih m _ (by omega) (by omega)]

theorem replaceEach_nil (tbl : List (List Char × List Char)) : replaceEach tbl [] = [] := rfl

theorem replaceEach_cons_none (tbl : List (List Char × List Char)) (c : Char) (cs : List Char)
    (h : tbl.find? (beginsWith (c :: cs)) = none) :
    replaceEach tbl (c :: cs) = c :: replaceEach tbl cs := by
  simp only [replaceEach, List.length_cons, replaceEachAux, h]

theorem replaceEach_cons_some (tbl : List (List Char × List Char))
    (htbl : ∀ e ∈ tbl, e.1 ≠ []) (c : Char) (cs : List Char) (e : List Char × List Char)
    (h : tbl.find? (beginsWith (c :: cs)) = some e) :
    replaceEach tbl (c :: cs) = e.2 ++ replaceEach tbl ((c :: cs).drop e.1.length) := by
  have hl := length_drop_lt_of_find tbl htbl c cs e h
  simp only [replaceEach, List.length_cons, replaceEachAux, h]
  rw [replaceEachAux_fuel tbl htbl cs.length _ _ hl (le_refl _)]

theorem BraceTable.ne_nil {tbl : List (List Char × List Char)} (h : BraceTable tbl) :
    ∀ e ∈ tbl, e.1 ≠ [] := by
  intro e he
  obtain ⟨t, ht⟩ := h e he
  rw [ht]
  simp

theorem find_none_of_ne_open (tbl : List (List Char × List Char)) (h : BraceTable tbl)
    (c : Char) (cs : List Char) (hc : c ≠ '{') :
    tbl.find? (beginsWith (c :: cs)) = none := by
  rw [List.find?_eq_none]
  intro e he
  obtain ⟨t, ht⟩ := h e he
  simp only [beginsWith, ht, Bool.not_eq_true]
  rw [Bool.eq_false_iff]
  intro hp
  have := List.isPrefixOf_iff_prefix.mp hp
  rw [List.cons_prefix_cons] at this
  exact hc this.1.symm

theorem find_none_of_second_ne_open (tbl : List (List Char × List Char)) (h : BraceTable tbl)
    (c d : Char) (cs : List Char) (hd : d ≠ '{') :
    tbl.find? (beginsWith (c :: d :: cs)) = none := by
  rw [List.find?_eq_none]
  intro e he
  obtain ⟨t, ht⟩ := h e he
  simp only [beginsWith, ht, Bool.not_eq_true]
  rw [Bool.eq_false_iff]
  intro hp
  have := List.isPrefixOf_iff_prefix.mp hp
  rw [List.cons_prefix_cons, List.cons_prefix_cons] at this
  exact hd this.2.1.symm

/-- A run of characters other than `{` is kept as written. -/
theorem replaceEach_skip (tbl : List (List Char × List Char)) (h : BraceTable tbl)
    (x tail : List Char) (hx : ∀ c ∈ x, c ≠ '{') :
    replaceEach tbl (x ++ tail) = x ++ replaceEach tbl tail := by
  induction x with
  | nil => rfl
  | cons a x ih =>
    rw [List.cons_append,
      replaceEach_cons_none tbl a _ (find_none_of_ne_open tbl h a _ (hx a (List.mem_cons_self _ _))),
      ih (fun c hc => hx c (List.mem_cons_of_mem _ hc))]
    rfl

/-- A text that avoids the first character of every value begins the result only where it
begins the input. -/
theorem prefix_of_prefix_replaceEach (tbl : List (List Char × List Char))
    (htbl : ∀ e ∈ tbl, e.1 ≠ []) (q : List Char)
    (hq : ∀ e ∈ tbl, ∃ x xs, e.2 = x :: xs ∧ x ∉ q) :
    ∀ s : List Char, q <+: replaceEach tbl s → q <+: s := by
  induction q with
  | nil => intro s _; exact List.nil_prefix
  | cons a q ih =>
    have hq2 : ∀ e ∈ tbl, ∃ x xs, e.2 = x :: xs ∧ x ∉ q := by
      intro e he
      obtain ⟨x, xs, h1, h2⟩ := hq e he
      exact ⟨x, xs, h1, fun hm => h2 (List.mem_cons_of_mem _ hm)⟩
    intro s hs
    cases s with
    | nil =>
      rw [replaceEach_nil] at hs
      exact absurd (List.prefix_nil.mp hs) (by simp)
    | cons c cs =>
      cases hf : tbl.find? (beginsWith (c :: cs)) with
      | none =>
        rw [replaceEach_cons_none tbl c cs hf, List.cons_prefix_cons] at hs
        rw [List.cons_prefix_cons]
        exact ⟨hs.1, ih hq2 cs hs.2⟩
      | some e =>
        rw [replaceEach_cons_some tbl htbl c cs e hf] at hs
        obtain ⟨x, xs, h1, h2⟩ := hq e (List.mem_of_find?_eq_some hf)
        rw [h1, List.cons_append, List.cons_prefix_cons] at hs
        exact absurd (hs.1 ▸ List.mem_cons_self a q) h2

theorem find_append_single (tbl : List (List Char × List Char)) (e : List Char × List Char)
    (s : List Char) :
    (tbl ++ [e]).find? (beginsWith s) =
      match tbl.find? (beginsWith s) with
      | some x => some x
      | none => if beginsWith s e then some e else none := by
  rw [List.find?_append]
  cases tbl.find? (beginsWith s) with
  | some x => rfl
  | none =>
    simp only [Option.none_or, List.find?]
    cases beginsWith s e <;> rfl

theorem BraceTable.append {tbl : List (List Char × List Char)} (h : BraceTable tbl)
    (p r : List Char) (hp : ∃ t, p = '{' :: '{' :: t) : BraceTable (tbl ++ [(p, r)]) := by
  intro e he
  rcases List.mem_append.mp he with he | he
  · exact h e he
  · rw [List.mem_singleton.mp he]
    exact hp

/-- One more global replacement, made after the replacements of a table, gives what the
table extended by it gives in one reading. -/
theorem replaceEach_compose (tbl : List (List Char × List Char)) (b r : List Char)
    (htbl : BraceTable tbl)
    (hval : ∀ e ∈ tbl, '{' ∉ e.2 ∧
      ∃ x xs, e.2 = x :: xs ∧ x ∉ '{' :: (b ++ ['}', '}']))
    (hb : b ≠ []) (hbw : ∀ c ∈ b, c ≠ '{') (n : Nat) :
    ∀ s : List Char, s.length ≤ n →
      replaceEach [('{' :: '{' :: (b ++ ['}', '}']), r)] (replaceEach tbl s) =
        replaceEach (tbl ++ [('{' :: '{' :: (b ++ ['}', '}']), r)]) s := by
  have hone : BraceTable [('{' :: '{' :: (b ++ ['}', '}']), r)] := by
    intro e he
    rw [List.mem_singleton.mp he]
    exact ⟨_, rfl⟩
  have hext : BraceTable (tbl ++ [('{' :: '{' :: (b ++ ['}', '}']), r)]) :=
    htbl.append _ r ⟨_, rfl⟩
  induction n with
  | zero =>
    intro s hs
    have : s = [] := List.length_eq_zero.mp (Nat.le_zero.mp hs)
    subst this
    rfl
  | succ n ih =>
    intro s hs
    cases s with
    | nil => rfl
    | cons c cs =>
      simp only [List.length_cons, Nat.add_le_add_iff_right] at hs
      cases hf : tbl.find? (beginsWith (c :: cs)) with
      | some e =>
        have he := List.mem_of_find?_eq_some hf
        have hl := length_drop_lt_of_find tbl htbl.ne_nil c cs e hf
        have hf2 : (tbl ++ [('{' :: '{' :: (b ++ ['}', '}']), r)]).find?
            (beginsWith (c :: cs)) = some e := by
          rw [find_append_single, hf]
        rw [replaceEach_cons_some tbl htbl.ne_nil c cs e hf,
          replaceEach_cons_some _ hext.ne_nil c cs e hf2,
          replaceEach_skip _ hone e.2 _ (fun x hx hxe => (hval e he).1 (hxe ▸ hx)),
          ih _ (le_trans hl hs)]
      | none =>
        by_cases hp : beginsWith (c :: cs) ('{' :: '{' :: (b ++ ['}', '}']), r) = true
        · have hf2 : (tbl ++ [('{' :: '{' :: (b ++ ['}', '}']), r)]).find?
              (beginsWith (c :: cs)) = some ('{' :: '{' :: (b ++ ['}', '}']), r) := by
            rw [find_append_single, hf]
            simp only [hp, if_true]
          obtain ⟨rest, hrest⟩ := List.isPrefixOf_iff_prefix.mp hp
          simp only at hrest
          have hdrop : (c :: cs).drop ('{' :: '{' :: (b ++ ['}', '}'])).length = rest := by
            rw [← hrest, List.drop_left]
          have hlen : rest.length ≤ n := by
            have := congrArg List.length hrest
            simp only [List.length_cons, List.length_append, List.length_nil] at this
            omega
          rw [replaceEach_cons_some _ hext.ne_nil c cs _ hf2]
          simp only [hdrop]
          -- the table leaves the placeholder as written
          have hkeep : replaceEach tbl (c :: cs) =
              '{' :: '{' :: (b ++ ['}', '}']) ++ replaceEach tbl rest := by
            have hcs : c :: cs = '{' :: '{' :: ((b ++ ['}', '}']) ++ rest) := by
              rw [← hrest]; simp
            rw [replaceEach_cons_none tbl c cs hf]
            simp only [List.cons.injEq] at hcs
            obtain ⟨hc1, hcs2⟩ := hcs
            subst hc1
            rw [hcs2]
            cases b with
            | nil => exact absurd rfl hb
            | cons b0 b1 =>
              have hb0 : b0 ≠ '{' := hbw b0 (List.mem_cons_self _ _)
              rw [List.cons_append, List.cons_append,
                replaceEach_cons_none tbl '{' _
                  (find_none_of_second_ne_open tbl htbl '{' b0 _ hb0)]
              have := replaceEach_skip tbl htbl (b0 :: (b1 ++ ['}', '}'])) rest (by
                intro x hx
                rcases List.mem_cons.mp hx with hx | hx
                · rw [hx]; exact hb0
                · rcases List.mem_append.mp hx with hx | hx
                  · exact hbw x (List.mem_cons_of_mem _ hx)
                  · simp only [List.mem_cons, List.mem_singleton, List.not_mem_nil,
                      or_false] at hx
                    rcases hx with hx | hx <;> rw [hx] <;> decide)
              rw [List.cons_append] at this
              rw [this]
              simp
          rw [hkeep]
          have hpre : ([('{' :: '{' :: (b ++ ['}', '}']), r)] : List (List Char × List Char)).find?
              (beginsWith ('{' :: ('{' :: (b ++ ['}', '}']) ++ replaceEach tbl rest))) =
                some ('{' :: '{' :: (b ++ ['}', '}']), r) := by
            have : beginsWith ('{' :: ('{' :: (b ++ ['}', '}']) ++ replaceEach tbl rest))
                ('{' :: '{' :: (b ++ ['}', '}']), r) = true := by
              apply List.isPrefixOf_iff_prefix.mpr
              exact ⟨replaceEach tbl rest, by simp⟩
            simp only [List.find?, this]
          rw [List.cons_append, replaceEach_cons_some _ hone.ne_nil _ _ _ hpre]
          have hdrop2 : ('{' :: ('{' :: (b ++ ['}', '}']) ++ replaceEach tbl rest)).drop
              ('{' :: '{' :: (b ++ ['}', '}'])).length = replaceEach tbl rest := by
            have : '{' :: ('{' :: (b ++ ['}', '}']) ++ replaceEach tbl rest) =
                ('{' :: '{' :: (b ++ ['}', '}'])) ++ replaceEach tbl rest := by simp
            rw [this, List.drop_left]
          simp only [hdrop2]
          rw [ih rest hlen]
        · have hf2 : (tbl ++ [('{' :: '{' :: (b ++ ['}', '}']), r)]).find?
              (beginsWith (c :: cs)) = none := by
            rw [find_append_single, hf]
            simp only [hp, Bool.false_eq_true, if_false]
          rw [replaceEach_cons_none tbl c cs hf, replaceEach_cons_none _ c cs hf2]
          have hnp : ([('{' :: '{' :: (b ++ ['}', '}']), r)] : List (List Char × List Char)).find?
              (beginsWith (c :: replaceEach tbl cs)) = none := by
            rw [List.find?_eq_none]
            intro e he
            rw [List.mem_singleton.mp he]
            simp only [beginsWith, Bool.not_eq_true]
            rw [Bool.eq_false_iff]
            intro hpp
            have h1 := List.isPrefixOf_iff_prefix.mp hpp
            rw [List.cons_prefix_cons] at h1
            have h2 := prefix_of_prefix_replaceEach tbl htbl.ne_nil _
              (fun e he => (hval e he).2) cs h1.2
            apply hp
            simp only [beginsWith]
            apply List.isPrefixOf_iff_prefix.mpr
            rw [List.cons_prefix_cons]
            exact ⟨h1.1, h2⟩
          rw [replaceEach_cons_none _ c _ hnp, ih cs hs]

theorem braceTable_sampleValues : BraceTable sampleValues := by
  intro e he
  simp only [sampleValues, List.mem_cons, List.mem_singleton, List.not_mem_nil, or_false] at he
  rcases he with h | h | h | h | h <;> rw [h] <;> exact ⟨_, rfl⟩

theorem replaceAll_samples (s : List Char) :
    replaceAll "{{role}}" "Product Manager"
      (replaceAll "{{company}}" "TechCorp"
        (replaceAll "{{name}}" "John Smith"
          (replaceAll "{{lastName}}" "Smith"
            (replaceAll "{{firstName}}" "John" s)))) = replaceEach sampleValues s := by
  have t1 : BraceTable [("{{firstName}}".data, "John".data)] := by
    intro e he
    simp only [List.mem_singleton] at he
    rw [he]; exact ⟨_, rfl⟩
  have t2 : BraceTable [("{{firstName}}".data, "John".data), ("{{lastName}}".data, "Smith".data)] :=
    t1.append _ _ ⟨_, rfl⟩
  have t3 : BraceTable [("{{firstName}}".data, "John".data), ("{{lastName}}".data, "Smith".data),
      ("{{name}}".data, "John Smith".data)] := t2.append _ _ ⟨_, rfl⟩
  have t4 : BraceTable [("{{firstName}}".data, "John".data), ("{{lastName}}".data, "Smith".data),
      ("{{name}}".data, "John Smith".data), ("{{company}}".data, "TechCorp".data)] :=
    t3.append _ _ ⟨_, rfl⟩
  have c2 := replaceEach_compose _ "lastName".data "Smith".data t1
    (by
      intro e he
      simp only [List.mem_singleton] at he
      rw [he]
      exact ⟨by decide, _, _, rfl, by decide⟩)
    (by decide) (by decide) s.length s (le_refl _)
  have c3 := replaceEach_compose _ "name".data "John Smith".data t2
    (by
      intro e he
      simp only [List.mem_cons, List.mem_singleton, List.not_mem_nil, or_false] at he
      rcases he with h | h <;> rw [h] <;> exact ⟨by decide, _, _, rfl, by decide⟩)
    (by decide) (by decide) s.length s (le_refl _)
  have c4 := replaceEach_compose _ "company".data "TechCorp".data t3
    (by
      intro e he
      simp only [List.mem_cons, List.mem_singleton, List.not_mem_nil, or_false] at he
      rcases he with h | h | h <;> rw [h] <;> exact ⟨by decide, _, _, rfl, by decide⟩)
    (by decide) (by decide) s.length s (le_refl _)
  have c5 := replaceEach_compose _ "role".data "Product Manager".data t4
    (by
      intro e he
      simp only [List.mem_cons, List.mem_singleton, List.not_mem_nil, or_false] at he
      rcases he with h | h | h | h <;> rw [h] <;> exact ⟨by decide, _, _, rfl, by decide⟩)
    (by decide) (by decide) s.length s (le_refl _)
  rw [replaceAll_eq, replaceAll_eq, replaceAll_eq, replaceAll_eq, replaceAll_eq]
  have h3 := (congrArg (replaceEach [("{{name}}".data, "John Smith".data)]) c2).trans c3
  have h4 := (congrArg (replaceEach [("{{company}}".data, "TechCorp".data)]) h3).trans c4
  exact (congrArg (replaceEach [("{{role}}".data, "Product Manager".data)]) h4).trans c5

theorem PlaceholderTable.brace {tbl : List (List Char × List Char)} (h : PlaceholderTable tbl) :
    BraceTable tbl := by
  intro e he
  obtain ⟨w, _, hw⟩ := h.1 e he
  exact ⟨_, hw⟩

/-- Text left as written where no listed placeholder occurs. -/
theorem replaceEach_of_no_occurrence (tbl : List (List Char × List Char)) (s : List Char)
    (h : ∀ e ∈ tbl, ¬ e.1 <:+: s) : replaceEach tbl s = s := by
  induction s with
  | nil => rfl
  | cons c cs ih =>
    have hf : tbl.find? (beginsWith (c :: cs)) = none := by
      rw [List.find?_eq_none]
      intro e he hp
      exact h e he (List.isPrefixOf_iff_prefix.mp hp).isInfix
    rw [replaceEach_cons_none tbl c cs hf, ih]
    intro e he hi
    exact h e he (hi.trans (List.suffix_cons c cs).isInfix)

theorem placeholder_prefix_unique (w1 w2 s : List Char) (h1 : IsIdentifier w1)
    (h2 : IsIdentifier w2) (p1 : ('{' :: '{' :: (w1 ++ ['}', '}'])) <+: s)
    (p2 : ('{' :: '{' :: (w2 ++ ['}', '}'])) <+: s) : w1 = w2 := by
  obtain ⟨r1, hr1⟩ := p1
  obtain ⟨r2, hr2⟩ := p2
  have m1 := matchVariable_hit w1 r1 h1.1 h1.2
  have m2 := matchVariable_hit w2 r2 h2.1 h2.2
  have e1 : '{' :: '{' :: (w1 ++ '}' :: '}' :: r1) = s := by rw [← hr1]; simp
  have e2 : '{' :: '{' :: (w2 ++ '}' :: '}' :: r2) = s := by rw [← hr2]; simp
  rw [e1] at m1
  rw [e2, m1] at m2
  simp only [Option.some.injEq, Prod.mk.injEq] at m2
  exact m2.1

/-- A placeholder that begins before another placeholder ends before it. -/
theorem placeholder_before_placeholder (c : Char) (a tail w rest : List Char)
    (hw : IsIdentifier w)
    (h : (c :: a) ++ '{' :: '{' :: tail = '{' :: '{' :: (w ++ '}' :: '}' :: rest)) :
    ∃ t2, c :: a = '{' :: '{' :: (w ++ '}' :: '}' :: t2) ∧ rest = t2 ++ '{' :: '{' :: tail := by
  simp only [List.cons_append, List.cons.injEq] at h
  obtain ⟨hc, h⟩ := h
  cases a with
  | nil =>
    simp only [List.nil_append, List.cons.injEq, true_and] at h
    obtain ⟨hw1, hw2⟩ := hw
    cases w with
    | nil => exact absurd rfl hw1
    | cons x w2 =>
      simp only [List.cons_append, List.cons.injEq] at h
      have := hw2 x (List.mem_cons_self _ _)
      rw [← h.1, isWordChar_open] at this
      exact absurd this (by simp)
  | cons x a2 =>
    simp only [List.cons_append, List.cons.injEq] at h
    obtain ⟨hx, h⟩ := h
    obtain ⟨t2, h1, h2⟩ := word_run_split w hw.2 a2 ('{' :: tail) rest h
    exact ⟨t2, by rw [hc, hx, h1], h2⟩

theorem find?_congr_mem {α : Type} (p q : α → Bool) (l : List α)
    (h : ∀ x ∈ l, p x = q x) : l.find? p = l.find? q := by
  induction l with
  | nil => rfl
  | cons a l ih =>
    have ha := h a (List.mem_cons_self _ _)
    have ih2 := ih (fun x hx => h x (List.mem_cons_of_mem _ hx))
    simp only [List.find?, ha, ih2]

/-- Every occurrence of a listed placeholder is replaced by its value, whatever stands
before and after it. -/
theorem replaceEach_occurrence (tbl : List (List Char × List Char)) (h : PlaceholderTable tbl)
    (e : List Char × List Char) (he : e ∈ tbl) (b : List Char) (n : Nat) :
    ∀ a : List Char, a.length ≤ n →
      replaceEach tbl (a ++ e.1 ++ b) = replaceEach tbl a ++ e.2 ++ replaceEach tbl b := by
  obtain ⟨w, hw, hew⟩ := h.1 e he
  induction n with
  | zero =>
    intro a ha
    have : a = [] := List.length_eq_zero.mp (Nat.le_zero.mp ha)
    subst this
    have hs : [] ++ e.1 ++ b = '{' :: ('{' :: (w ++ ['}', '}']) ++ b) := by rw [hew]; simp
    have hpre : e.1 <+: '{' :: ('{' :: (w ++ ['}', '}']) ++ b) := by
      rw [hew]; exact ⟨b, by simp⟩
    have hsome : ∃ e2, tbl.find? (beginsWith ('{' :: ('{' :: (w ++ ['}', '}']) ++ b))) =
        some e2 := by
      cases hf : tbl.find? (beginsWith ('{' :: ('{' :: (w ++ ['}', '}']) ++ b))) with
      | some e2 => exact ⟨e2, rfl⟩
      | none =>
        rw [List.find?_eq_none] at hf
        exact absurd (List.isPrefixOf_iff_prefix.mpr hpre) (hf e he)
    obtain ⟨e2, hf⟩ := hsome
    have he2 := List.mem_of_find?_eq_some hf
    have hb2 : beginsWith ('{' :: ('{' :: (w ++ ['}', '}']) ++ b)) e2 = true :=
      List.find?_some hf
    have hp2 : e2.1 <+: '{' :: ('{' :: (w ++ ['}', '}']) ++ b) :=
      List.isPrefixOf_iff_prefix.mp hb2
    obtain ⟨w2, hw2, hew2⟩ := h.1 e2 he2
    have hww : w2 = w := by
      apply placeholder_prefix_unique w2 w ('{' :: ('{' :: (w ++ ['}', '}']) ++ b)) hw2 hw
      · rw [← hew2]; exact hp2
      · rw [← hew]; exact hpre
    have hee : e2 = e := h.2 e2 he2 e he (by rw [hew2, hew, hww])
    rw [hs, replaceEach_cons_some tbl h.brace.ne_nil _ _ e2 hf, hee]
    have hdrop : ('{' :: ('{' :: (w ++ ['}', '}']) ++ b)).drop e.1.length = b := by
      have : '{' :: ('{' :: (w ++ ['}', '}']) ++ b) = e.1 ++ b := by rw [hew]; simp
      rw [this, List.drop_left]
    rw [hdrop, replaceEach_nil]
    simp
  | succ n ih =>
    intro a ha
    cases a with
    | nil => exact ih [] (Nat.zero_le _)
    | cons c a2 =>
      simp only [List.length_cons, Nat.add_le_add_iff_right] at ha
      have hs : (c :: a2) ++ e.1 ++ b = c :: (a2 ++ e.1 ++ b) := by simp
      rw [hs]
      cases hf : tbl.find? (beginsWith (c :: (a2 ++ e.1 ++ b))) with
      | none =>
        have hf2 : tbl.find? (beginsWith (c :: a2)) = none := by
          rw [List.find?_eq_none] at hf ⊢
          intro x hx hp
          apply hf x hx
          apply List.isPrefixOf_iff_prefix.mpr
          have := List.isPrefixOf_iff_prefix.mp hp
          exact this.trans ⟨e.1 ++ b, by simp⟩
        rw [replaceEach_cons_none tbl c _ hf, replaceEach_cons_none tbl c a2 hf2, ih a2 ha]
        simp
      | some e2 =>
        have he2 := List.mem_of_find?_eq_some hf
        have hb2 : beginsWith (c :: (a2 ++ e.1 ++ b)) e2 = true := List.find?_some hf
        have hp2 : e2.1 <+: c :: (a2 ++ e.1 ++ b) := List.isPrefixOf_iff_prefix.mp hb2
        obtain ⟨w2, hw2, hew2⟩ := h.1 e2 he2
        obtain ⟨rest, hrest⟩ := hp2
        have hsplit : (c :: a2) ++ '{' :: '{' :: ((w ++ ['}', '}']) ++ b) =
            '{' :: '{' :: (w2 ++ '}' :: '}' :: rest) := by
          have : c :: (a2 ++ e.1 ++ b) = e2.1 ++ rest := hrest.symm
          rw [hew, hew2] at this
          simpa using this
        obtain ⟨t2, ht1, ht2⟩ := placeholder_before_placeholder c a2 _ w2 rest hw2 hsplit
        have hagree : ∀ x ∈ tbl,
            beginsWith (c :: (a2 ++ e.1 ++ b)) x = beginsWith (c :: a2) x := by
          intro x hx
          obtain ⟨wx, hwx, hewx⟩ := h.1 x hx
          have hfit : e2.1 <+: c :: a2 := by
            rw [ht1, hew2]; exact ⟨t2, by simp⟩
          by_cases hp : beginsWith (c :: (a2 ++ e.1 ++ b)) x = true
          · have hpx := List.isPrefixOf_iff_prefix.mp hp
            have hwe : wx = w2 := by
              apply placeholder_prefix_unique wx w2 (c :: (a2 ++ e.1 ++ b)) hwx hw2
              · rw [← hewx]; exact hpx
              · rw [← hew2]; exact ⟨rest, hrest⟩
            rw [hp]
            symm
            apply List.isPrefixOf_iff_prefix.mpr
            rw [hewx, hwe, ← hew2]
            exact hfit
          · simp only [Bool.not_eq_true] at hp
            rw [hp]
            symm
            rw [Bool.eq_false_iff]
            intro hq
            have hq2 := List.isPrefixOf_iff_prefix.mp hq
            have : beginsWith (c :: (a2 ++ e.1 ++ b)) x = true := by
              apply List.isPrefixOf_iff_prefix.mpr
              exact hq2.trans ⟨e.1 ++ b, by simp⟩
            rw [hp] at this
            exact absurd this (by simp)
        have hf2 : tbl.find? (beginsWith (c :: a2)) = some e2 := by
          rw [← find?_congr_mem _ _ tbl hagree]
          exact hf
        have hd1 : (c :: (a2 ++ e.1 ++ b)).drop e2.1.length = t2 ++ e.1 ++ b := by
          have : c :: (a2 ++ e.1 ++ b) = e2.1 ++ rest := hrest.symm
          rw [this, List.drop_left, ht2, hew]
          simp
        have hd2 : (c :: a2).drop e2.1.length = t2 := by
          have : c :: a2 = e2.1 ++ t2 := by rw [ht1, hew2]; simp
          rw [this, List.drop_left]
        have hlen : t2.length ≤ n := by
          have := congrArg List.length ht1
          simp only [List.length_cons, List.length_append] at this
          omega
        rw [replaceEach_cons_some tbl h.brace.ne_nil c _ e2 hf,
          replaceEach_cons_some tbl h.brace.ne_nil c a2 e2 hf2, hd1, hd2, ih t2 hlen]
        simp

theorem placeholderTable_sampleValues : PlaceholderTable sampleValues := by
  constructor
  · intro e he
    simp only [sampleValues, List.mem_cons, List.mem_singleton, List.not_mem_nil, or_false] at he
    rcases he with h | h | h | h | h
    · exact ⟨"firstName".data, by decide, by rw [h]; rfl⟩
    · exact ⟨"lastName".data, by decide, by rw [h]; rfl⟩
    · exact ⟨"name".data, by decide, by rw [h]; rfl⟩
    · exact ⟨"company".data, by decide, by rw [h]; rfl⟩
    · exact ⟨"role".data, by decide, by rw [h]; rfl⟩
  · decide

/-- Claim C25 (`TemplateEngine.estimateLength`).  For every template `T`: when a profile `P`
is supplied, the estimate is the length of what `render(T, P)` returns (and `render` does
return a string on every profile whose `name` and `headline` are strings or absent); when
no profile is supplied, the estimate is the length of `T` with every occurrence of
`{{firstName}}`, `{{lastName}}`, `{{name}}`, `{{company}}` and `{{role}}` replaced by
"John", "Smith", "John Smith", "TechCorp" and "Product Manager", all other text, other
placeholders included, being counted as written.  The last two parts say what the replaced
text is: a text in which none of the five occurs is left as it is, and each occurrence is
replaced by its value whatever stands before and after it. -/
theorem estimateLength_spec (T : String) :
    (∀ (P : Profile) (rendered : String),
      render (some T) (some P) = .ok (some rendered) →
        estimateLength T (some P) = .ok (jsLength rendered)) ∧
    (∀ P : Profile, P.WellTyped →
      ∃ rendered : String, render (some T) (some P) = .ok (some rendered)) ∧
    estimateLength T none = .ok (jsLength ⟨replaceEach sampleValues T.data⟩) ∧
    (∀ s : List Char, (∀ e ∈ sampleValues, ¬ e.1 <:+: s) → replaceEach sampleValues s = s) ∧
    (∀ (a b : List Char) (e : List Char × List Char), e ∈ sampleValues →
      replaceEach sampleValues (a ++ e.1 ++ b) =
        replaceEach sampleValues a ++ e.2 ++ replaceEach sampleValues b) := by
  refine ⟨?_, ?_, ?_, ?_, ?_⟩
  · intro P rendered h
    simp only [estimateLength, h]
  · intro P hP
    unfold render
    by_cases ht : T = ""
    · exact ⟨T, by simp only [ht, if_true]⟩
    · obtain ⟨out, hout⟩ := renderPieces_total P hP (scanVariables T.data)
      exact ⟨⟨out⟩, by simp only [ht, if_false, hout]⟩
  · simp only [estimateLength, replaceAll_samples]
  · intro s h
    exact replaceEach_of_no_occurrence sampleValues s h
  · intro a b e he
    exact replaceEach_occurrence sampleValues placeholderTable_sampleValues e he b a.length a
      (le_refl _)

/-! ## Message history and templates -/

theorem capMessages_eq_take (messages : List Message) :
    capMessages messages = messages.take 1000 := by
  unfold capMessages
  by_cases h : messages.length > 1000
  · rw [if_pos h]
  · rw [if_neg h, List.take_of_length_le (by omega)]

theorem take_cons_of_length_eq (saved : Message) (stored : List Message) (n : Nat)
    (h : stored.length = n + 1) : (saved :: stored).take (n + 1) = saved :: stored.dropLast := by
  rw [List.take_succ_cons, List.dropLast_eq_take, h]
  rfl

/-- Claim C26 (`StorageManager.saveMessage`, service worker `saveMessage`).  For every
stored list of `n ≤ 1000` messages, both functions write back the new message, with
`replied = false` and the content the caller gave, followed by the previous messages in
their previous order, truncated to its first 1000 entries: the length is `min(n + 1, 1000)`;
below the cap nothing is dropped, and at the cap only the last (oldest) entry is. -/
theorem saveMessage_newest_first (now : Nat) (newId : String) (m : Message)
    (stored : List Message) (hn : stored.length ≤ 1000) :
    (∃ saved : Message,
      saved.replied = some false ∧ saved.recipientName = m.recipientName ∧
      saved.messageContent = m.messageContent ∧ saved.templateId = m.templateId ∧
      (saveMessage now newId m stored).2 = saved ∧
      (saveMessage now newId m stored).1 = (saved :: stored).take 1000 ∧
      (stored.length < 1000 → (saveMessage now newId m stored).1 = saved :: stored) ∧
      (stored.length = 1000 →
        (saveMessage now newId m stored).1 = saved :: stored.dropLast)) ∧
    (saveMessage now newId m stored).1.length = min (stored.length + 1) 1000 ∧
    (∃ saved : Message,
      saved.replied = some false ∧ saved.recipientName = m.recipientName ∧
      saved.messageContent = m.messageContent ∧ saved.templateId = m.templateId ∧
      (ServiceWorker.saveMessage now newId m stored).2 = saved.id ∧
      (ServiceWorker.saveMessage now newId m stored).1 = (saved :: stored).take 1000 ∧
      (stored.length < 1000 →
        (ServiceWorker.saveMessage now newId m stored).1 = saved :: stored) ∧
      (stored.length = 1000 →
        (ServiceWorker.saveMessage now newId m stored).1 = saved :: stored.dropLast)) ∧
    (ServiceWorker.saveMessage now newId m stored).1.length = min (stored.length + 1) 1000 := by
  have key : ∀ saved : Message,
      capMessages (saved :: stored) = (saved :: stored).take 1000 ∧
      (stored.length < 1000 → capMessages (saved :: stored) = saved :: stored) ∧
      (stored.length = 1000 → capMessages (saved :: stored) = saved :: stored.dropLast) ∧
      (capMessages (saved :: stored)).length = min (stored.length + 1) 1000 := by
    intro saved
    rw [capMessages_eq_take]
    refine ⟨rfl, ?_, ?_, ?_⟩
    · intro h
      exact List.take_of_length_le (by simp only [List.length_cons]; omega)
    · intro h
      exact take_cons_of_length_eq saved stored 999 h
    · simp only [List.length_take, List.length_cons]
      omega
  refine ⟨⟨(saveMessage now newId m stored).2, rfl, rfl, rfl, rfl, rfl, (key _).1, (key _).2.1,
      (key _).2.2.1⟩, (key _).2.2.2,
    ⟨{ m with
        id := (ServiceWorker.saveMessage now newId m stored).2
        sentAt := some now
        replied := some false }, rfl, rfl, rfl, rfl, rfl, (key _).1, (key _).2.1,
      (key _).2.2.1⟩, (key _).2.2.2⟩

/-- Witness for claim C26: saving into a history of 1000 messages leaves 1000. -/
theorem saveMessage_newest_first_witness :
    (List.replicate 1000 (⟨some "old", some 1, some false, none, none, none, none⟩ : Message)).length
        ≤ 1000 ∧
      (saveMessage 5 "id1" ⟨none, none, none, none, none, some "Ada", some "Hello"⟩
        (List.replicate 1000 ⟨some "old", some 1, some false, none, none, none, none⟩)).1.length =
        1000 :=
  ⟨(List.length_replicate _ _).le,
   (saveMessage_newest_first 5 "id1" ⟨none, none, none, none, none, some "Ada", some "Hello"⟩
      (List.replicate 1000 ⟨some "old", some 1, some false, none, none, none, none⟩)
      (List.length_replicate _ _).le).2.1.trans (by rw [List.length_replicate]; rfl)⟩

theorem find?_updateFound {α : Type} (p : α → Bool) (f : α → α) (hpf : ∀ x, p (f x) = p x)
    (l : List α) : (updateFound p f l).find? p = (l.find? p).map f := by
  induction l with
  | nil => rfl
  | cons x xs ih =>
    unfold updateFound
    by_cases h : p x = true
    · rw [if_pos h, List.find?_cons_of_pos _ (by rw [hpf]; exact h),
        List.find?_cons_of_pos _ h]
      rfl
    · rw [if_neg h, List.find?_cons_of_neg _ h, List.find?_cons_of_neg _ h, ih]

theorem updateMessageReply_step (now : Nat) (messageId tid : String) (replied : Bool)
    (messages : List Message) (templates : List Template) (message : Message)
    (template : Template)
    (hm : messages.find? (fun m => decide (m.id = some messageId)) = some message)
    (htid : message.templateId = some tid) (hne : tid ≠ "")
    (ht : templates.find? (fun t => decide (t.id = some tid)) = some template) :
    ∃ (message2 : Message) (template2 : Template),
      (updateMessageReply now messageId replied messages templates).1.find?
        (fun m => decide (m.id = some messageId)) = some message2 ∧
      message2.templateId = some tid ∧ message2.replied = some replied ∧
      (updateMessageReply now messageId replied messages templates).2.find?
        (fun t => decide (t.id = some tid)) = some template2 ∧
      template2.replyCount =
        some (template.replyCount.getD 0 + (if replied then 1 else -1)) := by
  have hid : idTruthy (some tid) = true := by simp [idTruthy, hne]
  simp only [updateMessageReply, hm, htid, hid, if_true, ht]
  refine ⟨{ message with
      replied := some replied
      repliedAt := if replied then some now else none },
    { template with
      replyCount := some (template.replyCount.getD 0 + (if replied then 1 else -1)) },
    ?_, htid, rfl, ?_, rfl⟩
  · refine (find?_updateFound _ _ ?_ messages).trans ?_
    · intro x; rfl
    · rw [hm]; rfl
  · refine (find?_updateFound _ _ ?_ templates).trans ?_
    · intro x; rfl
    · rw [ht]; rfl

/-- Claim C27 (`StorageManager.updateMessageReply`).  `replyCount` has no lower bound.  For
every stored message that carries the `templateId` of a stored template whose `replyCount`
is `c` (an absent count reading as 0): a call with `false` sets that count to `c - 1` and a
call with `true` sets it to `c + 1`, whatever the `replied` flag of the message was; after
any sequence of calls the count is `c` plus the number of `true` flags minus the number of
`false` flags, so more `false` than `true` from 0 leaves it negative. -/
theorem updateMessageReply_replyCount (now : Nat) (messageId tid : String)
    (messages : List Message) (templates : List Template) (message : Message)
    (template : Template)
    (hm : messages.find? (fun m => decide (m.id = some messageId)) = some message)
    (htid : message.templateId = some tid) (hne : tid ≠ "")
    (ht : templates.find? (fun t => decide (t.id = some tid)) = some template) :
    (∀ replied : Bool, ∃ updated : Template,
      (updateMessageReply now messageId replied messages templates).2.find?
        (fun t => decide (t.id = some tid)) = some updated ∧
      updated.replyCount =
        some (template.replyCount.getD 0 + (if replied then 1 else -1))) ∧
    (∀ flags : List Bool, ∃ updated : Template,
      (updateMessageReplies now messageId flags (messages, templates)).2.find?
        (fun t => decide (t.id = some tid)) = some updated ∧
      updated.replyCount.getD 0 = template.replyCount.getD 0 + replyBalance flags) := by
  constructor
  · intro replied
    obtain ⟨_, template2, _, _, _, h4, h5⟩ :=
      updateMessageReply_step now messageId tid replied messages templates message template
        hm htid hne ht
    exact ⟨template2, h4, h5⟩
  · intro flags
    induction flags generalizing messages templates message template with
    | nil => exact ⟨template, ht, by simp [replyBalance]⟩
    | cons flag flags ih =>
      obtain ⟨message2, template2, h1, h2, _, h4, h5⟩ :=
        updateMessageReply_step now messageId tid flag messages templates message template
          hm htid hne ht
      obtain ⟨updated, hu1, hu2⟩ := ih _ _ message2 template2 h1 h2 h4
      refine ⟨updated, hu1, ?_⟩
      rw [hu2, h5]
      simp only [Option.getD_some, replyBalance]
      ring

/-- Witness for claim C27: a stored template without a count, and a message sent with it
that is marked replied; one call with `false` leaves the count at -1. -/
theorem updateMessageReply_replyCount_witness :
    ∃ updated : Template,
      (updateMessageReply 9 "m1" false
          [⟨some "m1", some 1, some true, some 2, some "t1", none, none⟩]
          [⟨some "t1", some "Intro", some "Hi", none, none, none, none, none⟩]).2.find?
        (fun t => decide (t.id = some "t1")) = some updated ∧
      updated.replyCount = some (-1) :=
  (updateMessageReply_replyCount 9 "m1" "t1"
    [⟨some "m1", some 1, some true, some 2, some "t1", none, none⟩]
    [⟨some "t1", some "Intro", some "Hi", none, none, none, none, none⟩]
    ⟨some "m1", some 1, some true, some 2, some "t1", none, none⟩
    ⟨some "t1", some "Intro", some "Hi", none, none, none, none, none⟩
    (by decide) rfl (by decide) (by decide)).1 false

/-! ## Saving a template -/

theorem findIndex_append_first {α : Type} (p : α → Bool) (pre : List α) (old : α)
    (post : List α) (hold : p old = true) (hpre : ∀ x ∈ pre, p x = false) :
    findIndex p (pre ++ old :: post) = some pre.length := by
  induction pre with
  | nil => simp [findIndex, hold]
  | cons a pre ih =>
    have ha : p a = false := hpre a (List.mem_cons_self _ _)
    have ih2 := ih (fun x hx => hpre x (List.mem_cons_of_mem _ hx))
    rw [List.cons_append]
    show (if p a = true then some 0 else (findIndex p (pre ++ old :: post)).map (· + 1)) = _
    rw [ha, ih2]
    rfl

theorem findIndex_none {α : Type} (p : α → Bool) (l : List α) (h : ∀ x ∈ l, p x = false) :
    findIndex p l = none := by
  induction l with
  | nil => rfl
  | cons a l ih =>
    have ha : p a = false := h a (List.mem_cons_self _ _)
    have ih2 := ih (fun x hx => h x (List.mem_cons_of_mem _ hx))
    show (if p a = true then some 0 else (findIndex p l).map (· + 1)) = none
    rw [ha, ih2]
    rfl

theorem set_append_first {α : Type} (pre : List α) (old new : α) (post : List α) :
    (pre ++ old :: post).set pre.length new = pre ++ new :: post := by
  induction pre with
  | nil => rfl
  | cons a pre ih => simp only [List.cons_append, List.length_cons, List.set_cons_succ, ih]

/-- Claim C29 (`StorageManager.saveTemplate`).  When the supplied template has the `id` of a
stored template, the first stored record with that `id` is replaced by exactly the supplied
fields with `updatedAt` set to the time of the call; every other stored template and the
order of the list are unchanged; a field the caller did not supply (`usageCount`,
`replyCount`, `createdAt`, `lastUsed`) is absent from the new record, whatever the old record
held.  When the `id` matches no stored template the stored list is left unchanged. -/
theorem saveTemplate_replaces (now : Nat) (newId id : String) (template : Template)
    (templates : List Template) (hid : template.id = some id) (hne : id ≠ "") :
    (∀ (pre post : List Template) (old : Template),
      templates = pre ++ old :: post → old.id = some id → (∀ x ∈ pre, x.id ≠ some id) →
        (saveTemplate now newId template templates).1 =
          pre ++ { template with updatedAt := some now } :: post ∧
        ({ template with updatedAt := some now } : Template).usageCount = template.usageCount ∧
        ({ template with updatedAt := some now } : Template).replyCount = template.replyCount ∧
        ({ template with updatedAt := some now } : Template).createdAt = template.createdAt ∧
        ({ template with updatedAt := some now } : Template).lastUsed = template.lastUsed) ∧
    ((∀ x ∈ templates, x.id ≠ some id) →
      (saveTemplate now newId template templates).1 = templates) := by
  have htruthy : idTruthy template.id = true := by simp [hid, idTruthy, hne]
  constructor
  · intro pre post old hsplit hold hpre
    refine ⟨?_, rfl, rfl, rfl, rfl⟩
    have hfind : findIndex (fun t : Template => decide (t.id = template.id)) templates =
        some pre.length := by
      rw [hsplit]
      apply findIndex_append_first
      · simp [hold, hid]
      · intro x hx
        simp [hid, hpre x hx]
    simp only [saveTemplate, htruthy, if_true, hfind]
    rw [hsplit, set_append_first]
  · intro hnone
    have hfind : findIndex (fun t : Template => decide (t.id = template.id)) templates = none := by
      apply findIndex_none
      intro x hx
      simp [hid, hnone x hx]
    simp only [saveTemplate, htruthy, if_true, hfind]

/-- Witness for claim C29: the edit `{id, name, content}` of the second of three stored
templates replaces it in place, and its usage and reply counts are gone. -/
theorem saveTemplate_replaces_witness :
    (saveTemplate 50 "fresh" ⟨some "t2", some "New", some "Hello", none, none, none, none, none⟩
        [⟨some "t1", some "A", some "a", some 1, some 1, some 3, some 1, some 2⟩,
         ⟨some "t2", some "B", some "b", some 1, some 1, some 7, some 4, some 2⟩,
         ⟨some "t3", some "C", some "c", some 1, some 1, some 0, some 0, none⟩]).1 =
      [⟨some "t1", some "A", some "a", some 1, some 1, some 3, some 1, some 2⟩,
       ⟨some "t2", some "New", some "Hello", none, some 50, none, none, none⟩,
       ⟨some "t3", some "C", some "c", some 1, some 1, some 0, some 0, none⟩] :=
  ((saveTemplate_replaces 50 "fresh" "t2"
    ⟨some "t2", some "New", some "Hello", none, none, none, none, none⟩
    [⟨some "t1", some "A", some "a", some 1, some 1, some 3, some 1, some 2⟩,
     ⟨some "t2", some "B", some "b", some 1, some 1, some 7, some 4, some 2⟩,
     ⟨some "t3", some "C", some "c", some 1, some 1, some 0, some 0, none⟩]
    rfl (by decide)).1
    [⟨some "t1", some "A", some "a", some 1, some 1, some 3, some 1, some 2⟩]
    [⟨some "t3", some "C", some "c", some 1, some 1, some 0, some 0, none⟩]
    ⟨some "t2", some "B", some "b", some 1, some 1, some 7, some 4, some 2⟩
    rfl rfl (by decide)).1

/-! ## Recording an activity -/

/-- Claim C30 (service worker `recordActivity`).  For every stored activity map whose record
of today, if present, has all three counters, and every activity type: today's record,
created with the three counters at zero when absent, gets exactly 1 added to the counter
of the type (`message`: `messagesSent`, `connection`: `connectionsSent`, `profile_view`:
`profileViews`) and nothing added for any other type; the record of every other date in
the map stays as it is, however old: nothing is pruned. -/
theorem recordActivity_counts (now : CivilDate) (type : String) (stored : ActivityMap)
    (before : DayRecord) (views : Int)
    (hbefore : (lookupDay (isoDate now) stored).getD
      (ServiceWorker.freshRecord (isoDate now)) = before)
    (hviews : before.profileViews = some (.int views)) :
    lookupDay (isoDate now) (ServiceWorker.recordActivity now type stored) =
      some
        { date := before.date
          messagesSent := before.messagesSent + (if type = "message" then 1 else 0)
          connectionsSent := before.connectionsSent + (if type = "connection" then 1 else 0)
          profileViews := some (.int (views + (if type = "profile_view" then 1 else 0))) } ∧
    (∀ key : String, key ≠ isoDate now →
      lookupDay key (ServiceWorker.recordActivity now type stored) = lookupDay key stored) ∧
    (lookupDay (isoDate now) stored = none →
      before = ⟨isoDate now, 0, 0, some (.int 0)⟩) := by
  have hm : ("message" : String) ≠ "connection" := by decide
  have hm2 : ("message" : String) ≠ "profile_view" := by decide
  have hc : ("connection" : String) ≠ "profile_view" := by decide
  -- the map after the creation step, and today's record in it
  have hact : ∀ activity : ActivityMap,
      lookupDay (isoDate now) activity = some before →
      (∀ key : String, key ≠ isoDate now → lookupDay key activity = lookupDay key stored) →
      lookupDay (isoDate now)
        (match lookupDay (isoDate now) activity with
          | some r =>
            if type = "message" then
              setDay (isoDate now) { r with messagesSent := r.messagesSent + 1 } activity
            else if type = "connection" then
              setDay (isoDate now) { r with connectionsSent := r.connectionsSent + 1 } activity
            else if type = "profile_view" then
              setDay (isoDate now) { r with profileViews := incrementCount r.profileViews }
                activity
            else activity
          | none => activity) =
        some
          { date := before.date
            messagesSent := before.messagesSent + (if type = "message" then 1 else 0)
            connectionsSent := before.connectionsSent + (if type = "connection" then 1 else 0)
            profileViews := some (.int (views + (if type = "profile_view" then 1 else 0))) } ∧
      (∀ key : String, key ≠ isoDate now →
        lookupDay key
          (match lookupDay (isoDate now) activity with
            | some r =>
              if type = "message" then
                setDay (isoDate now) { r with messagesSent := r.messagesSent + 1 } activity
              else if type = "connection" then
                setDay (isoDate now) { r with connectionsSent := r.connectionsSent + 1 } activity
              else if type = "profile_view" then
                setDay (isoDate now) { r with profileViews := incrementCount r.profileViews }
                  activity
              else activity
            | none => activity) = lookupDay key stored) := by
    intro activity h1 h2
    rw [h1]
    simp only
    by_cases t1 : type = "message"
    · subst t1
      simp only [if_true, if_neg hm, if_neg hm2, lookupDay_setDay, add_zero, hviews]
      refine ⟨trivial, ?_⟩
      intro key hkey
      rw [if_neg hkey, h2 key hkey]
    · rw [if_neg t1]
      by_cases t2 : type = "connection"
      · subst t2
        simp only [if_true, if_neg hc, if_neg t1, lookupDay_setDay, add_zero]
        refine ⟨by rw [hviews], ?_⟩
        intro key hkey
        rw [if_neg hkey, h2 key hkey]
      · rw [if_neg t2]
        by_cases t3 : type = "profile_view"
        · subst t3
          simp only [if_true, if_neg t1, if_neg t2, lookupDay_setDay, add_zero, hviews,
            incrementCount]
          refine ⟨trivial, ?_⟩
          intro key hkey
          rw [if_neg hkey, h2 key hkey]
        · rw [if_neg t3]
          simp only [if_neg t1, if_neg t2, if_neg t3, add_zero, h1]
          refine ⟨by rw [← hviews], h2⟩
  unfold ServiceWorker.recordActivity
  simp only
  cases hl : lookupDay (isoDate now) stored with
  | some r =>
    rw [hl] at hbefore
    simp only [Option.getD_some] at hbefore
    subst hbefore
    simp only
    obtain ⟨h1, h2⟩ := hact stored hl (fun _ _ => rfl)
    exact ⟨h1, h2, fun h => by simp at h⟩
  | none =>
    rw [hl] at hbefore
    simp only [Option.getD_none] at hbefore
    subst hbefore
    simp only
    obtain ⟨h1, h2⟩ := hact (setDay (isoDate now) (ServiceWorker.freshRecord (isoDate now)) stored)
      (by rw [lookupDay_setDay, if_pos rfl])
      (fun key hkey => by rw [lookupDay_setDay, if_neg hkey])
    exact ⟨h1, h2, fun _ => rfl⟩

/-- Witness for claim C30: on 2024-03-01, with a record of 2023-01-01 in the map and none
for today, a `profile_view` creates today's record with one profile view and leaves the old
record in place. -/
theorem recordActivity_counts_witness :
    lookupDay "2024-03-01"
        (ServiceWorker.recordActivity ⟨2024, 3, 1⟩ "profile_view"
          [("2023-01-01", ⟨"2023-01-01", 3, 1, some (.int 2)⟩)]) =
        some ⟨"2024-03-01", 0, 0, some (.int 1)⟩ ∧
      lookupDay "2023-01-01"
        (ServiceWorker.recordActivity ⟨2024, 3, 1⟩ "profile_view"
          [("2023-01-01", ⟨"2023-01-01", 3, 1, some (.int 2)⟩)]) =
        some ⟨"2023-01-01", 3, 1, some (.int 2)⟩ :=
  ⟨(recordActivity_counts ⟨2024, 3, 1⟩ "profile_view"
      [("2023-01-01", ⟨"2023-01-01", 3, 1, some (.int 2)⟩)]
      ⟨"2024-03-01", 0, 0, some (.int 0)⟩ 0 (by decide!) rfl).1,
   ((recordActivity_counts ⟨2024, 3, 1⟩ "profile_view"
      [("2023-01-01", ⟨"2023-01-01", 3, 1, some (.int 2)⟩)]
      ⟨"2024-03-01", 0, 0, some (.int 0)⟩ 0 (by decide!) rfl).2.1 "2023-01-01"
      (by decide!)).trans (by decide)⟩

end LinnectFlow
